import Mathlib

/-!
# meta-string-match: a shallow embedding of `meta_string_match.h`

The header compiles an alternation of literal byte strings (`"hi|hi2|..."`) into a
state table at build time (`calculate_table_length`, `compile_to_table`) and walks the
table one byte at a time at run time (`string_matcher_t::match_character`,
`string_matcher_t::full_reset`).

Modelling conventions

* A byte (`unsigned char`) is a natural number below 256; the pipe is 124 and the
  backslash is 92.  The spec string is the list of its bytes, and the loop index `i`
  of the source is the position of the remaining suffix of that list.
* The `size_t` counters of the build (`table_row`, `string_index`, `i`) are natural
  numbers: they count bytes of the spec and stay at or below its length.  The position
  counter of the run-time cursor is a `size_t` of 64 bits that the caller can feed
  without bound: `match_character` increments it modulo 2^64 (`size_t_values`).
* A callback pointer is `none` for `nullptr` and `some k` for `func_ptr_array[k]`,
  the k-th callback handed to the build.
* `static_fail_with_msg`, a failed `static_assert`, the read of a variable that has no
  value yet and an out-of-range array index all stop the constant evaluation; they
  are the `Except.error` results of the build functions.
-/

namespace meta

/-- The ways in which the build-time evaluation stops without a table. -/
inductive build_error where
  | invalid_character
  | trailing_backslash
  | invalid_escape
  | no_callbacks
  | table_length_zero
  | callback_count
  | uninitialized_read
  | index_out_of_range
  deriving DecidableEq, Repr

/-- Loop of `calculate_table_length` (lines 70-98), on the bytes from index `i` on. -/
def calculate_table_length_loop : List Nat → Nat → Except build_error Nat
  | [], result => .ok result
  | character :: rest, result =>
    if character > 127 then .error .invalid_character
    else if character = 124 then calculate_table_length_loop rest result
    else if character = 92 then
      match rest with
      | [] => .error .trailing_backslash
      | character2 :: rest2 =>
        if character2 > 127 then .error .invalid_character
        else if character2 = 124 ∨ character2 = 92 then
          calculate_table_length_loop rest2 (result + 1)
        else .error .invalid_escape
    else calculate_table_length_loop rest (result + 1)

/-- Function `calculate_table_length` (lines 59-101). -/
def calculate_table_length (meta_matcher_spec : List Nat) : Except build_error Nat :=
  calculate_table_length_loop meta_matcher_spec 0

/-- Cell of the index table: `next_state` 0 is the error state of an element. -/
structure string_matcher_with_indices_table_element_t where
  next_state : Nat
  callback : Option Nat
  deriving DecidableEq, Repr

/-- Cell of the run-time table: `next_state_ptr` is `none` for `nullptr`, else a row. -/
structure string_matcher_table_element_t where
  next_state_ptr : Option Nat
  callback : Option Nat
  deriving DecidableEq, Repr

/-- The zeroed cell `{ 0, nullptr }`. -/
def zero_element : string_matcher_with_indices_table_element_t := ⟨0, none⟩

/-- The rows of a table: row index, then byte value. -/
abbrev index_rows := Nat → Nat → string_matcher_with_indices_table_element_t

/-- Assignment `data[row][column] = element`. -/
def set_element (data : index_rows) (row column : Nat)
    (element : string_matcher_with_indices_table_element_t) : index_rows :=
  fun r c => if r = row ∧ c = column then element else data r c

/-- The local variables of `compile_to_table` (lines 336-362), the spec index apart.
`last_table_row` and `last_merge_row` are declared without a value. -/
structure compile_state where
  data : index_rows
  table_row : Nat
  last_table_row : Option Nat
  merge_row_current : Nat
  last_merge_row : Option Nat
  string_index : Nat
  character : Nat

/-- The state at line 362: zeroed table, `character = (unsigned char)-1`. -/
def compile_init : compile_state :=
  { data := fun _ _ => zero_element
    table_row := 0
    last_table_row := none
    merge_row_current := 0
    last_merge_row := none
    string_index := 0
    character := 255 }

/-- Comparison `x != -1` of an `unsigned char` with the `int` constant -1: the byte is
promoted to `int` first. -/
def differs_from_minus_one (x : Nat) : Bool := decide ((x : Int) ≠ -1)

/-- Read of `func_ptr_array[string_index]` in an array of `callbacks` entries. -/
def func_ptr (callbacks string_index : Nat) : Except build_error (Option Nat) :=
  if string_index < callbacks then .ok (some string_index) else .error .index_out_of_range

/-- Read of a row variable that may not have a value yet, used as a row index of a
table of `table_length` rows. -/
def row_index (table_length : Nat) (row : Option Nat) : Except build_error Nat :=
  match row with
  | none => .error .uninitialized_read
  | some r => if r < table_length then .ok r else .error .index_out_of_range

/-- Lines 379-384: the pipe case of the chain-building loop, `i++; break` apart. -/
def chain_pipe (table_length callbacks : Nat) (st : compile_state) :
    Except build_error compile_state :=
  let last_character := st.character
  if differs_from_minus_one last_character then
    match row_index table_length st.last_table_row, func_ptr callbacks st.string_index with
    | .ok row, .ok f =>
      .ok { st with data := set_element st.data row last_character ⟨0, f⟩
                    character := 255
                    string_index := st.string_index + 1 }
    | .error e, _ => .error e
    | _, .error e => .error e
  else .ok { st with character := 124, string_index := st.string_index + 1 }

/-- Lines 400-405: the default case of the chain-building loop for byte `character`. -/
def chain_default (table_length : Nat) (st : compile_state) (character : Nat) :
    Except build_error compile_state :=
  if st.table_row < table_length then
    .ok { st with last_table_row := some st.table_row
                  data := set_element st.data st.table_row character ⟨st.table_row + 1, none⟩
                  table_row := st.table_row + 1
                  character := character }
  else .error .index_out_of_range

/-- Lines 420-427: the pipe case of the merge loop, `continue` apart. -/
def merge_pipe (table_length callbacks : Nat) (st : compile_state) :
    Except build_error compile_state :=
  let last_character := st.character
  if differs_from_minus_one last_character then
    match row_index table_length st.last_merge_row, func_ptr callbacks st.string_index with
    | .ok row, .ok f =>
      .ok { st with data := set_element st.data row last_character
                              ⟨(st.data row last_character).next_state, f⟩
                    character := 255
                    string_index := st.string_index + 1
                    merge_row_current := 0 }
    | .error e, _ => .error e
    | _, .error e => .error e
  else .ok { st with character := 124, string_index := st.string_index + 1,
                     merge_row_current := 0 }

/-- Lines 464-474: the default case of the merge loop for byte `character`.  The flag
is `true` when the loop is left by `break` (a missing transition was spliced in). -/
def merge_default (table_length : Nat) (st : compile_state) (character : Nat) :
    Except build_error (compile_state × Bool) :=
  if st.merge_row_current < table_length then
    let element := st.data st.merge_row_current character
    if element.next_state = 0 then
      .ok ({ st with last_table_row := some st.merge_row_current
                     data := set_element st.data st.merge_row_current character
                               ⟨st.table_row, element.callback⟩
                     merge_row_current := 0
                     character := character }, true)
    else
      .ok ({ st with last_merge_row := some st.merge_row_current
                     merge_row_current := element.next_state
                     character := character }, false)
  else .error .index_out_of_range

/-- The two inner loops of `compile_to_table` inside `while (true)` (lines 364-479),
on the bytes from index `i` on.  `merging = false` is the chain-building loop
(lines 365-408), `merging = true` the merge loop (lines 410-477).  With no byte left
both loops are skipped and line 478 leaves the outer loop. -/
def compile_loops (table_length callbacks : Nat) :
    Bool → compile_state → List Nat → Except build_error compile_state
  | _, st, [] => .ok st
  | false, st, character :: rest =>
    if character > 127 then .error .invalid_character
    else if character = 124 then
      match chain_pipe table_length callbacks st with
      | .ok st1 => compile_loops table_length callbacks true st1 rest
      | .error e => .error e
    else if character = 92 then
      match rest with
      | [] => .error .trailing_backslash
      | character2 :: rest2 =>
        if character2 > 127 then .error .invalid_character
        else
          match chain_default table_length st character2 with
          | .ok st1 => compile_loops table_length callbacks false st1 rest2
          | .error e => .error e
    else
      match chain_default table_length st character with
      | .ok st1 => compile_loops table_length callbacks false st1 rest
      | .error e => .error e
  | true, st, character :: rest =>
    if character > 127 then .error .invalid_character
    else if character = 124 then
      match merge_pipe table_length callbacks st with
      | .ok st1 => compile_loops table_length callbacks true st1 rest
      | .error e => .error e
    else if character = 92 then
      match rest with
      | [] => .error .trailing_backslash
      | character2 :: rest2 =>
        if character2 > 127 then .error .invalid_character
        else
          match merge_default table_length st character2 with
          | .ok (st1, spliced) => compile_loops table_length callbacks (!spliced) st1 rest2
          | .error e => .error e
    else
      match merge_default table_length st character with
      | .ok (st1, spliced) => compile_loops table_length callbacks (!spliced) st1 rest
      | .error e => .error e

/-- Lines 481-489: the callback of the last alternative. -/
def compile_finish (table_length callbacks : Nat) (st : compile_state) :
    Except build_error compile_state :=
  if differs_from_minus_one st.character then
    if st.merge_row_current ≠ 0 then
      match row_index table_length st.last_merge_row, func_ptr callbacks st.string_index with
      | .ok row, .ok f =>
        .ok { st with data := set_element st.data row st.character
                                ⟨(st.data row st.character).next_state, f⟩
                      string_index := st.string_index + 1 }
      | .error e, _ => .error e
      | _, .error e => .error e
    else
      match row_index table_length st.last_table_row, func_ptr callbacks st.string_index with
      | .ok row, .ok f =>
        .ok { st with data := set_element st.data row st.character ⟨0, f⟩
                      string_index := st.string_index + 1 }
      | .error e, _ => .error e
      | _, .error e => .error e
  else .ok st

/-- The pair returned by `compile_to_table`: the index table of `length` rows and the
number of rows in use. -/
structure index_table where
  length : Nat
  data : index_rows
  second : Nat

/-- Function `compile_to_table<table_length>` (lines 320-501) for `callbacks`
callbacks. -/
def compile_to_table (table_length : Nat) (meta_matcher_spec : List Nat) (callbacks : Nat) :
    Except build_error index_table :=
  if callbacks = 0 then .error .no_callbacks
  else
    match compile_loops table_length callbacks false compile_init meta_matcher_spec with
    | .error e => .error e
    | .ok st =>
      match compile_finish table_length callbacks st with
      | .error e => .error e
      | .ok st1 =>
        if st1.string_index ≠ callbacks then .error .callback_count
        else .ok { length := table_length, data := st1.data, second := st1.table_row }

/-- Function `inner_create_string_matcher_with_indices` (lines 503-509). -/
def create_string_matcher_with_indices (meta_matcher_spec : List Nat) (callbacks : Nat) :
    Except build_error index_table :=
  match calculate_table_length meta_matcher_spec with
  | .error e => .error e
  | .ok table_length =>
    if table_length = 0 then .error .table_length_zero
    else compile_to_table table_length meta_matcher_spec callbacks

/-- The run-time table `string_matcher_t<length>::data`. -/
structure string_matcher_table where
  length : Nat
  data : Nat → Nat → string_matcher_table_element_t

/-- The conversion loop of `CREATE_META_STRING_MATCHER` (lines 536-545): the matcher
has `second` rows, index 0 becomes `nullptr`, any other index the row it names.  The
loop copies the rows below `second`; a row from `second` on is not part of the matcher
and reads here as the index table has it. -/
def to_string_matcher (t : index_table) : string_matcher_table :=
  { length := t.second
    data := fun r c =>
      { next_state_ptr := if (t.data r c).next_state = 0 then none
                          else some (t.data r c).next_state
        callback := (t.data r c).callback } }

/-- The number of values of `size_t`, the type of the two position members (lines 163
and 166): 64 bits wide, so that the counter goes from `SIZE_MAX` back to 0. -/
def size_t_values : Nat := 2 ^ 64

/-- The mutable members of `string_matcher_t` (lines 161-166); `state` is the row the
pointer `state` points to. -/
structure cursor where
  state : Nat
  input_stream_position_at_last_match : Nat
  callback_ptr_at_last_match : Option Nat
  input_stream_position : Nat
  deriving DecidableEq, Repr

/-- The members as initialised at lines 161-166. -/
def fresh_cursor : cursor :=
  { state := 0
    input_stream_position_at_last_match := 0
    callback_ptr_at_last_match := none
    input_stream_position := 0 }

/-- What one call of `match_character` does besides changing the members: the value
it returns and the callbacks it calls, each with its argument. -/
structure call_result where
  returned : Bool
  invoked : List (Nat × Nat)
  deriving DecidableEq, Repr

/-- Function `string_matcher_t::match_character` (lines 168-184); the increment of
the `size_t` member `input_stream_position` at line 174 wraps at 2^64. -/
def match_character (t : string_matcher_table) (cur : cursor) (character : Nat) :
    cursor × call_result :=
  let unsigned_character := character % 256
  let element := t.data cur.state unsigned_character
  let cur1 : cursor :=
    match element.callback with
    | some f => { cur with callback_ptr_at_last_match := some f
                           input_stream_position_at_last_match := cur.input_stream_position }
    | none => cur
  let cur2 : cursor :=
    { cur1 with input_stream_position := (cur1.input_stream_position + 1) % size_t_values }
  match element.next_state_ptr with
  | none =>
    let cur3 : cursor := { cur2 with state := 0 }
    match cur3.callback_ptr_at_last_match with
    | none => (cur3, ⟨false, []⟩)
    | some f =>
      ({ cur3 with callback_ptr_at_last_match := none },
        ⟨true, [(f, cur3.input_stream_position_at_last_match)]⟩)
  | some next => ({ cur2 with state := next }, ⟨false, []⟩)

/-- Function `string_matcher_t::full_reset` (lines 186-190). -/
def full_reset (cur : cursor) : cursor :=
  { cur with state := 0, callback_ptr_at_last_match := none, input_stream_position := 0 }

/-- Feeding a byte sequence with `match_character`, one call per byte: the cursor at
the end and the result of every call, in order. -/
def feed (t : string_matcher_table) : cursor → List Nat → cursor × List call_result
  | cur, [] => (cur, [])
  | cur, character :: rest =>
    let step := match_character t cur character
    let tail := feed t step.1 rest
    (tail.1, step.2 :: tail.2)

/-! ## The spec grammar and the notions the claims are stated with -/

/-- Adds a literal byte in front of the first alternative. -/
def push_byte (c : Nat) : List (List Nat) → List (List Nat)
  | [] => [[c]]
  | a :: as => (c :: a) :: as

/-- The alternatives of a spec, in the words of the spec: the literal byte strings
between the unescaped pipes, a backslash and the byte after it giving one literal
byte. -/
def alternatives : List Nat → List (List Nat)
  | [] => [[]]
  | c :: rest =>
    if c = 124 then [] :: alternatives rest
    else if c = 92 then
      match rest with
      | [] => [[]]
      | d :: rest2 => push_byte d (alternatives rest2)
    else push_byte c (alternatives rest)

/-- The number of literal byte positions of a spec, in the words of the spec: an
unescaped pipe counts zero, a backslash followed by a pipe or a backslash counts one,
every other byte counts one. -/
def literal_positions : List Nat → Nat
  | [] => 0
  | c :: rest =>
    if c = 124 then literal_positions rest
    else if c = 92 then
      match rest with
      | [] => 1
      | d :: rest2 =>
        if d = 124 ∨ d = 92 then literal_positions rest2 + 1 else literal_positions rest2 + 2
    else literal_positions rest + 1

/-- The cells `state[unsigned_character]` that the calls of `match_character` look up
while a byte sequence is fed, in order. -/
def looked_up (t : string_matcher_table) :
    cursor → List Nat → List string_matcher_table_element_t
  | _, [] => []
  | cur, character :: rest =>
    t.data cur.state (character % 256) :: looked_up t (match_character t cur character).1 rest

/-- Two cursors that `match_character` cannot tell apart. -/
def same_members (c1 c2 : cursor) : Prop :=
  c1.state = c2.state ∧ c1.callback_ptr_at_last_match = c2.callback_ptr_at_last_match ∧
  c1.input_stream_position = c2.input_stream_position ∧
  (c1.callback_ptr_at_last_match ≠ none →
    c1.input_stream_position_at_last_match = c2.input_stream_position_at_last_match)

/-- The matcher that `CREATE_META_STRING_MATCHER` defines for a spec and a number of
callbacks; an empty table when the build fails. -/
def string_matcher_of (meta_matcher_spec : List Nat) (callbacks : Nat) : string_matcher_table :=
  match create_string_matcher_with_indices meta_matcher_spec callbacks with
  | .ok t => to_string_matcher t
  | .error _ => { length := 0, data := fun _ _ => ⟨none, none⟩ }

/-- Following next states from row `s` along the bytes: the row reached, `none` when a
cell on the way has no next state. -/
def walk (data : index_rows) : Nat → List Nat → Option Nat
  | s, [] => some s
  | s, c :: rest =>
    if (data s c).next_state = 0 then none else walk data (data s c).next_state rest

/-- Puts the bytes `w` in front of the first alternative. -/
def prepend (w : List Nat) : List (List Nat) → List (List Nat)
  | [] => [w]
  | a :: as => (w ++ a) :: as

/-- The table is the trie of the alternatives handled so far: `name s` is the byte
string that leads from row 0 to row `s`, `N` is the number of rows that have a name,
`done` the number of alternatives whose callback is in place. -/
structure trie_inv (alts : List (List Nat)) (done N : Nat) (name : Nat → List Nat)
    (data : index_rows) (table_row : Nat) : Prop where
  name_zero : name 0 = []
  edge : ∀ s c, (data s c).next_state ≠ 0 →
    s < N ∧ (data s c).next_state < N ∧ name (data s c).next_state = name s ++ [c]
  parent : ∀ s, 0 < s → s < N → ∃ p c, (data p c).next_state = s
  name_inj : ∀ s s2, s < N → s2 < N → name s = name s2 → s = s2
  used : ∀ s c, (data s c).next_state ≠ 0 → (data s c).next_state < table_row →
    ∃ (j : Nat) (v : List Nat), v ≠ [] ∧ alts[j]? = some (name s ++ c :: v)
  cb_sound : ∀ s c k, (data s c).callback = some k →
    s < table_row ∧ k < done ∧ alts[k]? = some (name s ++ [c]) ∧
      ∀ j, j < done → alts[j]? = some (name s ++ [c]) → j ≤ k
  cb_complete : ∀ j, j < done → alts[j]? ≠ some [] →
    ∃ s c, alts[j]? = some (name s ++ [c]) ∧ (data s c).callback ≠ none
  rows_zero : ∀ s c, table_row ≤ s → data s c = zero_element

/-- What holds in the chain-building loop after the bytes `w` of the alternative
number `done`: row `table_row` is the new, still empty row that `w` leads to. -/
structure chain_inv (alts : List (List Nat)) (done : Nat) (w : List Nat)
    (name : Nat → List Nat) (st : compile_state) : Prop where
  trie : trie_inv alts done (st.table_row + 1) name st.data st.table_row
  index_eq : st.string_index = done
  name_row : name st.table_row = w
  no_merge : st.merge_row_current = 0
  last : w ≠ [] → ∃ lt, st.last_table_row = some lt ∧ lt < st.table_row ∧
    name lt ++ [st.character] = w ∧ (st.data lt st.character).next_state = st.table_row

/-- What holds in the merge loop after the bytes `w` of the alternative number `done`:
`merge_row_current` is the row that `w` leads to. -/
structure merge_inv (alts : List (List Nat)) (done : Nat) (w : List Nat)
    (name : Nat → List Nat) (st : compile_state) : Prop where
  trie : trie_inv alts done st.table_row name st.data st.table_row
  index_eq : st.string_index = done
  cur_lt : st.merge_row_current < st.table_row
  name_cur : name st.merge_row_current = w
  last : w ≠ [] → ∃ lmr, st.last_merge_row = some lmr ∧ lmr < st.table_row ∧
    name lmr ++ [st.character] = w ∧
    (st.data lmr st.character).next_state = st.merge_row_current

/-- The invariant of the loop that is running. -/
def loop_inv (merging : Bool) (alts : List (List Nat)) (done : Nat) (w : List Nat)
    (name : Nat → List Nat) (st : compile_state) : Prop :=
  match merging with
  | true => merge_inv alts done w name st
  | false => chain_inv alts done w name st


/-- What holds when the two loops are left: the bytes `w2` of the last alternative
have been handled and only its callback is missing. -/
def loops_post (alts : List (List Nat)) (table_length : Nat) (st2 : compile_state) : Prop :=
  ∃ (m2 : Bool) (w2 : List Nat) (name2 : Nat → List Nat) (done2 : Nat),
    alts.drop done2 = [w2] ∧ st2.table_row ≤ table_length ∧ loop_inv m2 alts done2 w2 name2 st2

/-- The alternative number `k` is the longest alternative that is a prefix of `bytes`
(the last one, when byte-identical alternatives are the longest). -/
def longest_alternative (alts : List (List Nat)) (bytes : List Nat) (k : Nat) : Prop :=
  ∃ a, alts[k]? = some a ∧ a <+: bytes ∧
    ∀ (j : Nat) (a2 : List Nat), alts[j]? = some a2 → a2 <+: bytes →
      a2.length < a.length ∨ (a2.length = a.length ∧ j ≤ k)

/-- The recorded match of a cursor that has walked along `bytes` from the start row:
none when no alternative is a prefix of `bytes`, else the longest one with the index
of its last byte. -/
def recorded_match (alts : List (List Nat)) (bytes : List Nat) (callback : Option Nat)
    (position : Nat) : Prop :=
  match callback with
  | none => ∀ (j : Nat) (a : List Nat), alts[j]? = some a → ¬ a <+: bytes
  | some k => longest_alternative alts bytes k ∧
      ∃ a, alts[k]? = some a ∧ position = (a.length - 1) % size_t_values

/-- The grammar of the spec string: an unescaped pipe is a separator (`none`), a
backslash and the byte after it are one literal byte, every other byte is a literal
byte. -/
def spec_tokens : List Nat → List (Option Nat)
  | [] => []
  | c :: rest =>
    if c = 124 then none :: spec_tokens rest
    else if c = 92 then
      match rest with
      | [] => []
      | d :: rest2 => some d :: spec_tokens rest2
    else some c :: spec_tokens rest

/-- The two loops of `compile_to_table` run on the tokens of the grammar instead of
the bytes of the spec: a separator takes the pipe case, a literal byte the default
case. -/
def compile_tokens (table_length callbacks : Nat) :
    Bool → compile_state → List (Option Nat) → Except build_error compile_state
  | _, st, [] => .ok st
  | false, st, none :: rest =>
    match chain_pipe table_length callbacks st with
    | .ok st1 => compile_tokens table_length callbacks true st1 rest
    | .error e => .error e
  | false, st, some c :: rest =>
    match chain_default table_length st c with
    | .ok st1 => compile_tokens table_length callbacks false st1 rest
    | .error e => .error e
  | true, st, none :: rest =>
    match merge_pipe table_length callbacks st with
    | .ok st1 => compile_tokens table_length callbacks true st1 rest
    | .error e => .error e
  | true, st, some c :: rest =>
    match merge_default table_length st c with
    | .ok (st1, spliced) => compile_tokens table_length callbacks (!spliced) st1 rest
    | .error e => .error e

/-- In the words of the spec: scanning left to right, a backslash that opens an escape
is the last byte of the spec. -/
def dangling_escape : List Nat → Bool
  | [] => false
  | c :: rest =>
    if c = 92 then
      match rest with
      | [] => true
      | _ :: rest2 => dangling_escape rest2
    else dangling_escape rest

/-- In the words of the spec: scanning left to right, a backslash that opens an escape
is followed by a byte other than the pipe and the backslash. -/
def invalid_escape_target : List Nat → Bool
  | [] => false
  | c :: rest =>
    if c = 92 then
      match rest with
      | [] => false
      | d :: rest2 => decide (d ≠ 124 ∧ d ≠ 92) || invalid_escape_target rest2
    else invalid_escape_target rest

/-- A malformed spec, in the words of the spec: a byte of value 128 or more, a dangling
escape or an invalid escape target. -/
def malformed (meta_matcher_spec : List Nat) : Prop :=
  (∃ b ∈ meta_matcher_spec, 128 ≤ b) ∨ dangling_escape meta_matcher_spec = true ∨
    invalid_escape_target meta_matcher_spec = true

/-- The spec of the test harness (`src/test/main.cpp`, line 10). -/
def harness_spec : List Nat :=
  [104, 105, 124, 104, 105, 50, 124, 104, 105, 51, 124, 104, 105, 51, 51, 124,
    104, 105, 52, 52, 124, 92, 124, 124, 92, 124, 124, 32, 124, 124, 124, 124, 124, 124,
    92, 92, 124]

/-- The number of unescaped pipes of a spec: the separators among its tokens. -/
def unescaped_pipes (meta_matcher_spec : List Nat) : Nat :=
  (spec_tokens meta_matcher_spec).count none

/-- What holds of the rows and row variables of `compile_to_table` on every spec, empty
alternatives included, for a table of `table_length` rows: every next state is below
`table_row`, the one cell that the chain-building loop has just made points to the
new row `table_row`, the row variables that have a value are below `table_row`, and
the columns from 128 on are only touched in column 255 and only by a callback. -/
structure bounds_inv (table_length : Nat) (merging : Bool) (st : compile_state) : Prop where
  next_bound : ∀ r c, (st.data r c).next_state = 0 ∨ (st.data r c).next_state < st.table_row ∨
    (merging = false ∧ (st.data r c).next_state = st.table_row ∧
      st.last_table_row = some r ∧ st.character = c)
  mrc_chain : merging = false → st.merge_row_current = 0
  mrc_merge : merging = true → st.merge_row_current < st.table_row
  ltr : ∀ r, st.last_table_row = some r → r < st.table_row
  lmr : ∀ r, st.last_merge_row = some r → r < st.table_row
  high : ∀ r c, 128 ≤ c →
    (st.data r c).next_state = 0 ∧ (c ≠ 255 → (st.data r c).callback = none)
  char_ok : st.character ≤ 127 ∨ st.character = 255
  table_le : st.table_row ≤ table_length

/-- The reason for which a build stopped, `none` when it returned. -/
def failure {α : Type} (x : Except build_error α) : Option build_error :=
  match x with
  | .ok _ => none
  | .error e => some e

/-- A call of one of the two public member functions of `string_matcher_t`. -/
inductive cursor_call where
  | match_character (character : Nat)
  | full_reset
  deriving DecidableEq, Repr

/-- The cursor after a sequence of calls of `match_character` and `full_reset`. -/
def run_calls (t : string_matcher_table) : cursor → List cursor_call → cursor
  | cur, [] => cur
  | cur, .match_character character :: rest =>
    run_calls t (match_character t cur character).1 rest
  | cur, .full_reset :: rest => run_calls t (full_reset cur) rest

/-- The table that a build returned; a table without rows when the build failed. -/
def returned_table (x : Except build_error index_table) : index_table :=
  match x with
  | .ok t => t
  | .error _ => { length := 0, data := fun _ _ => zero_element, second := 0 }

/-- The result of a call with every invoked callback named by the bytes of its
alternative instead of its index in the spec. -/
def named_result (alts : List (List Nat)) (r : call_result) :
    Bool × List (Option (List Nat) × Nat) :=
  (r.returned, r.invoked.map (fun x => (alts[x.1]?, x.2)))

/-- Cursor of the reference matcher, which knows the alternatives and not the table:
the bytes consumed since the last dead end, the recorded alternative with its
position, and the position counter. -/
structure reference_cursor where
  walked : List Nat
  recorded : Option (List Nat × Nat)
  position : Nat

/-- Whether some alternative goes on after the bytes `w`. -/
def continues (alts : List (List Nat)) (w : List Nat) : Bool :=
  alts.any (fun a => w.isPrefixOf a && decide (w.length < a.length))

/-- One byte consumed by the reference matcher: it records the bytes walked when they
are an alternative, goes on while some alternative goes on, and else reports the
recorded alternative and starts again. -/
def reference_step (alts : List (List Nat)) (rc : reference_cursor) (character : Nat) :
    reference_cursor × (Bool × List (Option (List Nat) × Nat)) :=
  let w := rc.walked ++ [character % 256]
  let recorded := if w ∈ alts then some (w, rc.position) else rc.recorded
  if continues alts w then
    ({ walked := w, recorded := recorded, position := (rc.position + 1) % size_t_values },
      (false, []))
  else
    match recorded with
    | none =>
      ({ walked := [], recorded := none, position := (rc.position + 1) % size_t_values },
        (false, []))
    | some x =>
      ({ walked := [], recorded := none, position := (rc.position + 1) % size_t_values },
        (true, [(some x.1, x.2)]))

/-- The results of the reference matcher on a byte sequence, one per byte. -/
def reference_feed (alts : List (List Nat)) :
    reference_cursor → List Nat → List (Bool × List (Option (List Nat) × Nat))
  | _, [] => []
  | rc, character :: rest =>
    (reference_step alts rc character).2 ::
      reference_feed alts (reference_step alts rc character).1 rest

/-- A cursor over the compiled table and a cursor of the reference matcher that stand at
the same place. -/
def same_place (alts : List (List Nat)) (data : index_rows) (cur : cursor)
    (rc : reference_cursor) : Prop :=
  walk data 0 rc.walked = some cur.state ∧
  cur.input_stream_position = rc.position ∧
  match cur.callback_ptr_at_last_match with
  | none => rc.recorded = none
  | some k => ∃ a, alts[k]? = some a ∧
      rc.recorded = some (a, cur.input_stream_position_at_last_match)

/-- In the words of the spec: the distinct proper prefixes of the alternatives, the
empty prefix included; they are the non-leaf nodes of the trie of the alternatives. -/
def proper_prefixes (alts : List (List Nat)) : List (List Nat) :=
  ((alts.map (fun a => (List.inits a).filter (fun p => decide (p.length < a.length)))).flatten).dedup

/-! ## The loops of `compile_to_table` with the spec index `i` explicit -/

/-- One iteration of the chain-building `for` loop (lines 365-408) at spec index `i`:
the state after it, the index after it (the `i++` of `continue` or of the pipe case
included) and whether the loop is left by `break`.  A read of the spec outside its
length stops the build. -/
def chain_iteration (table_length callbacks : Nat) (meta_matcher_spec : List Nat)
    (st : compile_state) (i : Nat) : Except build_error (compile_state × Nat × Bool) :=
  match meta_matcher_spec[i]? with
  | none => .error .index_out_of_range
  | some character =>
    if character > 127 then .error .invalid_character
    else if character = 124 then
      match chain_pipe table_length callbacks st with
      | .ok st1 => .ok (st1, i + 1, true)
      | .error e => .error e
    else if character = 92 then
      if i + 1 = meta_matcher_spec.length then .error .trailing_backslash
      else
        match meta_matcher_spec[i + 1]? with
        | none => .error .index_out_of_range
        | some character2 =>
          if character2 > 127 then .error .invalid_character
          else
            match chain_default table_length st character2 with
            | .ok st1 => .ok (st1, i + 1 + 1, false)
            | .error e => .error e
    else
      match chain_default table_length st character with
      | .ok st1 => .ok (st1, i + 1, false)
      | .error e => .error e

/-- One iteration of the merge `for` loop (lines 410-477) at spec index `i`: the state
after it, the index after it (the `i++` of `continue` or of the splice included) and
whether the loop is left by `break`. -/
def merge_iteration (table_length callbacks : Nat) (meta_matcher_spec : List Nat)
    (st : compile_state) (i : Nat) : Except build_error (compile_state × Nat × Bool) :=
  match meta_matcher_spec[i]? with
  | none => .error .index_out_of_range
  | some character =>
    if character > 127 then .error .invalid_character
    else if character = 124 then
      match merge_pipe table_length callbacks st with
      | .ok st1 => .ok (st1, i + 1, false)
      | .error e => .error e
    else if character = 92 then
      if i + 1 = meta_matcher_spec.length then .error .trailing_backslash
      else
        match meta_matcher_spec[i + 1]? with
        | none => .error .index_out_of_range
        | some character2 =>
          if character2 > 127 then .error .invalid_character
          else
            match merge_default table_length st character2 with
            | .ok (st1, spliced) => .ok (st1, i + 1 + 1, spliced)
            | .error e => .error e
    else
      match merge_default table_length st character with
      | .ok (st1, spliced) => .ok (st1, i + 1, spliced)
      | .error e => .error e

/-- The chain-building loop `for (; i < length; i++)` from index `i`, with a bound on
the number of iterations: `none` when the bound is used up, else the failure or the
state and index with which the loop is left. -/
def chain_for (table_length callbacks : Nat) (meta_matcher_spec : List Nat) :
    Nat → compile_state → Nat → Option (Except build_error (compile_state × Nat))
  | 0, _, _ => none
  | fuel + 1, st, i =>
    if i < meta_matcher_spec.length then
      match chain_iteration table_length callbacks meta_matcher_spec st i with
      | .error e => some (.error e)
      | .ok (st1, i1, true) => some (.ok (st1, i1))
      | .ok (st1, i1, false) => chain_for table_length callbacks meta_matcher_spec fuel st1 i1
    else some (.ok (st, i))

/-- The merge loop `for (; i < length; i++)` from index `i`, with a bound on the number
of iterations. -/
def merge_for (table_length callbacks : Nat) (meta_matcher_spec : List Nat) :
    Nat → compile_state → Nat → Option (Except build_error (compile_state × Nat))
  | 0, _, _ => none
  | fuel + 1, st, i =>
    if i < meta_matcher_spec.length then
      match merge_iteration table_length callbacks meta_matcher_spec st i with
      | .error e => some (.error e)
      | .ok (st1, i1, true) => some (.ok (st1, i1))
      | .ok (st1, i1, false) => merge_for table_length callbacks meta_matcher_spec fuel st1 i1
    else some (.ok (st, i))

/-- One pass of the body of `while (true)` (lines 365-477): the chain-building loop,
then the merge loop. -/
def outer_pass (table_length callbacks : Nat) (meta_matcher_spec : List Nat) (fuel : Nat)
    (st : compile_state) (i : Nat) : Option (Except build_error (compile_state × Nat)) :=
  match chain_for table_length callbacks meta_matcher_spec fuel st i with
  | none => none
  | some (.error e) => some (.error e)
  | some (.ok (st1, i1)) => merge_for table_length callbacks meta_matcher_spec fuel st1 i1

/-- The loop `while (true)` (lines 364-479) with a bound on the number of passes and
one on the iterations of each inner loop: after a pass, line 478 leaves the loop when
`i` is the length of the spec. -/
def compile_while (table_length callbacks : Nat) (meta_matcher_spec : List Nat) (fuel : Nat) :
    Nat → compile_state → Nat → Option (Except build_error compile_state)
  | 0, _, _ => none
  | passes + 1, st, i =>
    match outer_pass table_length callbacks meta_matcher_spec fuel st i with
    | none => none
    | some (.error e) => some (.error e)
    | some (.ok (st1, i1)) =>
      if i1 = meta_matcher_spec.length then some (.ok st1)
      else compile_while table_length callbacks meta_matcher_spec fuel passes st1 i1

/-- The table without column 255, the column of a byte that no spec can hold: what is
left of the table when the callbacks that the pipe cases and the end handling write
for an empty alternative are set aside. -/
def without_column_255 (data : index_rows) : index_rows :=
  fun r c => if c = 255 then zero_element else data r c

/-- A state of `compile_to_table` with column 255 of the table set aside. -/
def state_without_column_255 (st : compile_state) : compile_state :=
  { st with data := without_column_255 st.data }

/-- What holds of the loop that is running on a spec that may have empty alternatives:
the invariant of the loop for the table without column 255; `character` is the
sentinel 255 exactly when no byte of the current alternative has been handled; and the
chain-building loop has not set `last_table_row` before the first byte. -/
structure general_inv (merging : Bool) (alts : List (List Nat)) (done : Nat) (w : List Nat)
    (name : Nat → List Nat) (st : compile_state) : Prop where
  loop : loop_inv merging alts done w name (state_without_column_255 st)
  char_iff : st.character = 255 ↔ w = []
  fresh : merging = false → w = [] → st.last_table_row = none

/-- What holds when the two loops are left on a spec that may have empty alternatives:
the bytes `w2` of the last alternative have been handled and only its callback is
missing. -/
def loops_post_general (alts : List (List Nat)) (st2 : compile_state) : Prop :=
  ∃ (m2 : Bool) (w2 : List Nat) (name2 : Nat → List Nat) (done2 : Nat),
    alts.drop done2 = [w2] ∧ general_inv m2 alts done2 w2 name2 st2

/-! ## Proofs -/

theorem alternatives_nil : alternatives [] = [[]] := by
  rw [alternatives.eq_def]

theorem alternatives_pipe (rest : List Nat) :
    alternatives (124 :: rest) = [] :: alternatives rest := by
  rw [alternatives.eq_def]; simp

theorem alternatives_escape (d : Nat) (rest : List Nat) :
    alternatives (92 :: d :: rest) = push_byte d (alternatives rest) := by
  rw [alternatives.eq_def]; simp

theorem alternatives_literal (c : Nat) (rest : List Nat) (h1 : c ≠ 124) (h2 : c ≠ 92) :
    alternatives (c :: rest) = push_byte c (alternatives rest) := by
  rw [alternatives.eq_def]; simp [h1, h2]

theorem literal_positions_nil : literal_positions [] = 0 := by
  rw [literal_positions.eq_def]

theorem literal_positions_pipe (rest : List Nat) :
    literal_positions (124 :: rest) = literal_positions rest := by
  rw [literal_positions.eq_def]; simp

theorem literal_positions_escape (d : Nat) (rest : List Nat) (h : d = 124 ∨ d = 92) :
    literal_positions (92 :: d :: rest) = literal_positions rest + 1 := by
  rw [literal_positions.eq_def]; simp [h]

theorem literal_positions_literal (c : Nat) (rest : List Nat) (h1 : c ≠ 124) (h2 : c ≠ 92) :
    literal_positions (c :: rest) = literal_positions rest + 1 := by
  rw [literal_positions.eq_def]; simp [h1, h2]

theorem sum_length_push_byte (c : Nat) (l : List (List Nat)) :
    ((push_byte c l).map List.length).sum = (l.map List.length).sum + 1 := by
  cases l with
  | nil => simp [push_byte]
  | cons a as => simp [push_byte]; omega

theorem calculate_table_length_loop_counts (l : List Nat) (r : Nat) :
    ∀ n : Nat, calculate_table_length_loop l r = .ok n →
      n = r + literal_positions l ∧ n = r + ((alternatives l).map List.length).sum := by
  induction l, r using calculate_table_length_loop.induct with
  | case1 r =>
    intro n h
    rw [calculate_table_length_loop.eq_def] at h
    simp at h
    simp [literal_positions_nil, alternatives_nil, h]
  | case2 c rest r hc => intro n h; rw [calculate_table_length_loop.eq_def] at h; simp [hc] at h
  | case3 rest r _ ih =>
    intro n h
    rw [calculate_table_length_loop.eq_def] at h
    simp at h
    simpa [literal_positions_pipe, alternatives_pipe] using ih n h
  | case4 r _ _ => intro n h; rw [calculate_table_length_loop.eq_def] at h; simp at h
  | case5 r d rest2 hd _ _ => intro n h; rw [calculate_table_length_loop.eq_def] at h; simp [hd] at h
  | case6 r d rest2 hd hd2 _ _ ih =>
    intro n h
    rw [calculate_table_length_loop.eq_def] at h
    simp [hd, hd2] at h
    have := ih n h
    simp [literal_positions_escape _ _ hd2, alternatives_escape, sum_length_push_byte]
    omega
  | case7 r d rest2 hd hd2 _ _ => intro n h; rw [calculate_table_length_loop.eq_def] at h; simp [hd, hd2] at h
  | case8 c rest r h1 h2 h3 ih =>
    intro n h
    rw [calculate_table_length_loop.eq_def] at h
    simp [h1, h2, h3] at h
    have := ih n h
    simp [literal_positions_literal _ _ h2 h3, alternatives_literal _ _ h2 h3, sum_length_push_byte]
    omega

/-- C10. Whenever `calculate_table_length` accepts a spec, its result is the number of literal
byte positions of the spec (an unescaped pipe counts zero, an escape pair one, every other
byte one), which is also the sum of the lengths of the unescaped alternatives. -/
theorem calculate_table_length_counts_literals (meta_matcher_spec : List Nat) (n : Nat)
    (h : calculate_table_length meta_matcher_spec = .ok n) :
    n = literal_positions meta_matcher_spec ∧
      n = ((alternatives meta_matcher_spec).map List.length).sum := by
  simpa using calculate_table_length_loop_counts meta_matcher_spec 0 n h

theorem calculate_table_length_counts_literals_witness :
    calculate_table_length [104, 105, 124, 92, 124, 92, 92] = .ok 4 ∧
      (4 = literal_positions [104, 105, 124, 92, 124, 92, 92] ∧
        4 = ((alternatives [104, 105, 124, 92, 124, 92, 92]).map List.length).sum) :=
  ⟨rfl, calculate_table_length_counts_literals _ 4 rfl⟩

theorem feed_nil (t : string_matcher_table) (cur : cursor) : feed t cur [] = (cur, []) := rfl

theorem feed_cons (t : string_matcher_table) (cur : cursor) (c : Nat) (rest : List Nat) :
    feed t cur (c :: rest) =
      ((feed t (match_character t cur c).1 rest).1,
        (match_character t cur c).2 :: (feed t (match_character t cur c).1 rest).2) := rfl

theorem match_character_position (t : string_matcher_table) (cur : cursor) (c : Nat) :
    (match_character t cur c).1.input_stream_position =
      (cur.input_stream_position + 1) % size_t_values := by
  cases h1 : (t.data cur.state (c % 256)).callback <;>
    cases h2 : (t.data cur.state (c % 256)).next_state_ptr <;>
    cases h3 : cur.callback_ptr_at_last_match <;> simp [match_character, h1, h2, h3]

/-- C5. For every table, cursor and byte, one call of `match_character` invokes at most one
callback and returns true exactly when it invoked one; it returns true exactly when
the cell it looked up has no next state and a match is recorded (by this call or
before it), and after returning true the recorded match is cleared and the cursor is
at the start row. -/
theorem match_character_fires_at_most_once (t : string_matcher_table) (cur : cursor)
    (character : Nat) :
    (match_character t cur character).2.invoked.length ≤ 1 ∧
    ((match_character t cur character).2.returned = true ↔
      (match_character t cur character).2.invoked ≠ []) ∧
    ((match_character t cur character).2.returned = true ↔
      (t.data cur.state (character % 256)).next_state_ptr = none ∧
      ((t.data cur.state (character % 256)).callback ≠ none ∨
        cur.callback_ptr_at_last_match ≠ none)) ∧
    ((match_character t cur character).2.returned = true →
      (match_character t cur character).1.callback_ptr_at_last_match = none ∧
      (match_character t cur character).1.state = 0) := by
  cases h1 : (t.data cur.state (character % 256)).callback <;>
    cases h2 : (t.data cur.state (character % 256)).next_state_ptr <;>
    cases h3 : cur.callback_ptr_at_last_match <;> simp [match_character, h1, h2, h3]

theorem match_character_same_members (t : string_matcher_table) (c1 c2 : cursor) (b : Nat)
    (h : same_members c1 c2) :
    same_members (match_character t c1 b).1 (match_character t c2 b).1 ∧
      (match_character t c1 b).2 = (match_character t c2 b).2 := by
  obtain ⟨hs, hc, hp, hl⟩ := h
  cases h1 : (t.data c2.state (b % 256)).callback <;>
    cases h2 : (t.data c2.state (b % 256)).next_state_ptr <;>
    cases h3 : c2.callback_ptr_at_last_match <;>
    simp_all [match_character, same_members]

theorem feed_same_members (t : string_matcher_table) (bytes : List Nat) :
    ∀ c1 c2 : cursor, same_members c1 c2 → (feed t c1 bytes).2 = (feed t c2 bytes).2 := by
  induction bytes with
  | nil => intro c1 c2 _; rfl
  | cons b rest ih =>
    intro c1 c2 h
    have hstep := match_character_same_members t c1 c2 b h
    rw [feed_cons, feed_cons]
    simp only [hstep.2, ih _ _ hstep.1]

/-- C9. Reset equivalence: for every table, every cursor (so also every cursor reached by
calls of `match_character`) and every byte sequence, feeding the sequence after
`full_reset` gives the same return values and the same invoked callbacks with the same
arguments as feeding it to a fresh cursor; after `full_reset` the cursor is at the
start row, no match is recorded and the position counter is 0. -/
theorem full_reset_equals_fresh (t : string_matcher_table) (cur : cursor) (s : List Nat) :
    (feed t (full_reset cur) s).2 = (feed t fresh_cursor s).2 ∧
      (full_reset cur).state = 0 ∧
      (full_reset cur).callback_ptr_at_last_match = none ∧
      (full_reset cur).input_stream_position = 0 := by
  refine ⟨feed_same_members t s _ _ ?_, rfl, rfl, rfl⟩
  simp [same_members, full_reset, fresh_cursor]

theorem feed_without_callbacks (t : string_matcher_table) (bytes : List Nat) :
    ∀ cur : cursor, cur.callback_ptr_at_last_match = none →
      (∀ e ∈ looked_up t cur bytes, e.callback = none) →
      ∀ r ∈ (feed t cur bytes).2, r.returned = false ∧ r.invoked = [] := by
  induction bytes with
  | nil => intro cur _ _ r hr; simp [feed_nil] at hr
  | cons b rest ih =>
    intro cur hcur hcells r hr
    have hcell : (t.data cur.state (b % 256)).callback = none :=
      hcells _ (by simp [looked_up])
    have hstep : (match_character t cur b).1.callback_ptr_at_last_match = none ∧
        (match_character t cur b).2 = ⟨false, []⟩ := by
      cases h2 : (t.data cur.state (b % 256)).next_state_ptr <;>
        simp [match_character, hcell, h2, hcur]
    rw [feed_cons] at hr
    rcases List.mem_cons.1 hr with h | h
    · rw [h, hstep.2]; exact ⟨rfl, rfl⟩
    · exact ih _ hstep.1 (fun e he => hcells e (by simp [looked_up, he])) r h

/-- C8. No-match law: when none of the cells looked up while a byte sequence is fed to a
fresh cursor carries a callback, every call returns false and invokes nothing. -/
theorem no_match_law (t : string_matcher_table) (bytes : List Nat)
    (h : ∀ e ∈ looked_up t fresh_cursor bytes, e.callback = none) :
    ∀ r ∈ (feed t fresh_cursor bytes).2, r.returned = false ∧ r.invoked = [] :=
  feed_without_callbacks t bytes fresh_cursor rfl h

theorem no_match_law_witness :
    (∀ e ∈ looked_up (string_matcher_of [104, 105, 124, 104, 105, 50] 2) fresh_cursor
        [104, 120, 105, 50], e.callback = none) ∧
      ∀ r ∈ (feed (string_matcher_of [104, 105, 124, 104, 105, 50] 2) fresh_cursor
        [104, 120, 105, 50]).2, r.returned = false ∧ r.invoked = [] :=
  ⟨by decide, no_match_law _ _ (by decide)⟩

theorem looked_up_cons (t : string_matcher_table) (cur : cursor) (c : Nat) (rest : List Nat) :
    looked_up t cur (c :: rest) =
      t.data cur.state (c % 256) :: looked_up t (match_character t cur c).1 rest := rfl

theorem size_t_values_pos : 0 < size_t_values := Nat.two_pow_pos 64

theorem match_character_position_lt (t : string_matcher_table) (cur : cursor) (c : Nat) :
    (match_character t cur c).1.input_stream_position < size_t_values := by
  rw [match_character_position]
  exact Nat.mod_lt _ size_t_values_pos

theorem feed_position (t : string_matcher_table) (bytes : List Nat) :
    ∀ cur : cursor, cur.input_stream_position < size_t_values →
      (feed t cur bytes).1.input_stream_position =
        (cur.input_stream_position + bytes.length) % size_t_values := by
  induction bytes with
  | nil =>
    intro cur h
    rw [feed_nil]
    exact (Nat.mod_eq_of_lt h).symm
  | cons b rest ih =>
    intro cur _
    rw [feed_cons]
    simp only [List.length_cons]
    rw [ih _ (match_character_position_lt t cur b), match_character_position, Nat.mod_add_mod]
    congr 1
    omega

theorem feed_invocation_source (t : string_matcher_table) (bytes : List Nat) :
    ∀ (cur : cursor) (i : Nat) (r : call_result) (f p : Nat),
      cur.input_stream_position < size_t_values →
      (feed t cur bytes).2[i]? = some r → (f, p) ∈ r.invoked →
      (cur.callback_ptr_at_last_match = some f ∧
        p = cur.input_stream_position_at_last_match ∧
        (∀ j e, j ≤ i → (looked_up t cur bytes)[j]? = some e → e.callback = none) ∧
        (∀ j e, j < i → (looked_up t cur bytes)[j]? = some e → e.next_state_ptr ≠ none)) ∨
      (∃ k e, k ≤ i ∧ p = (cur.input_stream_position + k) % size_t_values ∧
        (looked_up t cur bytes)[k]? = some e ∧ e.callback = some f ∧
        (∀ j e2, k < j → j ≤ i → (looked_up t cur bytes)[j]? = some e2 → e2.callback = none) ∧
        (∀ j e2, k ≤ j → j < i → (looked_up t cur bytes)[j]? = some e2 →
          e2.next_state_ptr ≠ none)) := by
  induction bytes with
  | nil => intro cur i r f p _ h; simp [feed_nil] at h
  | cons b rest ih =>
    intro cur i r f p hlt h hmem
    have hmod : cur.input_stream_position % size_t_values = cur.input_stream_position :=
      Nat.mod_eq_of_lt hlt
    rw [feed_cons] at h
    cases i with
    | zero =>
      simp only [List.getElem?_cons_zero, Option.some.injEq] at h
      subst h
      cases h1 : (t.data cur.state (b % 256)).callback <;>
        cases h2 : (t.data cur.state (b % 256)).next_state_ptr <;>
        cases h3 : cur.callback_ptr_at_last_match <;>
        simp [match_character, h1, h2, h3] at hmem
      · left
        refine ⟨by rw [hmem.1], hmem.2, ?_, ?_⟩
        · intro j e hj he
          obtain rfl : j = 0 := by omega
          simp [looked_up_cons] at he
          rw [← he]; exact h1
        · intro j e hj; omega
      · right
        refine ⟨0, t.data cur.state (b % 256), le_refl _, by simp [hmem.2, hmod],
          by simp [looked_up_cons], by rw [h1, hmem.1], ?_, ?_⟩
        · intro j e2 h0 hj; omega
        · intro j e2 h0 hj; omega
      · right
        refine ⟨0, t.data cur.state (b % 256), le_refl _, by simp [hmem.2, hmod],
          by simp [looked_up_cons], by rw [h1, hmem.1], ?_, ?_⟩
        · intro j e2 h0 hj; omega
        · intro j e2 h0 hj; omega
    | succ i =>
      simp only [List.getElem?_cons_succ] at h
      rcases ih _ i r f p (match_character_position_lt t cur b) h hmem with
        ⟨hc, hp, hcb, hnx⟩ | ⟨k, e, hk, hp, he, hef, hcb, hnx⟩
      · cases h1 : (t.data cur.state (b % 256)).callback <;>
          cases h2 : (t.data cur.state (b % 256)).next_state_ptr <;>
          cases h3 : cur.callback_ptr_at_last_match <;>
          simp [match_character, h1, h2, h3] at hc hp
        · left
          refine ⟨by rw [hc], hp, ?_, ?_⟩
          · intro j e hj he
            cases j with
            | zero => simp [looked_up_cons] at he; rw [← he]; exact h1
            | succ j => exact hcb j e (by omega) (by simpa [looked_up_cons] using he)
          · intro j e hj he
            cases j with
            | zero => simp [looked_up_cons] at he; rw [← he, h2]; simp
            | succ j => exact hnx j e (by omega) (by simpa [looked_up_cons] using he)
        · right
          refine ⟨0, t.data cur.state (b % 256), Nat.zero_le _, by simp [hp, hmod],
            by simp [looked_up_cons], by rw [h1, hc], ?_, ?_⟩
          · intro j e2 h0 hj he
            cases j with
            | zero => omega
            | succ j => exact hcb j e2 (by omega) (by simpa [looked_up_cons] using he)
          · intro j e2 h0 hj he
            cases j with
            | zero => simp [looked_up_cons] at he; rw [← he, h2]; simp
            | succ j => exact hnx j e2 (by omega) (by simpa [looked_up_cons] using he)
        · right
          refine ⟨0, t.data cur.state (b % 256), Nat.zero_le _, by simp [hp, hmod],
            by simp [looked_up_cons], by rw [h1, hc], ?_, ?_⟩
          · intro j e2 h0 hj he
            cases j with
            | zero => omega
            | succ j => exact hcb j e2 (by omega) (by simpa [looked_up_cons] using he)
          · intro j e2 h0 hj he
            cases j with
            | zero => simp [looked_up_cons] at he; rw [← he, h2]; simp
            | succ j => exact hnx j e2 (by omega) (by simpa [looked_up_cons] using he)
      · right
        refine ⟨k + 1, e, by omega, ?_, by simpa [looked_up_cons] using he, hef, ?_, ?_⟩
        · rw [hp, match_character_position, Nat.mod_add_mod]
          congr 1
          omega
        · intro j e2 h0 hj he2
          cases j with
          | zero => omega
          | succ j => exact hcb j e2 (by omega) (by omega) (by simpa [looked_up_cons] using he2)
        · intro j e2 h0 hj he2
          cases j with
          | zero => omega
          | succ j => exact hnx j e2 (by omega) (by omega) (by simpa [looked_up_cons] using he2)

theorem feed_replicate_dead (t : string_matcher_table) (b : Nat)
    (hcell : t.data 0 (b % 256) = ⟨none, none⟩) (n : Nat) :
    ∀ cur : cursor, cur.state = 0 → cur.callback_ptr_at_last_match = none →
      (feed t cur (List.replicate n b)).1.state = 0 ∧
      (feed t cur (List.replicate n b)).1.callback_ptr_at_last_match = none := by
  induction n with
  | zero => intro cur h1 h2; exact ⟨h1, h2⟩
  | succ n ih =>
    intro cur h1 h2
    rw [List.replicate_succ, feed_cons]
    have hstep : (match_character t cur b).1.state = 0 ∧
        (match_character t cur b).1.callback_ptr_at_last_match = none := by
      simp [match_character, h1, h2, hcell]
    exact ih _ hstep.1 hstep.2

/-- C6 as stated fails: the counter does not grow by one on every call.  It is a `size_t`,
so a call on a cursor whose counter is `SIZE_MAX` leaves the counter at 0; a fresh
cursor fed 2^64 bytes has its counter at 0 again, and with `hi|hi2` the callback fired
by `hi2` after 2^64 bytes `x` is passed 2, which is not the index of the last byte of
the match counted from the creation of the cursor. -/
theorem position_counter_wraps_counterexample :
    (match_character (string_matcher_of [104, 105, 124, 104, 105, 50] 2)
      { fresh_cursor with input_stream_position := size_t_values - 1 }
      104).1.input_stream_position = 0 ∧
    (feed (string_matcher_of [104, 105, 124, 104, 105, 50] 2) fresh_cursor
      (List.replicate size_t_values 120)).1.input_stream_position = 0 ∧
    (feed (string_matcher_of [104, 105, 124, 104, 105, 50] 2)
      (feed (string_matcher_of [104, 105, 124, 104, 105, 50] 2) fresh_cursor
        (List.replicate size_t_values 120)).1 [104, 105, 50]).2 =
      [⟨false, []⟩, ⟨false, []⟩, ⟨true, [(1, 2)]⟩] ∧
    (List.replicate size_t_values 120 ++ [104, 105, 50]).length - 1 ≠ 2 := by
  have hpos : (feed (string_matcher_of [104, 105, 124, 104, 105, 50] 2) fresh_cursor
      (List.replicate size_t_values 120)).1.input_stream_position = 0 := by
    rw [feed_position _ _ _ size_t_values_pos, List.length_replicate]
    show (0 + size_t_values) % size_t_values = 0
    rw [Nat.zero_add, Nat.mod_self]
  obtain ⟨hst, hcb⟩ := feed_replicate_dead (string_matcher_of [104, 105, 124, 104, 105, 50] 2)
    120 (by decide!) size_t_values fresh_cursor rfl rfl
  refine ⟨by decide!, hpos, ?_, ?_⟩
  · rw [feed_same_members _ [104, 105, 50] _ fresh_cursor
      ⟨hst, hcb, hpos, fun h => absurd hcb h⟩]
    decide!
  · rw [List.length_append, List.length_replicate]
    have := size_t_values_pos
    simp only [List.length_cons, List.length_nil]
    omega

/-- C6 as amended. The argument of an invoked callback is the value the position counter had
when the byte whose cell carries that callback was consumed.  The counter is 0 in a
fresh cursor and after `full_reset`, and every call of `match_character` adds one to it
modulo 2^64, so after feeding a sequence it is the length of the sequence modulo 2^64.
A callback invoked by call number `i` with argument `p` belongs to the cell looked up
by a call number `k ≤ i` (counted from 0) with `p = k` modulo 2^64; no cell looked up
after that one up to call `i` carries a callback, and every cell from that one up to
call `i - 1` has a next state.  For a sequence of at most 2^64 bytes the argument is
the index `k` itself. -/
theorem position_argument_is_index (t : string_matcher_table) (cur0 : cursor) (bytes : List Nat)
    (h0 : cur0 = fresh_cursor ∨ ∃ c, cur0 = full_reset c) :
    cur0.input_stream_position = 0 ∧
    (∀ (cur : cursor) (c : Nat),
      (match_character t cur c).1.input_stream_position =
        (cur.input_stream_position + 1) % size_t_values) ∧
    (∀ (cur : cursor) (c : Nat), cur.input_stream_position + 1 < size_t_values →
      (match_character t cur c).1.input_stream_position = cur.input_stream_position + 1) ∧
    (feed t cur0 bytes).1.input_stream_position = bytes.length % size_t_values ∧
    ∀ (i : Nat) (r : call_result) (f p : Nat),
      (feed t cur0 bytes).2[i]? = some r → (f, p) ∈ r.invoked →
      ∃ k, k ≤ i ∧ p = k % size_t_values ∧ (bytes.length ≤ size_t_values → p = k) ∧
        (∃ e, (looked_up t cur0 bytes)[k]? = some e ∧ e.callback = some f) ∧
        (∀ j e, k < j → j ≤ i → (looked_up t cur0 bytes)[j]? = some e → e.callback = none) ∧
        (∀ j e, k ≤ j → j < i → (looked_up t cur0 bytes)[j]? = some e →
          e.next_state_ptr ≠ none) := by
  have hpos : cur0.input_stream_position = 0 := by
    rcases h0 with h | ⟨c, h⟩ <;> rw [h] <;> rfl
  have hcb : cur0.callback_ptr_at_last_match = none := by
    rcases h0 with h | ⟨c, h⟩ <;> rw [h] <;> rfl
  have hlt : cur0.input_stream_position < size_t_values := by
    rw [hpos]; exact size_t_values_pos
  refine ⟨hpos, match_character_position t, ?_, ?_, ?_⟩
  · intro cur c h
    rw [match_character_position, Nat.mod_eq_of_lt h]
  · rw [feed_position _ _ _ hlt, hpos, Nat.zero_add]
  · intro i r f p h hmem
    rcases feed_invocation_source t bytes cur0 i r f p hlt h hmem with
      ⟨hc, _⟩ | ⟨k, e, hk, hp, he, hef, h1, h2⟩
    · rw [hcb] at hc; cases hc
    · rw [hpos, Nat.zero_add] at hp
      refine ⟨k, hk, hp, ?_, ⟨e, he, hef⟩, h1, h2⟩
      intro hlen
      have hkl : k < bytes.length := by
        have hsome : k < (looked_up t cur0 bytes).length := by
          rcases Nat.lt_or_ge k (looked_up t cur0 bytes).length with h3 | h3
          · exact h3
          · rw [List.getElem?_eq_none h3] at he; cases he
        have hlen2 : ∀ (l : List Nat) (c : cursor), (looked_up t c l).length = l.length := by
          intro l
          induction l with
          | nil => intro c; rfl
          | cons x rest ih => intro c; simp [looked_up_cons, ih]
        rw [hlen2] at hsome
        exact hsome
      rw [hp]
      exact Nat.mod_eq_of_lt (by omega)

theorem position_argument_is_index_witness :
    (fresh_cursor = fresh_cursor ∨ ∃ c, fresh_cursor = full_reset c) ∧
    (fresh_cursor.input_stream_position = 0 ∧
    (∀ (cur : cursor) (c : Nat),
      (match_character (string_matcher_of [104, 105, 124, 104, 105, 50] 2) cur
        c).1.input_stream_position = (cur.input_stream_position + 1) % size_t_values) ∧
    (∀ (cur : cursor) (c : Nat), cur.input_stream_position + 1 < size_t_values →
      (match_character (string_matcher_of [104, 105, 124, 104, 105, 50] 2) cur
        c).1.input_stream_position = cur.input_stream_position + 1) ∧
    (feed (string_matcher_of [104, 105, 124, 104, 105, 50] 2) fresh_cursor
      [104, 105, 32]).1.input_stream_position = [104, 105, 32].length % size_t_values ∧
    ∀ (i : Nat) (r : call_result) (f p : Nat),
      (feed (string_matcher_of [104, 105, 124, 104, 105, 50] 2) fresh_cursor
        [104, 105, 32]).2[i]? = some r → (f, p) ∈ r.invoked →
      ∃ k, k ≤ i ∧ p = k % size_t_values ∧ ([104, 105, 32].length ≤ size_t_values → p = k) ∧
        (∃ e, (looked_up (string_matcher_of [104, 105, 124, 104, 105, 50] 2) fresh_cursor
          [104, 105, 32])[k]? = some e ∧ e.callback = some f) ∧
        (∀ j e, k < j → j ≤ i →
          (looked_up (string_matcher_of [104, 105, 124, 104, 105, 50] 2) fresh_cursor
            [104, 105, 32])[j]? = some e → e.callback = none) ∧
        (∀ j e, k ≤ j → j < i →
          (looked_up (string_matcher_of [104, 105, 124, 104, 105, 50] 2) fresh_cursor
            [104, 105, 32])[j]? = some e → e.next_state_ptr ≠ none)) :=
  ⟨Or.inl rfl, position_argument_is_index _ _ _ (Or.inl rfl)⟩

theorem differs_from_minus_one_true (x : Nat) : differs_from_minus_one x = true := by
  simp only [differs_from_minus_one, decide_eq_true_eq]
  omega

theorem set_element_same (data : index_rows) (r c : Nat)
    (e : string_matcher_with_indices_table_element_t) :
    set_element data r c e r c = e := by
  simp [set_element]

theorem set_element_other (data : index_rows) (r c : Nat)
    (e : string_matcher_with_indices_table_element_t) (s c0 : Nat) (h : ¬ (s = r ∧ c0 = c)) :
    set_element data r c e s c0 = data s c0 := by
  simp [set_element, h]

theorem snoc_inj {u v : List Nat} {a b : Nat} (h : u ++ [a] = v ++ [b]) : u = v ∧ a = b := by
  have := List.append_inj' h rfl
  simpa using this

/-- One literal byte in the chain-building loop. -/
theorem chain_default_inv (alts : List (List Nat)) (done : Nat) (w : List Nat)
    (name : Nat → List Nat) (st : compile_state) (table_length c : Nat)
    (h : chain_inv alts done w name st) (hlen : st.table_row < table_length)
    (hcur : ∃ v, alts[done]? = some (w ++ c :: v)) :
    ∃ st1, chain_default table_length st c = .ok st1 ∧
      chain_inv alts done (w ++ [c]) (Function.update name (st.table_row + 1) (w ++ [c])) st1 ∧
      st1.table_row = st.table_row + 1 := by
  refine ⟨_, by simp [chain_default, hlen]; rfl, ?_, rfl⟩
  have ht := h.trie
  have hnm : ∀ s, s < st.table_row + 1 →
      Function.update name (st.table_row + 1) (w ++ [c]) s = name s := by
    intro s hs
    exact Function.update_noteq (by omega) _ _
  have hrow : ∀ c0, (st.data st.table_row c0).next_state = 0 := by
    intro c0; rw [ht.rows_zero _ _ (le_refl _)]; rfl
  constructor
  · show trie_inv alts done (st.table_row + 1 + 1) _
      (set_element st.data st.table_row c ⟨st.table_row + 1, none⟩) (st.table_row + 1)
    constructor
    · exact (hnm 0 (by omega)).trans ht.name_zero
    · intro s c0 hne
      by_cases hc : s = st.table_row ∧ c0 = c
      · rcases hc with ⟨rfl, rfl⟩
        rw [set_element_same]
        dsimp only
        refine ⟨by omega, by omega, ?_⟩
        rw [Function.update_same, hnm _ (by omega), h.name_row]
      · rw [set_element_other _ _ _ _ _ _ hc] at hne ⊢
        obtain ⟨h1, h2, h3⟩ := ht.edge s c0 hne
        refine ⟨by omega, by omega, ?_⟩
        rw [hnm _ h1, hnm _ h2, h3]
    · intro s hs0 hs
      by_cases hs2 : s = st.table_row + 1
      · exact ⟨st.table_row, c, by rw [set_element_same, hs2]⟩
      · obtain ⟨p, c0, hp⟩ := ht.parent s hs0 (by omega)
        refine ⟨p, c0, ?_⟩
        have : ¬ (p = st.table_row ∧ c0 = c) := by
          rintro ⟨rfl, rfl⟩
          rw [hrow] at hp; omega
        rw [set_element_other _ _ _ _ _ _ this, hp]
    · have key : ∀ s2, s2 < st.table_row + 1 → name s2 ≠ w ++ [c] := by
        intro s2 hs2 heq
        have hs0 : 0 < s2 := by
          rcases Nat.eq_zero_or_pos s2 with h0 | h0
          · rw [h0, ht.name_zero] at heq; simp at heq
          · exact h0
        obtain ⟨p, c0, hp⟩ := ht.parent s2 hs0 hs2
        obtain ⟨h1, _, h3⟩ := ht.edge p c0 (by omega)
        rw [hp, heq] at h3
        have hpw := (snoc_inj h3).1
        have := ht.name_inj p st.table_row h1 (by omega) (by rw [← hpw, h.name_row])
        rw [this, hrow] at hp; omega
      intro s s2 hs hs2 heq
      by_cases e1 : s = st.table_row + 1 <;> by_cases e2 : s2 = st.table_row + 1
      · omega
      · rw [e1, Function.update_same, hnm s2 (by omega)] at heq
        exact absurd heq.symm (key s2 (by omega))
      · rw [e2, Function.update_same, hnm s (by omega)] at heq
        exact absurd heq (key s (by omega))
      · rw [hnm s (by omega), hnm s2 (by omega)] at heq
        exact ht.name_inj s s2 (by omega) (by omega) heq
    · intro s c0 hne hlt
      by_cases hc : s = st.table_row ∧ c0 = c
      · rcases hc with ⟨rfl, rfl⟩
        rw [set_element_same] at hlt; simp at hlt
      · rw [set_element_other _ _ _ _ _ _ hc] at hne hlt
        obtain ⟨h1, h2, h3⟩ := ht.edge s c0 hne
        rw [hnm s h1]
        by_cases hn : (st.data s c0).next_state < st.table_row
        · exact ht.used s c0 hne hn
        · have hn2 : (st.data s c0).next_state = st.table_row := by omega
          obtain ⟨v, hv⟩ := hcur
          refine ⟨done, c :: v, by simp, ?_⟩
          rw [hv, ← h.name_row, ← hn2, h3]; simp
    · intro s c0 k hk
      by_cases hc : s = st.table_row ∧ c0 = c
      · rcases hc with ⟨rfl, rfl⟩
        rw [set_element_same] at hk; simp at hk
      · rw [set_element_other _ _ _ _ _ _ hc] at hk
        obtain ⟨h1, h2, h3, h4⟩ := ht.cb_sound s c0 k hk
        rw [hnm s (by omega)]
        exact ⟨by omega, h2, h3, h4⟩
    · intro j hj hjne
      obtain ⟨s, c0, h1, h2⟩ := ht.cb_complete j hj hjne
      have hs : s < st.table_row := by
        cases hcb : (st.data s c0).callback with
        | none => exact absurd hcb h2
        | some k => exact (ht.cb_sound s c0 k hcb).1
      refine ⟨s, c0, by rw [hnm s (by omega)]; exact h1, ?_⟩
      have : ¬ (s = st.table_row ∧ c0 = c) := by omega
      rw [set_element_other _ _ _ _ _ _ this]; exact h2
    · intro s c0 hs
      have : ¬ (s = st.table_row ∧ c0 = c) := by omega
      rw [set_element_other _ _ _ _ _ _ this]
      exact ht.rows_zero s c0 (by omega)
  · exact h.index_eq
  · show Function.update name (st.table_row + 1) (w ++ [c]) (st.table_row + 1) = w ++ [c]
    simp
  · exact h.no_merge
  · intro _
    refine ⟨st.table_row, rfl, Nat.lt_succ_self _, ?_, ?_⟩
    · show Function.update name (st.table_row + 1) (w ++ [c]) st.table_row ++ [c] = w ++ [c]
      rw [hnm _ (by omega), h.name_row]
    · show (set_element st.data st.table_row c ⟨st.table_row + 1, none⟩
        st.table_row c).next_state = st.table_row + 1
      rw [set_element_same]

/-- The end of an alternative reached in the chain-building loop: the cell of its last
byte gets `{ 0, callback }` and the empty row it pointed to is free again. -/
theorem trie_inv_end_chain (alts : List (List Nat)) (done R : Nat) (name : Nat → List Nat)
    (data : index_rows) (w : List Nat) (lt ch : Nat)
    (ht : trie_inv alts done (R + 1) name data R) (hlt : lt < R)
    (hname : name lt ++ [ch] = w) (hrow : name R = w) (hnext : (data lt ch).next_state = R)
    (halt : alts[done]? = some w) :
    trie_inv alts (done + 1) R name (set_element data lt ch ⟨0, some done⟩) R := by
  have hzero : ∀ c0, (data R c0).next_state = 0 := by
    intro c0; rw [ht.rows_zero _ _ (le_refl _)]; rfl
  have hcell : ∀ s c0, s < R + 1 → name s ++ [c0] = w → s = lt ∧ c0 = ch := by
    intro s c0 hs heq
    rw [← hname] at heq
    obtain ⟨h1, h2⟩ := snoc_inj heq
    exact ⟨ht.name_inj s lt hs (by omega) h1, h2⟩
  constructor
  · exact ht.name_zero
  · intro s c0 hne
    by_cases hc : s = lt ∧ c0 = ch
    · rcases hc with ⟨rfl, rfl⟩
      rw [set_element_same] at hne; exact absurd rfl hne
    · rw [set_element_other _ _ _ _ _ _ hc] at hne ⊢
      obtain ⟨h1, h2, h3⟩ := ht.edge s c0 hne
      have hs : s ≠ R := by
        rintro rfl; exact hne (hzero c0)
      have hn : (data s c0).next_state ≠ R := by
        intro hn
        rw [hn, hrow] at h3
        exact hc (hcell s c0 h1 h3.symm)
      exact ⟨by omega, by omega, h3⟩
  · intro s hs0 hs
    obtain ⟨p, c0, hp⟩ := ht.parent s hs0 (by omega)
    refine ⟨p, c0, ?_⟩
    have : ¬ (p = lt ∧ c0 = ch) := by
      rintro ⟨rfl, rfl⟩
      omega
    rw [set_element_other _ _ _ _ _ _ this, hp]
  · intro s s2 hs hs2 heq
    exact ht.name_inj s s2 (by omega) (by omega) heq
  · intro s c0 hne hlt2
    by_cases hc : s = lt ∧ c0 = ch
    · rcases hc with ⟨rfl, rfl⟩
      rw [set_element_same] at hne; exact absurd rfl hne
    · rw [set_element_other _ _ _ _ _ _ hc] at hne hlt2
      exact ht.used s c0 hne hlt2
  · intro s c0 k hk
    by_cases hc : s = lt ∧ c0 = ch
    · rcases hc with ⟨rfl, rfl⟩
      rw [set_element_same] at hk
      simp only [Option.some.injEq] at hk
      subst hk
      refine ⟨hlt, Nat.lt_succ_self _, by rw [hname]; exact halt, ?_⟩
      intro j hj _; omega
    · rw [set_element_other _ _ _ _ _ _ hc] at hk
      obtain ⟨h1, h2, h3, h4⟩ := ht.cb_sound s c0 k hk
      refine ⟨h1, by omega, h3, ?_⟩
      intro j hj hjw
      by_cases hjd : j = done
      · rw [hjd, halt] at hjw
        simp only [Option.some.injEq] at hjw
        exact absurd (hcell s c0 (by omega) hjw.symm) hc
      · exact h4 j (by omega) hjw
  · intro j hj hjne
    by_cases hjd : j = done
    · refine ⟨lt, ch, by rw [hjd, hname]; exact halt, ?_⟩
      rw [set_element_same]; simp
    · obtain ⟨s, c0, h1, h2⟩ := ht.cb_complete j (by omega) hjne
      refine ⟨s, c0, h1, ?_⟩
      by_cases hc : s = lt ∧ c0 = ch
      · rcases hc with ⟨rfl, rfl⟩
        rw [set_element_same]; simp
      · rw [set_element_other _ _ _ _ _ _ hc]; exact h2
  · intro s c0 hs
    have : ¬ (s = lt ∧ c0 = ch) := by omega
    rw [set_element_other _ _ _ _ _ _ this]
    exact ht.rows_zero s c0 hs

/-- The end of an alternative reached in the merge loop: the cell of its last byte
gets the callback and keeps its next state. -/
theorem trie_inv_end_merge (alts : List (List Nat)) (done R : Nat) (name : Nat → List Nat)
    (data : index_rows) (w : List Nat) (lmr ch : Nat)
    (ht : trie_inv alts done R name data R) (hlt : lmr < R)
    (hname : name lmr ++ [ch] = w) (halt : alts[done]? = some w) :
    trie_inv alts (done + 1) R name
      (set_element data lmr ch ⟨(data lmr ch).next_state, some done⟩) R := by
  have hnext : ∀ s c0, (set_element data lmr ch ⟨(data lmr ch).next_state, some done⟩
      s c0).next_state = (data s c0).next_state := by
    intro s c0
    by_cases hc : s = lmr ∧ c0 = ch
    · rcases hc with ⟨rfl, rfl⟩
      rw [set_element_same]
    · rw [set_element_other _ _ _ _ _ _ hc]
  have hcell : ∀ s c0, s < R → name s ++ [c0] = w → s = lmr ∧ c0 = ch := by
    intro s c0 hs heq
    rw [← hname] at heq
    obtain ⟨h1, h2⟩ := snoc_inj heq
    exact ⟨ht.name_inj s lmr hs hlt h1, h2⟩
  constructor
  · exact ht.name_zero
  · intro s c0 hne
    rw [hnext] at hne ⊢
    exact ht.edge s c0 hne
  · intro s hs0 hs
    obtain ⟨p, c0, hp⟩ := ht.parent s hs0 hs
    exact ⟨p, c0, by rw [hnext, hp]⟩
  · exact ht.name_inj
  · intro s c0 hne hlt2
    rw [hnext] at hne hlt2
    exact ht.used s c0 hne hlt2
  · intro s c0 k hk
    by_cases hc : s = lmr ∧ c0 = ch
    · rcases hc with ⟨rfl, rfl⟩
      rw [set_element_same] at hk
      simp only [Option.some.injEq] at hk
      subst hk
      refine ⟨hlt, Nat.lt_succ_self _, by rw [hname]; exact halt, ?_⟩
      intro j hj _; omega
    · rw [set_element_other _ _ _ _ _ _ hc] at hk
      obtain ⟨h1, h2, h3, h4⟩ := ht.cb_sound s c0 k hk
      refine ⟨h1, by omega, h3, ?_⟩
      intro j hj hjw
      by_cases hjd : j = done
      · rw [hjd, halt] at hjw
        simp only [Option.some.injEq] at hjw
        exact absurd (hcell s c0 h1 hjw.symm) hc
      · exact h4 j (by omega) hjw
  · intro j hj hjne
    by_cases hjd : j = done
    · refine ⟨lmr, ch, by rw [hjd, hname]; exact halt, ?_⟩
      rw [set_element_same]; simp
    · obtain ⟨s, c0, h1, h2⟩ := ht.cb_complete j (by omega) hjne
      refine ⟨s, c0, h1, ?_⟩
      by_cases hc : s = lmr ∧ c0 = ch
      · rcases hc with ⟨rfl, rfl⟩
        rw [set_element_same]; simp
      · rw [set_element_other _ _ _ _ _ _ hc]; exact h2
  · intro s c0 hs
    have : ¬ (s = lmr ∧ c0 = ch) := by omega
    rw [set_element_other _ _ _ _ _ _ this]
    exact ht.rows_zero s c0 hs

/-- An unescaped pipe in the chain-building loop. -/
theorem chain_pipe_inv (alts : List (List Nat)) (done : Nat) (w : List Nat)
    (name : Nat → List Nat) (st : compile_state) (table_length callbacks : Nat)
    (h : chain_inv alts done w name st) (hw : w ≠ []) (halt : alts[done]? = some w)
    (hcb : done < callbacks) (hlen : st.table_row ≤ table_length) :
    ∃ st1, chain_pipe table_length callbacks st = .ok st1 ∧
      merge_inv alts (done + 1) [] name st1 ∧ st1.table_row = st.table_row := by
  obtain ⟨lt, hl1, hl2, hl3, hl4⟩ := h.last hw
  have hidx : st.string_index < callbacks := by rw [h.index_eq]; exact hcb
  have hlt : lt < table_length := by omega
  refine ⟨{ st with data := set_element st.data lt st.character ⟨0, some st.string_index⟩
                    character := 255
                    string_index := st.string_index + 1 }, ?_, ?_, rfl⟩
  · simp [chain_pipe, differs_from_minus_one_true, hl1, row_index, func_ptr, hidx, hlt]
  · have ht := trie_inv_end_chain alts done st.table_row name st.data w lt st.character
      h.trie hl2 hl3 h.name_row hl4 halt
    constructor
    · show trie_inv alts (done + 1) st.table_row name
        (set_element st.data lt st.character ⟨0, some st.string_index⟩) st.table_row
      rw [h.index_eq]; exact ht
    · show st.string_index + 1 = done + 1
      rw [h.index_eq]
    · show st.merge_row_current < st.table_row
      rw [h.no_merge]; omega
    · show name st.merge_row_current = []
      rw [h.no_merge]; exact h.trie.name_zero
    · intro hne; exact absurd rfl hne

/-- An unescaped pipe in the merge loop. -/
theorem merge_pipe_inv (alts : List (List Nat)) (done : Nat) (w : List Nat)
    (name : Nat → List Nat) (st : compile_state) (table_length callbacks : Nat)
    (h : merge_inv alts done w name st) (hw : w ≠ []) (halt : alts[done]? = some w)
    (hcb : done < callbacks) (hlen : st.table_row ≤ table_length) :
    ∃ st1, merge_pipe table_length callbacks st = .ok st1 ∧
      merge_inv alts (done + 1) [] name st1 ∧ st1.table_row = st.table_row := by
  obtain ⟨lmr, hl1, hl2, hl3, _⟩ := h.last hw
  have hidx : st.string_index < callbacks := by rw [h.index_eq]; exact hcb
  have hlt : lmr < table_length := by omega
  refine ⟨{ st with data := set_element st.data lmr st.character
                              ⟨(st.data lmr st.character).next_state, some st.string_index⟩
                    character := 255
                    string_index := st.string_index + 1
                    merge_row_current := 0 }, ?_, ?_, rfl⟩
  · simp [merge_pipe, differs_from_minus_one_true, hl1, row_index, func_ptr, hidx, hlt]
  · have ht := trie_inv_end_merge alts done st.table_row name st.data w lmr st.character
      h.trie hl2 hl3 halt
    constructor
    · show trie_inv alts (done + 1) st.table_row name
        (set_element st.data lmr st.character
          ⟨(st.data lmr st.character).next_state, some st.string_index⟩) st.table_row
      rw [h.index_eq]; exact ht
    · show st.string_index + 1 = done + 1
      rw [h.index_eq]
    · show 0 < st.table_row
      omega
    · exact h.trie.name_zero
    · intro hne; exact absurd rfl hne

/-- One literal byte in the merge loop: either the transition exists and is followed,
or it is spliced in and the chain-building loop takes over. -/
theorem merge_default_inv (alts : List (List Nat)) (done : Nat) (w : List Nat)
    (name : Nat → List Nat) (st : compile_state) (table_length c : Nat)
    (h : merge_inv alts done w name st) (hlen : st.table_row < table_length) :
    (∃ st1, merge_default table_length st c = .ok (st1, false) ∧
      merge_inv alts done (w ++ [c]) name st1 ∧ st1.table_row = st.table_row) ∨
    (∃ st1, merge_default table_length st c = .ok (st1, true) ∧
      chain_inv alts done (w ++ [c]) (Function.update name st.table_row (w ++ [c])) st1 ∧
      st1.table_row = st.table_row) := by
  have ht := h.trie
  have hcur := h.cur_lt
  have hm : st.merge_row_current < table_length := by omega
  by_cases hn : (st.data st.merge_row_current c).next_state = 0
  · right
    refine ⟨{ st with last_table_row := some st.merge_row_current
                      data := set_element st.data st.merge_row_current c
                                ⟨st.table_row, (st.data st.merge_row_current c).callback⟩
                      merge_row_current := 0
                      character := c }, ?_, ?_, rfl⟩
    · simp [merge_default, hm, hn]
    · have hnm : ∀ s, s < st.table_row →
          Function.update name st.table_row (w ++ [c]) s = name s := by
        intro s hs
        exact Function.update_noteq (by omega) _ _
      have hcbk : ∀ s c0, (set_element st.data st.merge_row_current c
          ⟨st.table_row, (st.data st.merge_row_current c).callback⟩ s c0).callback =
          (st.data s c0).callback := by
        intro s c0
        by_cases hc : s = st.merge_row_current ∧ c0 = c
        · rcases hc with ⟨rfl, rfl⟩
          rw [set_element_same]
        · rw [set_element_other _ _ _ _ _ _ hc]
      constructor
      · show trie_inv alts done (st.table_row + 1) _
          (set_element st.data st.merge_row_current c
            ⟨st.table_row, (st.data st.merge_row_current c).callback⟩) st.table_row
        constructor
        · exact (hnm 0 (by omega)).trans ht.name_zero
        · intro s c0 hne
          by_cases hc : s = st.merge_row_current ∧ c0 = c
          · rcases hc with ⟨rfl, rfl⟩
            rw [set_element_same]
            dsimp only
            refine ⟨by omega, by omega, ?_⟩
            rw [Function.update_same, hnm _ hcur, h.name_cur]
          · rw [set_element_other _ _ _ _ _ _ hc] at hne ⊢
            obtain ⟨h1, h2, h3⟩ := ht.edge s c0 hne
            refine ⟨by omega, by omega, ?_⟩
            rw [hnm _ h1, hnm _ h2, h3]
        · intro s hs0 hs
          by_cases hs2 : s = st.table_row
          · exact ⟨st.merge_row_current, c, by rw [set_element_same, hs2]⟩
          · obtain ⟨p, c0, hp⟩ := ht.parent s hs0 (by omega)
            refine ⟨p, c0, ?_⟩
            have : ¬ (p = st.merge_row_current ∧ c0 = c) := by
              rintro ⟨rfl, rfl⟩
              omega
            rw [set_element_other _ _ _ _ _ _ this, hp]
        · have key : ∀ s2, s2 < st.table_row → name s2 ≠ w ++ [c] := by
            intro s2 hs2 heq
            have hs0 : 0 < s2 := by
              rcases Nat.eq_zero_or_pos s2 with h0 | h0
              · rw [h0, ht.name_zero] at heq; simp at heq
              · exact h0
            obtain ⟨p, c0, hp⟩ := ht.parent s2 hs0 hs2
            obtain ⟨h1, _, h3⟩ := ht.edge p c0 (by omega)
            rw [hp, heq] at h3
            obtain ⟨hpw, hcc⟩ := snoc_inj h3
            have := ht.name_inj p st.merge_row_current h1 hcur (by rw [← hpw, h.name_cur])
            rw [this, ← hcc, hn] at hp; omega
          intro s s2 hs hs2 heq
          by_cases e1 : s = st.table_row <;> by_cases e2 : s2 = st.table_row
          · omega
          · rw [e1, Function.update_same, hnm s2 (by omega)] at heq
            exact absurd heq.symm (key s2 (by omega))
          · rw [e2, Function.update_same, hnm s (by omega)] at heq
            exact absurd heq (key s (by omega))
          · rw [hnm s (by omega), hnm s2 (by omega)] at heq
            exact ht.name_inj s s2 (by omega) (by omega) heq
        · intro s c0 hne hlt
          by_cases hc : s = st.merge_row_current ∧ c0 = c
          · rcases hc with ⟨rfl, rfl⟩
            rw [set_element_same] at hlt; simp at hlt
          · rw [set_element_other _ _ _ _ _ _ hc] at hne hlt
            rw [hnm s (ht.edge s c0 hne).1]
            exact ht.used s c0 hne hlt
        · intro s c0 k hk
          rw [hcbk] at hk
          obtain ⟨h1, h2, h3, h4⟩ := ht.cb_sound s c0 k hk
          rw [hnm s h1]
          exact ⟨h1, h2, h3, h4⟩
        · intro j hj hjne
          obtain ⟨s, c0, h1, h2⟩ := ht.cb_complete j hj hjne
          have hs : s < st.table_row := by
            cases hcb : (st.data s c0).callback with
            | none => exact absurd hcb h2
            | some k => exact (ht.cb_sound s c0 k hcb).1
          exact ⟨s, c0, by rw [hnm s hs]; exact h1, by rw [hcbk]; exact h2⟩
        · intro s c0 hs
          have : ¬ (s = st.merge_row_current ∧ c0 = c) := by omega
          rw [set_element_other _ _ _ _ _ _ this]
          exact ht.rows_zero s c0 hs
      · exact h.index_eq
      · show Function.update name st.table_row (w ++ [c]) st.table_row = w ++ [c]
        simp
      · rfl
      · intro _
        refine ⟨st.merge_row_current, rfl, hcur, ?_, ?_⟩
        · show Function.update name st.table_row (w ++ [c]) st.merge_row_current ++ [c] = w ++ [c]
          rw [hnm _ hcur, h.name_cur]
        · show (set_element st.data st.merge_row_current c
            ⟨st.table_row, (st.data st.merge_row_current c).callback⟩
            st.merge_row_current c).next_state = st.table_row
          rw [set_element_same]
  · left
    refine ⟨{ st with last_merge_row := some st.merge_row_current
                      merge_row_current := (st.data st.merge_row_current c).next_state
                      character := c }, ?_, ?_, rfl⟩
    · simp [merge_default, hm, hn]
    · obtain ⟨h1, h2, h3⟩ := ht.edge _ _ hn
      constructor
      · exact ht
      · exact h.index_eq
      · exact h2
      · show name (st.data st.merge_row_current c).next_state = w ++ [c]
        rw [h3, h.name_cur]
      · intro _
        exact ⟨st.merge_row_current, rfl, hcur, by rw [h.name_cur], rfl⟩

theorem alternatives_ne_nil (l : List Nat) : alternatives l ≠ [] := by
  induction l using alternatives.induct with
  | case1 => rw [alternatives_nil]; simp
  | case2 rest _ => rw [alternatives_pipe]; simp
  | case3 _ => rw [alternatives.eq_def]; simp
  | case4 d rest2 _ ih =>
    rw [alternatives_escape]
    cases h : alternatives rest2 <;> simp [push_byte]
  | case5 c rest h1 h2 ih =>
    rw [alternatives_literal _ _ h1 h2]
    cases h : alternatives rest <;> simp [push_byte]

theorem prepend_push_byte (w : List Nat) (c : Nat) (l : List (List Nat)) (hl : l ≠ []) :
    prepend w (push_byte c l) = prepend (w ++ [c]) l := by
  cases l with
  | nil => exact absurd rfl hl
  | cons a as => simp [prepend, push_byte]

theorem prepend_nil (l : List (List Nat)) (hl : l ≠ []) : prepend [] l = l := by
  cases l with
  | nil => exact absurd rfl hl
  | cons a as => simp [prepend]

theorem drop_eq_cons {α : Type} (l : List α) (n : Nat) (x : α) (xs : List α)
    (h : l.drop n = x :: xs) : l[n]? = some x ∧ l.drop (n + 1) = xs := by
  induction l generalizing n with
  | nil => simp at h
  | cons y ys ih =>
    cases n with
    | zero =>
      simp only [List.drop_zero, List.cons.injEq] at h
      simp [h.1, h.2]
    | succ n =>
      simp only [List.drop_succ_cons] at h
      simpa using ih n h

theorem compile_loops_nil (tl cb : Nat) (m : Bool) (st : compile_state) :
    compile_loops tl cb m st [] = .ok st := by
  cases m <;> rfl

theorem compile_loops_chain_cons (tl cb : Nat) (st : compile_state) (c : Nat)
    (rest : List Nat) :
    compile_loops tl cb false st (c :: rest) =
      if c > 127 then .error .invalid_character
      else if c = 124 then
        match chain_pipe tl cb st with
        | .ok st1 => compile_loops tl cb true st1 rest
        | .error e => .error e
      else if c = 92 then
        match rest with
        | [] => .error .trailing_backslash
        | character2 :: rest2 =>
          if character2 > 127 then .error .invalid_character
          else
            match chain_default tl st character2 with
            | .ok st1 => compile_loops tl cb false st1 rest2
            | .error e => .error e
      else
        match chain_default tl st c with
        | .ok st1 => compile_loops tl cb false st1 rest
        | .error e => .error e := by
  cases rest <;> rfl

theorem compile_loops_merge_cons (tl cb : Nat) (st : compile_state) (c : Nat)
    (rest : List Nat) :
    compile_loops tl cb true st (c :: rest) =
      if c > 127 then .error .invalid_character
      else if c = 124 then
        match merge_pipe tl cb st with
        | .ok st1 => compile_loops tl cb true st1 rest
        | .error e => .error e
      else if c = 92 then
        match rest with
        | [] => .error .trailing_backslash
        | character2 :: rest2 =>
          if character2 > 127 then .error .invalid_character
          else
            match merge_default tl st character2 with
            | .ok (st1, spliced) => compile_loops tl cb (!spliced) st1 rest2
            | .error e => .error e
      else
        match merge_default tl st c with
        | .ok (st1, spliced) => compile_loops tl cb (!spliced) st1 rest
        | .error e => .error e := by
  cases rest <;> rfl

theorem compile_loops_pipe (tl cb : Nat) (m : Bool) (st : compile_state) (rest : List Nat) :
    compile_loops tl cb m st (124 :: rest) =
      match (match m with
        | false => chain_pipe tl cb st
        | true => merge_pipe tl cb st) with
      | .ok st1 => compile_loops tl cb true st1 rest
      | .error e => .error e := by
  cases m
  · rw [compile_loops_chain_cons]; simp
  · rw [compile_loops_merge_cons]; simp

theorem compile_loops_literal (tl cb : Nat) (m : Bool) (st : compile_state) (c : Nat)
    (rest : List Nat) (h0 : ¬ c > 127) (h1 : c ≠ 124) (h2 : c ≠ 92) :
    compile_loops tl cb m st (c :: rest) =
      match m with
      | false =>
        match chain_default tl st c with
        | .ok st1 => compile_loops tl cb false st1 rest
        | .error e => .error e
      | true =>
        match merge_default tl st c with
        | .ok (st1, spliced) => compile_loops tl cb (!spliced) st1 rest
        | .error e => .error e := by
  cases m
  · rw [compile_loops_chain_cons]; simp only [h0, h1, h2, if_false]
  · rw [compile_loops_merge_cons]; simp only [h0, h1, h2, if_false]

theorem compile_loops_escape (tl cb : Nat) (m : Bool) (st : compile_state) (d : Nat)
    (rest : List Nat) (h0 : ¬ d > 127) :
    compile_loops tl cb m st (92 :: d :: rest) =
      match m with
      | false =>
        match chain_default tl st d with
        | .ok st1 => compile_loops tl cb false st1 rest
        | .error e => .error e
      | true =>
        match merge_default tl st d with
        | .ok (st1, spliced) => compile_loops tl cb (!spliced) st1 rest
        | .error e => .error e := by
  cases m
  · rw [compile_loops_chain_cons]; simp [h0]
  · rw [compile_loops_merge_cons]; simp [h0]

/-- A literal byte handled by whichever loop is running, the loops continuing on the
rest of the spec. -/
theorem literal_then_loops (alts : List (List Nat)) (tl cb c : Nat) (rest : List Nat)
    (ih : ∀ (merging : Bool) (st : compile_state) (w : List Nat) (name : Nat → List Nat)
      (done : Nat), alts.drop done = prepend w (alternatives rest) →
      st.table_row + literal_positions rest ≤ tl → loop_inv merging alts done w name st →
      ∃ st2, compile_loops tl cb merging st rest = .ok st2 ∧ loops_post alts tl st2)
    (merging : Bool) (st : compile_state) (w : List Nat) (name : Nat → List Nat) (done : Nat)
    (hparse : alts.drop done = prepend (w ++ [c]) (alternatives rest))
    (hlen : st.table_row + literal_positions rest + 1 ≤ tl)
    (hinv : loop_inv merging alts done w name st) :
    ∃ st2, (match merging with
      | false =>
        match chain_default tl st c with
        | .ok st1 => compile_loops tl cb false st1 rest
        | .error e => .error e
      | true =>
        match merge_default tl st c with
        | .ok (st1, spliced) => compile_loops tl cb (!spliced) st1 rest
        | .error e => .error e) = .ok st2 ∧ loops_post alts tl st2 := by
  have hcur : ∃ v, alts[done]? = some (w ++ c :: v) := by
    cases hX : alternatives rest with
    | nil => exact absurd hX (alternatives_ne_nil rest)
    | cons a as =>
      rw [hX] at hparse
      exact ⟨a, by rw [(drop_eq_cons _ _ _ _ hparse).1]; simp⟩
  cases merging with
  | false =>
    obtain ⟨st1, h1, h2, h3⟩ := chain_default_inv alts done w name st tl c hinv (by omega) hcur
    simp only [h1]
    exact ih false st1 _ _ done hparse (by omega) h2
  | true =>
    rcases merge_default_inv alts done w name st tl c hinv (by omega) with
      ⟨st1, h1, h2, h3⟩ | ⟨st1, h1, h2, h3⟩
    · simp only [h1]
      exact ih true st1 _ _ done hparse (by omega) h2
    · simp only [h1]
      exact ih false st1 _ _ done hparse (by omega) h2

/-- The two loops of `compile_to_table` keep the trie invariant on a well-formed spec
without empty alternatives, and they return. -/
theorem compile_loops_inv (alts : List (List Nat)) (tl cb : Nat) (hcb : alts.length = cb)
    (hne : ∀ a ∈ alts, a ≠ []) (rest : List Nat) (r : Nat) :
    ∀ (n : Nat), calculate_table_length_loop rest r = .ok n →
    ∀ (merging : Bool) (st : compile_state) (w : List Nat) (name : Nat → List Nat)
      (done : Nat), alts.drop done = prepend w (alternatives rest) →
      st.table_row + literal_positions rest ≤ tl → loop_inv merging alts done w name st →
      ∃ st2, compile_loops tl cb merging st rest = .ok st2 ∧ loops_post alts tl st2 := by
  induction rest, r using calculate_table_length_loop.induct with
  | case1 r =>
    intro n _ merging st w name done hparse hlen hinv
    refine ⟨st, compile_loops_nil _ _ _ _, merging, w, name, done, ?_, ?_, hinv⟩
    · rw [hparse, alternatives_nil]; simp [prepend]
    · rw [literal_positions_nil] at hlen; exact hlen
  | case2 c rest r hc =>
    intro n h
    rw [calculate_table_length_loop.eq_def] at h; simp [hc] at h
  | case3 rest r _ ih =>
    intro n h merging st w name done hparse hlen hinv
    rw [calculate_table_length_loop.eq_def] at h
    simp only [gt_iff_lt, Nat.reduceLT, if_false, if_true] at h
    rw [alternatives_pipe] at hparse
    rw [literal_positions_pipe] at hlen
    obtain ⟨halt, hdrop⟩ := drop_eq_cons _ _ _ _ hparse
    simp only [List.append_nil] at halt
    have hw : w ≠ [] := hne w (List.getElem?_mem halt)
    have hdone : done < cb := by
      rw [← hcb]
      exact (List.getElem?_eq_some_iff.1 halt).1
    rw [← prepend_nil _ (alternatives_ne_nil rest)] at hdrop
    rw [compile_loops_pipe]
    cases merging with
    | false =>
      obtain ⟨st1, h1, h2, h3⟩ := chain_pipe_inv alts done w name st tl cb hinv hw halt hdone
        (by omega)
      simp only [h1]
      exact ih n h true st1 [] name (done + 1) hdrop (by omega) h2
    | true =>
      obtain ⟨st1, h1, h2, h3⟩ := merge_pipe_inv alts done w name st tl cb hinv hw halt hdone
        (by omega)
      simp only [h1]
      exact ih n h true st1 [] name (done + 1) hdrop (by omega) h2
  | case4 r _ _ =>
    intro n h
    rw [calculate_table_length_loop.eq_def] at h; simp at h
  | case5 r d rest2 hd _ _ =>
    intro n h
    rw [calculate_table_length_loop.eq_def] at h; simp [hd] at h
  | case6 r d rest2 hd hd2 _ _ ih =>
    intro n h merging st w name done hparse hlen hinv
    rw [calculate_table_length_loop.eq_def] at h
    simp [hd, hd2] at h
    rw [alternatives_escape, prepend_push_byte _ _ _ (alternatives_ne_nil _)] at hparse
    rw [literal_positions_escape _ _ hd2] at hlen
    rw [compile_loops_escape _ _ _ _ _ _ hd]
    exact literal_then_loops alts tl cb d rest2 (ih n h) merging st w name done hparse
      (by omega) hinv
  | case7 r d rest2 hd hd2 _ _ =>
    intro n h
    rw [calculate_table_length_loop.eq_def] at h; simp [hd, hd2] at h
  | case8 c rest r h1 h2 h3 ih =>
    intro n h merging st w name done hparse hlen hinv
    rw [calculate_table_length_loop.eq_def] at h
    simp [h1, h2, h3] at h
    rw [alternatives_literal _ _ h2 h3, prepend_push_byte _ _ _ (alternatives_ne_nil _)] at hparse
    rw [literal_positions_literal _ _ h2 h3] at hlen
    rw [compile_loops_literal _ _ _ _ _ _ h1 h2 h3]
    exact literal_then_loops alts tl cb c rest (ih n h) merging st w name done hparse
      (by omega) hinv

/-- Lines 481-489 put the callback of the last alternative in place, when that
alternative is not empty. -/
theorem compile_finish_trie (alts : List (List Nat)) (tl cb : Nat) (st : compile_state)
    (hcb : alts.length = cb) (m2 : Bool) (w2 : List Nat) (name2 : Nat → List Nat)
    (done2 : Nat) (hdrop : alts.drop done2 = [w2]) (hlen : st.table_row ≤ tl)
    (hinv : loop_inv m2 alts done2 w2 name2 st) (hw : w2 ≠ []) :
    ∃ st1 name, compile_finish tl cb st = .ok st1 ∧ st1.string_index = cb ∧
      st1.table_row = st.table_row ∧ st1.table_row ≤ tl ∧
      trie_inv alts alts.length st1.table_row name st1.data st1.table_row := by
  obtain ⟨halt, hdrop2⟩ := drop_eq_cons _ _ _ _ hdrop
  have hdone : done2 < alts.length := (List.getElem?_eq_some_iff.1 halt).1
  have hlast : done2 + 1 = alts.length := by
    have := congrArg List.length hdrop2
    simp at this
    omega
  cases m2 with
  | false =>
    have h : chain_inv alts done2 w2 name2 st := hinv
    obtain ⟨lt, hl1, hl2, hl3, hl4⟩ := h.last hw
    have ht := trie_inv_end_chain alts done2 st.table_row name2 st.data w2 lt st.character
      h.trie hl2 hl3 h.name_row hl4 halt
    refine ⟨{ st with data := set_element st.data lt st.character ⟨0, some st.string_index⟩
                      string_index := st.string_index + 1 }, name2, ?_, ?_, rfl, hlen, ?_⟩
    · have hidx : st.string_index < cb := by rw [h.index_eq]; omega
      have hlt : lt < tl := by omega
      simp [compile_finish, differs_from_minus_one_true, h.no_merge, hl1, row_index, func_ptr,
        hidx, hlt]
    · show st.string_index + 1 = cb
      rw [h.index_eq]; omega
    · show trie_inv alts alts.length st.table_row name2
        (set_element st.data lt st.character ⟨0, some st.string_index⟩) st.table_row
      rw [h.index_eq, ← hlast]; exact ht
  | true =>
    have h : merge_inv alts done2 w2 name2 st := hinv
    obtain ⟨lmr, hl1, hl2, hl3, _⟩ := h.last hw
    have ht := trie_inv_end_merge alts done2 st.table_row name2 st.data w2 lmr st.character
      h.trie hl2 hl3 halt
    have hmrc : st.merge_row_current ≠ 0 := by
      intro h0
      have := h.name_cur
      rw [h0, h.trie.name_zero] at this
      exact hw this.symm
    refine ⟨{ st with data := set_element st.data lmr st.character
                                ⟨(st.data lmr st.character).next_state, some st.string_index⟩
                      string_index := st.string_index + 1 }, name2, ?_, ?_, rfl, hlen, ?_⟩
    · have hidx : st.string_index < cb := by rw [h.index_eq]; omega
      have hlt : lmr < tl := by omega
      simp [compile_finish, differs_from_minus_one_true, hmrc, hl1, row_index, func_ptr,
        hidx, hlt]
    · show st.string_index + 1 = cb
      rw [h.index_eq]; omega
    · show trie_inv alts alts.length st.table_row name2
        (set_element st.data lmr st.character
          ⟨(st.data lmr st.character).next_state, some st.string_index⟩) st.table_row
      rw [h.index_eq, ← hlast]; exact ht

/-- Lines 481-489 put the callback of the last alternative in place. -/
theorem compile_finish_inv (alts : List (List Nat)) (tl cb : Nat) (st : compile_state)
    (hcb : alts.length = cb) (hne : ∀ a ∈ alts, a ≠ []) (hpost : loops_post alts tl st) :
    ∃ st1 name, compile_finish tl cb st = .ok st1 ∧ st1.string_index = cb ∧
      st1.table_row = st.table_row ∧ st1.table_row ≤ tl ∧
      trie_inv alts alts.length st1.table_row name st1.data st1.table_row := by
  obtain ⟨m2, w2, name2, done2, hdrop, hlen, hinv⟩ := hpost
  have halt := (drop_eq_cons _ _ _ _ hdrop).1
  exact compile_finish_trie alts tl cb st hcb m2 w2 name2 done2 hdrop hlen hinv
    (hne w2 (List.getElem?_mem halt))

/-- On a well-formed spec without empty alternatives, and with one callback per
alternative, `compile_to_table` returns a table, and the table is the trie of the
alternatives. -/
theorem compile_to_table_trie (meta_matcher_spec : List Nat) (n : Nat)
    (hwf : calculate_table_length meta_matcher_spec = .ok n)
    (hne : ∀ a ∈ alternatives meta_matcher_spec, a ≠ []) :
    ∃ t name, compile_to_table n meta_matcher_spec (alternatives meta_matcher_spec).length =
        .ok t ∧ t.length = n ∧ t.second ≤ n ∧
      trie_inv (alternatives meta_matcher_spec) (alternatives meta_matcher_spec).length
        t.second name t.data t.second := by
  have hlit := (calculate_table_length_loop_counts meta_matcher_spec 0 n hwf).1
  have hinit : loop_inv false (alternatives meta_matcher_spec) 0 [] (fun _ => []) compile_init := by
    show chain_inv _ _ _ _ _
    constructor
    · constructor
      · rfl
      · intro s c hne; exact absurd rfl hne
      · intro s h0 hs
        have : compile_init.table_row = 0 := rfl
        omega
      · intro s s2 hs hs2 _
        have : compile_init.table_row = 0 := rfl
        omega
      · intro s c hne; exact absurd rfl hne
      · intro s c k hk; cases hk
      · intro j hj; omega
      · intro s c _; rfl
    · rfl
    · rfl
    · rfl
    · intro h; exact absurd rfl h
  obtain ⟨st, hst, hpost⟩ := compile_loops_inv (alternatives meta_matcher_spec) n
    (alternatives meta_matcher_spec).length rfl hne meta_matcher_spec 0 n hwf false compile_init
    [] (fun _ => []) 0 (by rw [prepend_nil _ (alternatives_ne_nil _)]; rfl)
    (by show 0 + _ ≤ n; omega) hinit
  obtain ⟨st1, name, h1, h2, h3, h4, h5⟩ := compile_finish_inv _ n _ st rfl hne hpost
  have hpos : (alternatives meta_matcher_spec).length ≠ 0 := by
    intro h0
    exact alternatives_ne_nil _ (List.length_eq_zero.1 h0)
  refine ⟨{ length := n, data := st1.data, second := st1.table_row }, name, ?_, rfl, h4, h5⟩
  simp [compile_to_table, hpos, hst, h1, h2]

theorem walk_nil (data : index_rows) (s : Nat) : walk data s [] = some s := rfl

theorem walk_cons (data : index_rows) (s c : Nat) (rest : List Nat) :
    walk data s (c :: rest) =
      if (data s c).next_state = 0 then none else walk data (data s c).next_state rest := rfl

theorem walk_append (data : index_rows) (u v : List Nat) :
    ∀ s, walk data s (u ++ v) = (walk data s u).bind (fun s1 => walk data s1 v) := by
  induction u with
  | nil => intro s; rfl
  | cons c rest ih =>
    intro s
    simp only [List.cons_append, walk_cons]
    by_cases h : (data s c).next_state = 0
    · simp [h]
    · simp only [h, if_false]; exact ih _

theorem walk_snoc (data : index_rows) (u : List Nat) (c s s1 : Nat)
    (h : walk data s u = some s1) :
    walk data s (u ++ [c]) =
      if (data s1 c).next_state = 0 then none else some (data s1 c).next_state := by
  rw [walk_append, h]
  simp [walk_cons, walk_nil]

/-- A walk that starts in a named row ends in the row that is named by the bytes. -/
theorem trie_walk_name (alts : List (List Nat)) (done N R : Nat) (name : Nat → List Nat)
    (data : index_rows) (ht : trie_inv alts done N name data R) (u : List Nat) :
    ∀ s0 s, s0 < N → walk data s0 u = some s → s < N ∧ name s = name s0 ++ u := by
  induction u with
  | nil =>
    intro s0 s hs0 h
    simp only [walk_nil, Option.some.injEq] at h
    subst h
    exact ⟨hs0, by simp⟩
  | cons c rest ih =>
    intro s0 s hs0 h
    rw [walk_cons] at h
    by_cases hn : (data s0 c).next_state = 0
    · simp [hn] at h
    · simp only [hn, if_false] at h
      obtain ⟨_, h2, h3⟩ := ht.edge s0 c hn
      obtain ⟨h4, h5⟩ := ih _ s h2 h
      exact ⟨h4, by rw [h5, h3]; simp⟩

/-- Every named row is reached from row 0 by the bytes of its name. -/
theorem trie_reach (alts : List (List Nat)) (done N R : Nat) (name : Nat → List Nat)
    (data : index_rows) (ht : trie_inv alts done N name data R) :
    ∀ (m s : Nat), (name s).length = m → s < N → walk data 0 (name s) = some s := by
  intro m
  induction m with
  | zero =>
    intro s hm hs
    have hnil : name s = [] := List.length_eq_zero.1 hm
    have h0 : 0 < N := by omega
    have : s = 0 := ht.name_inj s 0 hs h0 (by rw [hnil, ht.name_zero])
    rw [this, ht.name_zero]; rfl
  | succ m ih =>
    intro s hm hs
    have hs0 : 0 < s := by
      rcases Nat.eq_zero_or_pos s with h0 | h0
      · rw [h0, ht.name_zero] at hm; simp at hm
      · exact h0
    obtain ⟨p, c, hp⟩ := ht.parent s hs0 hs
    obtain ⟨h1, _, h3⟩ := ht.edge p c (by omega)
    rw [hp] at h3
    have hlen : (name p).length = m := by
      have := congrArg List.length h3
      simp at this; omega
    rw [h3, walk_snoc data (name p) c 0 p (ih p hlen h1), hp]
    simp; omega

/-- The cell reached by the bytes `u` and then `c` carries the callback of the last
alternative equal to `u ++ [c]`, and only that. -/
theorem trie_callback_sound (alts : List (List Nat)) (N R : Nat) (name : Nat → List Nat)
    (data : index_rows) (ht : trie_inv alts alts.length N name data R) (h0 : 0 < N)
    (u : List Nat) (s c k : Nat) (hw : walk data 0 u = some s)
    (hk : (data s c).callback = some k) :
    alts[k]? = some (u ++ [c]) ∧ ∀ j, alts[j]? = some (u ++ [c]) → j ≤ k := by
  obtain ⟨_, hname⟩ := trie_walk_name alts _ N R name data ht u 0 s h0 hw
  rw [ht.name_zero, List.nil_append] at hname
  obtain ⟨_, _, h3, h4⟩ := ht.cb_sound s c k hk
  rw [hname] at h3 h4
  exact ⟨h3, fun j hj => h4 j (List.getElem?_eq_some_iff.1 hj).1 hj⟩

/-- Every alternative has its cell, reached from row 0, and the cell carries a
callback. -/
theorem trie_callback_complete (alts : List (List Nat)) (N R : Nat) (name : Nat → List Nat)
    (data : index_rows) (ht : trie_inv alts alts.length N name data R) (hRN : R ≤ N)
    (u : List Nat) (c j : Nat) (hj : alts[j]? = some (u ++ [c])) :
    ∃ s k, walk data 0 u = some s ∧ (data s c).callback = some k := by
  obtain ⟨s, c0, h1, h2⟩ := ht.cb_complete j (List.getElem?_eq_some_iff.1 hj).1
    (by rw [hj]; simp)
  rw [hj] at h1
  simp only [Option.some.injEq] at h1
  obtain ⟨hu, hc⟩ := snoc_inj h1
  cases hcb : (data s c0).callback with
  | none => exact absurd hcb h2
  | some k =>
    have hs := (ht.cb_sound s c0 k hcb).1
    refine ⟨s, k, ?_, by rw [hc, hcb]⟩
    rw [hu]
    exact trie_reach alts _ N R name data ht _ s rfl (by omega)

/-- A cell has a next state exactly when some alternative goes on after its byte. -/
theorem trie_next_state (alts : List (List Nat)) (R : Nat) (name : Nat → List Nat)
    (data : index_rows) (ht : trie_inv alts alts.length R name data R) (h0 : 0 < R)
    (u : List Nat) (s c : Nat) (hw : walk data 0 u = some s) :
    (data s c).next_state ≠ 0 ↔
      ∃ (j : Nat) (v : List Nat), v ≠ [] ∧ alts[j]? = some (u ++ c :: v) := by
  obtain ⟨_, hname⟩ := trie_walk_name alts _ R R name data ht u 0 s h0 hw
  rw [ht.name_zero, List.nil_append] at hname
  constructor
  · intro hn
    obtain ⟨j, v, hv, hj⟩ := ht.used s c hn (ht.edge s c hn).2.1
    exact ⟨j, v, hv, by rw [← hname]; exact hj⟩
  · rintro ⟨j, v, hv, hj⟩
    obtain ⟨v2, x, rfl⟩ : ∃ v2 x, v = v2 ++ [x] :=
      ⟨v.dropLast, v.getLast hv, (List.dropLast_append_getLast hv).symm⟩
    have hj2 : alts[j]? = some ((u ++ c :: v2) ++ [x]) := by rw [hj]; simp
    obtain ⟨s2, k, hw2, _⟩ := trie_callback_complete alts R R name data ht (le_refl _) _ x j hj2
    have : u ++ c :: v2 = (u ++ [c]) ++ v2 := by simp
    rw [this, walk_append, walk_snoc data u c 0 s hw] at hw2
    intro hn
    simp [hn] at hw2

theorem feed_append (t : string_matcher_table) (xs ys : List Nat) :
    ∀ cur, feed t cur (xs ++ ys) =
      ((feed t (feed t cur xs).1 ys).1, (feed t cur xs).2 ++ (feed t (feed t cur xs).1 ys).2) := by
  induction xs with
  | nil => intro cur; rfl
  | cons x rest ih =>
    intro cur
    simp only [List.cons_append, feed_cons, ih, List.cons_append]

theorem looked_up_append (t : string_matcher_table) (xs ys : List Nat) :
    ∀ cur, looked_up t cur (xs ++ ys) =
      looked_up t cur xs ++ looked_up t (feed t cur xs).1 ys := by
  induction xs with
  | nil => intro cur; rfl
  | cons x rest ih =>
    intro cur
    simp only [List.cons_append, looked_up_cons, feed_cons, ih]

theorem looked_up_length (t : string_matcher_table) (xs : List Nat) :
    ∀ cur, (looked_up t cur xs).length = xs.length := by
  induction xs with
  | nil => intro cur; rfl
  | cons x rest ih => intro cur; simp [looked_up_cons, ih]

theorem to_string_matcher_data (t : index_table) (r c : Nat) :
    (to_string_matcher t).data r c =
      { next_state_ptr := if (t.data r c).next_state = 0 then none
                          else some (t.data r c).next_state
        callback := (t.data r c).callback } := rfl

/-- The cell of the byte after `bytes` carries a callback: it is the new recorded
match. -/
theorem recorded_match_some (alts : List (List Nat)) (N R : Nat) (name : Nat → List Nat)
    (data : index_rows) (ht : trie_inv alts alts.length N name data R) (h0 : 0 < N)
    (bytes : List Nat) (s b k : Nat) (hw : walk data 0 bytes = some s)
    (hk : (data s b).callback = some k) :
    recorded_match alts (bytes ++ [b]) (some k) (bytes.length % size_t_values) := by
  obtain ⟨h1, h2⟩ := trie_callback_sound alts N R name data ht h0 bytes s b k hw hk
  refine ⟨⟨bytes ++ [b], h1, List.prefix_refl _, ?_⟩, bytes ++ [b], h1, by simp⟩
  intro j a2 hj hp
  rcases Nat.lt_or_ge a2.length (bytes ++ [b]).length with hl | hl
  · exact Or.inl hl
  · have hle := hp.length_le
    have heq : a2 = bytes ++ [b] := hp.eq_of_length (by omega)
    exact Or.inr ⟨by rw [heq], h2 j (by rw [hj, heq])⟩

/-- The cell of the byte after `bytes` carries no callback: the recorded match stays. -/
theorem recorded_match_none (alts : List (List Nat)) (N R : Nat) (name : Nat → List Nat)
    (data : index_rows) (ht : trie_inv alts alts.length N name data R) (hRN : R ≤ N)
    (bytes : List Nat) (s b : Nat) (cb : Option Nat) (pos : Nat)
    (hw : walk data 0 bytes = some s) (hk : (data s b).callback = none)
    (hrec : recorded_match alts bytes cb pos) :
    recorded_match alts (bytes ++ [b]) cb pos := by
  have hnot : ∀ (j : Nat), alts[j]? ≠ some (bytes ++ [b]) := by
    intro j hj
    obtain ⟨s2, k, hw2, hk2⟩ := trie_callback_complete alts N R name data ht hRN bytes b j hj
    rw [hw] at hw2
    simp only [Option.some.injEq] at hw2
    rw [hw2, hk2] at hk
    cases hk
  have hpre : ∀ (j : Nat) (a : List Nat), alts[j]? = some a → a <+: bytes ++ [b] →
      a <+: bytes := by
    intro j a hj hp
    rcases List.prefix_concat_iff.1 hp with h | h
    · rw [h] at hj; exact absurd hj (hnot j)
    · exact h
  cases cb with
  | none =>
    intro j a hj hp
    exact hrec j a hj (hpre j a hj hp)
  | some k =>
    obtain ⟨⟨a, ha, hap, hmax⟩, hpos⟩ := hrec
    refine ⟨⟨a, ha, hap.trans (List.prefix_append _ _), ?_⟩, hpos⟩
    intro j a2 hj hp
    exact hmax j a2 hj (hpre j a2 hj hp)

theorem match_character_live (t : index_table) (cur : cursor) (b : Nat)
    (hn : (t.data cur.state (b % 256)).next_state ≠ 0) :
    (match_character (to_string_matcher t) cur b).2 = ⟨false, []⟩ ∧
    (match_character (to_string_matcher t) cur b).1.state =
      (t.data cur.state (b % 256)).next_state ∧
    (match_character (to_string_matcher t) cur b).1.input_stream_position =
      (cur.input_stream_position + 1) % size_t_values ∧
    ((t.data cur.state (b % 256)).callback = none →
      (match_character (to_string_matcher t) cur b).1.callback_ptr_at_last_match =
        cur.callback_ptr_at_last_match ∧
      (match_character (to_string_matcher t) cur b).1.input_stream_position_at_last_match =
        cur.input_stream_position_at_last_match) ∧
    (∀ k, (t.data cur.state (b % 256)).callback = some k →
      (match_character (to_string_matcher t) cur b).1.callback_ptr_at_last_match = some k ∧
      (match_character (to_string_matcher t) cur b).1.input_stream_position_at_last_match =
        cur.input_stream_position) := by
  cases h1 : (t.data cur.state (b % 256)).callback <;>
    simp [match_character, to_string_matcher_data, h1, hn]

theorem match_character_dead (t : index_table) (cur : cursor) (b : Nat)
    (hn : (t.data cur.state (b % 256)).next_state = 0) :
    ((t.data cur.state (b % 256)).callback = none →
      (match_character (to_string_matcher t) cur b).2 =
        match cur.callback_ptr_at_last_match with
        | none => ⟨false, []⟩
        | some f => ⟨true, [(f, cur.input_stream_position_at_last_match)]⟩) ∧
    (∀ k, (t.data cur.state (b % 256)).callback = some k →
      (match_character (to_string_matcher t) cur b).2 =
        ⟨true, [(k, cur.input_stream_position)]⟩) := by
  cases h1 : (t.data cur.state (b % 256)).callback <;>
    cases h3 : cur.callback_ptr_at_last_match <;>
    simp [match_character, to_string_matcher_data, h1, hn, h3]

/-- A fresh cursor that has only met cells with a next state is in the row the bytes
lead to and has recorded the longest alternative among the prefixes of the bytes. -/
theorem feed_live_walk (alts : List (List Nat)) (N R : Nat) (name : Nat → List Nat)
    (t : index_table) (ht : trie_inv alts alts.length N name t.data R) (h0 : 0 < N)
    (hRN : R ≤ N) (hne : ∀ a ∈ alts, a ≠ []) (bytes : List Nat) :
    (∀ b ∈ bytes, b < 256) →
    (∀ e ∈ looked_up (to_string_matcher t) fresh_cursor bytes, e.next_state_ptr ≠ none) →
    walk t.data 0 bytes = some (feed (to_string_matcher t) fresh_cursor bytes).1.state ∧
    (feed (to_string_matcher t) fresh_cursor bytes).1.input_stream_position =
      bytes.length % size_t_values ∧
    recorded_match alts bytes
      (feed (to_string_matcher t) fresh_cursor bytes).1.callback_ptr_at_last_match
      (feed (to_string_matcher t) fresh_cursor bytes).1.input_stream_position_at_last_match ∧
    (feed (to_string_matcher t) fresh_cursor bytes).2 =
      List.replicate bytes.length ⟨false, []⟩ := by
  induction bytes using List.reverseRecOn with
  | nil =>
    intro _ _
    refine ⟨rfl, rfl, ?_, rfl⟩
    show ∀ (j : Nat) (a : List Nat), alts[j]? = some a → ¬ a <+: []
    intro j a hj hp
    exact hne a (List.getElem?_mem hj) (List.prefix_nil.1 hp)
  | append_singleton bytes b ih =>
    intro hb hlive
    have hb1 : ∀ x ∈ bytes, x < 256 := fun x hx => hb x (by simp [hx])
    have hlive1 : ∀ e ∈ looked_up (to_string_matcher t) fresh_cursor bytes,
        e.next_state_ptr ≠ none :=
      fun e he => hlive e (by rw [looked_up_append]; simp [he])
    obtain ⟨hw, hpos, hrec, hres⟩ := ih hb1 hlive1
    have hbm : b % 256 = b := Nat.mod_eq_of_lt (hb b (by simp))
    have hcell : (t.data (feed (to_string_matcher t) fresh_cursor bytes).1.state
        (b % 256)).next_state ≠ 0 := by
      have := hlive ((to_string_matcher t).data
        (feed (to_string_matcher t) fresh_cursor bytes).1.state (b % 256))
        (by rw [looked_up_append]; simp [looked_up])
      intro h
      rw [to_string_matcher_data] at this
      simp [h] at this
    obtain ⟨m1, m2, m3, m4, m5⟩ := match_character_live t _ b hcell
    rw [feed_append]
    simp only [feed_cons, feed_nil]
    refine ⟨?_, ?_, ?_, ?_⟩
    · rw [walk_snoc _ _ _ _ _ hw, m2, hbm]
      rw [hbm] at hcell
      simp [hcell]
    · rw [m3, hpos, Nat.mod_add_mod]; simp
    · rw [hbm] at m4 m5
      cases hk : (t.data (feed (to_string_matcher t) fresh_cursor bytes).1.state b).callback with
      | none =>
        rw [(m4 hk).1, (m4 hk).2]
        exact recorded_match_none alts N R name t.data ht hRN bytes _ b _ _ hw hk hrec
      | some k =>
        rw [(m5 k hk).1, (m5 k hk).2, hpos]
        exact recorded_match_some alts N R name t.data ht h0 bytes _ b k hw hk
    · rw [hres, m1]
      simp [List.replicate_succ']

theorem longest_alternative_unique (alts : List (List Nat)) (bytes : List Nat) (k k2 : Nat)
    (h : longest_alternative alts bytes k) (h2 : longest_alternative alts bytes k2) : k = k2 := by
  obtain ⟨a, ha, hp, hmax⟩ := h
  obtain ⟨a2, ha2, hp2, hmax2⟩ := h2
  have e1 := hmax k2 a2 ha2 hp2
  have e2 := hmax2 k a ha hp
  omega

/-- What the call for the byte `last` does when it is the first call to meet a cell
without a next state. -/
theorem feed_first_dead (alts : List (List Nat)) (N R : Nat) (name : Nat → List Nat)
    (t : index_table) (ht : trie_inv alts alts.length N name t.data R) (h0 : 0 < N)
    (hRN : R ≤ N) (hne : ∀ a ∈ alts, a ≠ []) (bytes : List Nat) (last : Nat)
    (hb : ∀ b ∈ bytes ++ [last], b < 256)
    (hdead : ∀ (i : Nat) (e : string_matcher_table_element_t),
      (looked_up (to_string_matcher t) fresh_cursor (bytes ++ [last]))[i]? = some e →
      (e.next_state_ptr = none ↔ i = bytes.length)) :
    ∃ r, (feed (to_string_matcher t) fresh_cursor (bytes ++ [last])).2 =
        List.replicate bytes.length ⟨false, []⟩ ++ [r] ∧
      ((∃ k a, longest_alternative alts (bytes ++ [last]) k ∧ alts[k]? = some a ∧
          r = ⟨true, [(k, (a.length - 1) % size_t_values)]⟩) ∨
        ((∀ (j : Nat) (a : List Nat), alts[j]? = some a → ¬ a <+: bytes ++ [last]) ∧
          r = ⟨false, []⟩)) := by
  have hb1 : ∀ x ∈ bytes, x < 256 := fun x hx => hb x (by simp [hx])
  have hlive1 : ∀ e ∈ looked_up (to_string_matcher t) fresh_cursor bytes,
      e.next_state_ptr ≠ none := by
    intro e he
    obtain ⟨i, hi, hie⟩ := List.getElem_of_mem he
    have hi2 : i < bytes.length := by rw [looked_up_length] at hi; exact hi
    have hget : (looked_up (to_string_matcher t) fresh_cursor (bytes ++ [last]))[i]? = some e := by
      rw [looked_up_append, List.getElem?_append_left hi, List.getElem?_eq_getElem hi, hie]
    intro hnone
    have := (hdead i e hget).1 hnone
    omega
  obtain ⟨hw, hpos, hrec, hres⟩ := feed_live_walk alts N R name t ht h0 hRN hne bytes hb1 hlive1
  have hbm : last % 256 = last := Nat.mod_eq_of_lt (hb last (by simp))
  have hcell : (t.data (feed (to_string_matcher t) fresh_cursor bytes).1.state
      (last % 256)).next_state = 0 := by
    have hget : (looked_up (to_string_matcher t) fresh_cursor (bytes ++ [last]))[bytes.length]? =
        some ((to_string_matcher t).data
          (feed (to_string_matcher t) fresh_cursor bytes).1.state (last % 256)) := by
      rw [looked_up_append, List.getElem?_append_right (by rw [looked_up_length])]
      simp [looked_up_length, looked_up]
    have := (hdead _ _ hget).2 rfl
    rw [to_string_matcher_data] at this
    by_contra hne0
    simp [hne0] at this
  obtain ⟨d1, d2⟩ := match_character_dead t _ last hcell
  refine ⟨(match_character (to_string_matcher t)
    (feed (to_string_matcher t) fresh_cursor bytes).1 last).2, ?_, ?_⟩
  · rw [feed_append, hres]; rfl
  · rw [hbm] at d1 d2
    cases hk : (t.data (feed (to_string_matcher t) fresh_cursor bytes).1.state last).callback with
    | none =>
      have hrec2 := recorded_match_none alts N R name t.data ht hRN bytes _ last _ _ hw hk hrec
      rw [d1 hk]
      cases hcb : (feed (to_string_matcher t) fresh_cursor bytes).1.callback_ptr_at_last_match with
      | none =>
        rw [hcb] at hrec2
        exact Or.inr ⟨hrec2, rfl⟩
      | some f =>
        rw [hcb] at hrec2
        obtain ⟨hl, a, ha, hlen⟩ := hrec2
        exact Or.inl ⟨f, a, hl, ha, by simp only []; rw [← hlen]⟩
    | some k =>
      have hrec2 := recorded_match_some alts N R name t.data ht h0 bytes _ last k hw hk
      obtain ⟨hl, a, ha, hlen⟩ := hrec2
      rw [d2 k hk, hpos]
      exact Or.inl ⟨k, a, hl, ha, by rw [← hlen]⟩

theorem first_alternative_ne_nil (alts : List (List Nat)) (hne : ∀ a ∈ alts, a ≠ []) :
    alts[0]? ≠ some [] :=
  fun h => hne [] (List.getElem?_mem h) rfl

theorem trie_rows_pos (alts : List (List Nat)) (done N R : Nat) (name : Nat → List Nat)
    (data : index_rows) (ht : trie_inv alts done N name data R) (hd : 0 < done)
    (hfirst : alts[0]? ≠ some []) : 0 < R := by
  obtain ⟨s, c, _, h2⟩ := ht.cb_complete 0 hd hfirst
  cases hcb : (data s c).callback with
  | none => exact absurd hcb h2
  | some k => have := (ht.cb_sound s c k hcb).1; omega

theorem alternatives_length_pos (l : List Nat) : 0 < (alternatives l).length :=
  List.length_pos.2 (alternatives_ne_nil l)

/-- C2. Action markers sit exactly at the ends of the alternatives: in the table built for a
well-formed spec without empty alternatives, the walk from row 0 along all bytes but
the last of an alternative finds a next state every time and the cell of the last byte
carries the callback of an alternative with the same bytes; that cell keeps a next
state when another alternative extends it, whichever comes first in the spec; and a
cell carries a callback only at the end of a walk from row 0 that spells the
alternative of that callback. -/
theorem action_markers_at_alternative_ends (meta_matcher_spec : List Nat) (n : Nat)
    (hwf : calculate_table_length meta_matcher_spec = .ok n)
    (hne : ∀ a ∈ alternatives meta_matcher_spec, a ≠ []) :
    ∃ t, compile_to_table n meta_matcher_spec (alternatives meta_matcher_spec).length = .ok t ∧
      (∀ (j : Nat) (u : List Nat) (c : Nat),
        (alternatives meta_matcher_spec)[j]? = some (u ++ [c]) →
        ∃ s k, walk t.data 0 u = some s ∧ (t.data s c).callback = some k ∧
          (alternatives meta_matcher_spec)[k]? = some (u ++ [c])) ∧
      (∀ (j i : Nat) (u v : List Nat) (c : Nat),
        (alternatives meta_matcher_spec)[j]? = some (u ++ [c]) →
        (alternatives meta_matcher_spec)[i]? = some (u ++ c :: v) → v ≠ [] →
        ∃ s, walk t.data 0 u = some s ∧ (t.data s c).next_state ≠ 0) ∧
      (∀ (s c k : Nat), (t.data s c).callback = some k →
        ∃ u, walk t.data 0 u = some s ∧
          (alternatives meta_matcher_spec)[k]? = some (u ++ [c])) := by
  obtain ⟨t, name, hc, _, _, ht⟩ := compile_to_table_trie meta_matcher_spec n hwf hne
  have h0 := trie_rows_pos _ _ _ _ _ _ ht (alternatives_length_pos _)
    (first_alternative_ne_nil _ hne)
  refine ⟨t, hc, ?_, ?_, ?_⟩
  · intro j u c hj
    obtain ⟨s, k, hw, hk⟩ := trie_callback_complete _ _ _ name t.data ht (le_refl _) u c j hj
    exact ⟨s, k, hw, hk, (trie_callback_sound _ _ _ name t.data ht h0 u s c k hw hk).1⟩
  · intro j i u v c hj hi hv
    obtain ⟨s, k, hw, _⟩ := trie_callback_complete _ _ _ name t.data ht (le_refl _) u c j hj
    exact ⟨s, hw, (trie_next_state _ _ name t.data ht h0 u s c hw).2 ⟨i, v, hv, hi⟩⟩
  · intro s c k hk
    obtain ⟨hs, _, h3, _⟩ := ht.cb_sound s c k hk
    exact ⟨name s, trie_reach _ _ _ _ name t.data ht _ s rfl hs, h3⟩

theorem action_markers_at_alternative_ends_witness :
    (calculate_table_length [104, 105, 124, 104, 105, 50] = .ok 5 ∧
      ∀ a ∈ alternatives [104, 105, 124, 104, 105, 50], a ≠ []) ∧
    ∃ t, compile_to_table 5 [104, 105, 124, 104, 105, 50]
        (alternatives [104, 105, 124, 104, 105, 50]).length = .ok t ∧
      (∀ (j : Nat) (u : List Nat) (c : Nat),
        (alternatives [104, 105, 124, 104, 105, 50])[j]? = some (u ++ [c]) →
        ∃ s k, walk t.data 0 u = some s ∧ (t.data s c).callback = some k ∧
          (alternatives [104, 105, 124, 104, 105, 50])[k]? = some (u ++ [c])) ∧
      (∀ (j i : Nat) (u v : List Nat) (c : Nat),
        (alternatives [104, 105, 124, 104, 105, 50])[j]? = some (u ++ [c]) →
        (alternatives [104, 105, 124, 104, 105, 50])[i]? = some (u ++ c :: v) → v ≠ [] →
        ∃ s, walk t.data 0 u = some s ∧ (t.data s c).next_state ≠ 0) ∧
      (∀ (s c k : Nat), (t.data s c).callback = some k →
        ∃ u, walk t.data 0 u = some s ∧
          (alternatives [104, 105, 124, 104, 105, 50])[k]? = some (u ++ [c])) :=
  ⟨⟨rfl, by decide⟩, action_markers_at_alternative_ends _ 5 rfl (by decide)⟩

/-- C1. Longest-match law: for a well-formed spec without empty alternatives, when the call
for the last of the bytes fed to a fresh cursor is the first to meet a cell without a
next state, the calls before it invoke nothing and return false, and that call
invokes exactly the callback of the longest alternative that is a prefix of the bytes
fed, or nothing when no alternative is such a prefix.  The three scenarios of the
spec follow: `hi|hi2` fed `hi2` and `hi ` and `cat|car|c` fed `car`. -/
theorem longest_match_law (meta_matcher_spec : List Nat) (n : Nat)
    (hwf : calculate_table_length meta_matcher_spec = .ok n)
    (hne : ∀ a ∈ alternatives meta_matcher_spec, a ≠ []) :
    (∃ t, compile_to_table n meta_matcher_spec (alternatives meta_matcher_spec).length = .ok t ∧
      ∀ (bytes : List Nat) (last : Nat), (∀ b ∈ bytes ++ [last], b < 256) →
        (∀ (i : Nat) (e : string_matcher_table_element_t),
          (looked_up (to_string_matcher t) fresh_cursor (bytes ++ [last]))[i]? = some e →
          (e.next_state_ptr = none ↔ i = bytes.length)) →
        ∃ r, (feed (to_string_matcher t) fresh_cursor (bytes ++ [last])).2 =
            List.replicate bytes.length ⟨false, []⟩ ++ [r] ∧
          (∀ k, longest_alternative (alternatives meta_matcher_spec) (bytes ++ [last]) k →
            r.invoked.map Prod.fst = [k] ∧ r.returned = true) ∧
          ((∀ (j : Nat) (a : List Nat), (alternatives meta_matcher_spec)[j]? = some a →
              ¬ a <+: bytes ++ [last]) →
            r.invoked = [] ∧ r.returned = false)) ∧
    (feed (string_matcher_of [104, 105, 124, 104, 105, 50] 2) fresh_cursor
        [104, 105, 50]).2.map (fun r => r.invoked.map Prod.fst) = [[], [], [1]] ∧
    (feed (string_matcher_of [104, 105, 124, 104, 105, 50] 2) fresh_cursor
        [104, 105, 32]).2.map (fun r => r.invoked.map Prod.fst) = [[], [], [0]] ∧
    (feed (string_matcher_of [99, 97, 116, 124, 99, 97, 114, 124, 99] 3) fresh_cursor
        [99, 97, 114]).2.map (fun r => r.invoked.map Prod.fst) = [[], [], [1]] := by
  refine ⟨?_, by decide!, by decide!, by decide!⟩
  obtain ⟨t, name, hc, _, _, ht⟩ := compile_to_table_trie meta_matcher_spec n hwf hne
  have h0 := trie_rows_pos _ _ _ _ _ _ ht (alternatives_length_pos _)
    (first_alternative_ne_nil _ hne)
  refine ⟨t, hc, ?_⟩
  intro bytes last hb hdead
  obtain ⟨r, hr, hcase⟩ := feed_first_dead _ _ _ name t ht h0 (le_refl _) hne bytes last hb hdead
  refine ⟨r, hr, ?_, ?_⟩
  · intro k hk
    rcases hcase with ⟨k2, a, hl, _, hr2⟩ | ⟨hnone, _⟩
    · have := longest_alternative_unique _ _ _ _ hk hl
      rw [hr2, this]; exact ⟨rfl, rfl⟩
    · obtain ⟨a, ha, hp, _⟩ := hk
      exact absurd hp (hnone k a ha)
  · intro hnone
    rcases hcase with ⟨k2, a, hl, _, _⟩ | ⟨_, hr2⟩
    · obtain ⟨a2, ha2, hp2, _⟩ := hl
      exact absurd hp2 (hnone k2 a2 ha2)
    · rw [hr2]; exact ⟨rfl, rfl⟩

theorem longest_match_law_witness :
    (calculate_table_length [104, 105, 124, 104, 105, 50] = .ok 5 ∧
      ∀ a ∈ alternatives [104, 105, 124, 104, 105, 50], a ≠ []) ∧
    ((∃ t, compile_to_table 5 [104, 105, 124, 104, 105, 50]
        (alternatives [104, 105, 124, 104, 105, 50]).length = .ok t ∧
      ∀ (bytes : List Nat) (last : Nat), (∀ b ∈ bytes ++ [last], b < 256) →
        (∀ (i : Nat) (e : string_matcher_table_element_t),
          (looked_up (to_string_matcher t) fresh_cursor (bytes ++ [last]))[i]? = some e →
          (e.next_state_ptr = none ↔ i = bytes.length)) →
        ∃ r, (feed (to_string_matcher t) fresh_cursor (bytes ++ [last])).2 =
            List.replicate bytes.length ⟨false, []⟩ ++ [r] ∧
          (∀ k, longest_alternative (alternatives [104, 105, 124, 104, 105, 50])
              (bytes ++ [last]) k →
            r.invoked.map Prod.fst = [k] ∧ r.returned = true) ∧
          ((∀ (j : Nat) (a : List Nat),
              (alternatives [104, 105, 124, 104, 105, 50])[j]? = some a →
              ¬ a <+: bytes ++ [last]) →
            r.invoked = [] ∧ r.returned = false)) ∧
    (feed (string_matcher_of [104, 105, 124, 104, 105, 50] 2) fresh_cursor
        [104, 105, 50]).2.map (fun r => r.invoked.map Prod.fst) = [[], [], [1]] ∧
    (feed (string_matcher_of [104, 105, 124, 104, 105, 50] 2) fresh_cursor
        [104, 105, 32]).2.map (fun r => r.invoked.map Prod.fst) = [[], [], [0]] ∧
    (feed (string_matcher_of [99, 97, 116, 124, 99, 97, 114, 124, 99] 3) fresh_cursor
        [99, 97, 114]).2.map (fun r => r.invoked.map Prod.fst) = [[], [], [1]]) :=
  ⟨⟨rfl, by decide⟩, longest_match_law [104, 105, 124, 104, 105, 50] 5 rfl (by decide)⟩

theorem spec_tokens_cons (c : Nat) (rest : List Nat) :
    spec_tokens (c :: rest) =
      if c = 124 then none :: spec_tokens rest
      else if c = 92 then
        match rest with
        | [] => []
        | d :: rest2 => some d :: spec_tokens rest2
      else some c :: spec_tokens rest := by
  cases rest <;> rfl

theorem compile_tokens_nil (tl cb : Nat) (m : Bool) (st : compile_state) :
    compile_tokens tl cb m st [] = .ok st := by
  cases m <;> rfl

theorem compile_tokens_none (tl cb : Nat) (m : Bool) (st : compile_state)
    (rest : List (Option Nat)) :
    compile_tokens tl cb m st (none :: rest) =
      match (match m with
        | false => chain_pipe tl cb st
        | true => merge_pipe tl cb st) with
      | .ok st1 => compile_tokens tl cb true st1 rest
      | .error e => .error e := by
  cases m <;> rfl

theorem compile_tokens_some (tl cb : Nat) (m : Bool) (st : compile_state) (c : Nat)
    (rest : List (Option Nat)) :
    compile_tokens tl cb m st (some c :: rest) =
      match m with
      | false =>
        match chain_default tl st c with
        | .ok st1 => compile_tokens tl cb false st1 rest
        | .error e => .error e
      | true =>
        match merge_default tl st c with
        | .ok (st1, spliced) => compile_tokens tl cb (!spliced) st1 rest
        | .error e => .error e := by
  cases m <;> rfl

/-- On a spec that `calculate_table_length` accepts, the loops of `compile_to_table` do
on the bytes what `compile_tokens` does on the tokens of the grammar. -/
theorem compile_loops_tokens (tl cb : Nat) (rest : List Nat) (r : Nat) :
    ∀ (n : Nat), calculate_table_length_loop rest r = .ok n →
    ∀ (m : Bool) (st : compile_state),
      compile_loops tl cb m st rest = compile_tokens tl cb m st (spec_tokens rest) := by
  induction rest, r using calculate_table_length_loop.induct with
  | case1 r =>
    intro n _ m st
    rw [compile_loops_nil]
    exact (compile_tokens_nil tl cb m st).symm
  | case2 c rest r hc =>
    intro n h
    rw [calculate_table_length_loop.eq_def] at h; simp [hc] at h
  | case3 rest r _ ih =>
    intro n h m st
    rw [calculate_table_length_loop.eq_def] at h
    simp only [gt_iff_lt, Nat.reduceLT, if_false, if_true] at h
    rw [compile_loops_pipe, spec_tokens_cons]
    simp only [if_true, compile_tokens_none]
    cases m
    · cases chain_pipe tl cb st with
      | error e => rfl
      | ok st1 => exact ih n h true st1
    · cases merge_pipe tl cb st with
      | error e => rfl
      | ok st1 => exact ih n h true st1
  | case4 r _ _ =>
    intro n h
    rw [calculate_table_length_loop.eq_def] at h; simp at h
  | case5 r d rest2 hd _ _ =>
    intro n h
    rw [calculate_table_length_loop.eq_def] at h; simp [hd] at h
  | case6 r d rest2 hd hd2 _ _ ih =>
    intro n h m st
    rw [calculate_table_length_loop.eq_def] at h
    simp [hd, hd2] at h
    rw [compile_loops_escape _ _ _ _ _ _ hd, spec_tokens_cons]
    simp only [Nat.reduceEqDiff, if_false, if_true, compile_tokens_some]
    cases m
    · cases chain_default tl st d with
      | error e => rfl
      | ok st1 => exact ih n h false st1
    · cases merge_default tl st d with
      | error e => rfl
      | ok p => exact ih n h (!p.2) p.1
  | case7 r d rest2 hd hd2 _ _ =>
    intro n h
    rw [calculate_table_length_loop.eq_def] at h; simp [hd, hd2] at h
  | case8 c rest r h1 h2 h3 ih =>
    intro n h m st
    rw [calculate_table_length_loop.eq_def] at h
    simp [h1, h2, h3] at h
    rw [compile_loops_literal _ _ _ _ _ _ h1 h2 h3, spec_tokens_cons]
    simp only [h2, h3, if_false, compile_tokens_some]
    cases m
    · cases chain_default tl st c with
      | error e => rfl
      | ok st1 => exact ih n h false st1
    · cases merge_default tl st c with
      | error e => rfl
      | ok p => exact ih n h (!p.2) p.1

theorem chain_pipe_effect (tl cb : Nat) (st st1 : compile_state)
    (h : chain_pipe tl cb st = .ok st1) :
    st1.string_index = st.string_index + 1 ∧ st1.table_row = st.table_row ∧
      ∀ r c, (st1.data r c).next_state = 0 ∨
        (st1.data r c).next_state = (st.data r c).next_state := by
  unfold chain_pipe at h
  simp only [differs_from_minus_one_true, if_true] at h
  cases hr : row_index tl st.last_table_row with
  | error e => rw [hr] at h; simp at h
  | ok row =>
    cases hf : func_ptr cb st.string_index with
    | error e => rw [hr, hf] at h; simp at h
    | ok f =>
      rw [hr, hf] at h
      simp only [Except.ok.injEq] at h
      subst h
      refine ⟨rfl, rfl, ?_⟩
      intro r c
      by_cases hc : r = row ∧ c = st.character
      · rcases hc with ⟨rfl, rfl⟩
        left
        show (set_element st.data r st.character ⟨0, f⟩ r st.character).next_state = 0
        rw [set_element_same]
      · right
        show (set_element st.data row st.character ⟨0, f⟩ r c).next_state = _
        rw [set_element_other _ _ _ _ _ _ hc]

theorem merge_pipe_effect (tl cb : Nat) (st st1 : compile_state)
    (h : merge_pipe tl cb st = .ok st1) :
    st1.string_index = st.string_index + 1 ∧ st1.table_row = st.table_row ∧
      ∀ r c, (st1.data r c).next_state = 0 ∨
        (st1.data r c).next_state = (st.data r c).next_state := by
  unfold merge_pipe at h
  simp only [differs_from_minus_one_true, if_true] at h
  cases hr : row_index tl st.last_merge_row with
  | error e => rw [hr] at h; simp at h
  | ok row =>
    cases hf : func_ptr cb st.string_index with
    | error e => rw [hr, hf] at h; simp at h
    | ok f =>
      rw [hr, hf] at h
      simp only [Except.ok.injEq] at h
      subst h
      refine ⟨rfl, rfl, ?_⟩
      intro r c
      right
      by_cases hc : r = row ∧ c = st.character
      · rcases hc with ⟨rfl, rfl⟩
        show (set_element st.data r st.character
          ⟨(st.data r st.character).next_state, f⟩ r st.character).next_state = _
        rw [set_element_same]
      · show (set_element st.data row st.character
          ⟨(st.data row st.character).next_state, f⟩ r c).next_state = _
        rw [set_element_other _ _ _ _ _ _ hc]

theorem chain_default_effect (tl : Nat) (st st1 : compile_state) (c : Nat)
    (h : chain_default tl st c = .ok st1) :
    st1.string_index = st.string_index ∧ st1.table_row = st.table_row + 1 ∧
      st1.data st.table_row c = ⟨st.table_row + 1, none⟩ := by
  unfold chain_default at h
  by_cases hlt : st.table_row < tl
  · simp only [hlt, if_true, Except.ok.injEq] at h
    subst h
    exact ⟨rfl, rfl, set_element_same _ _ _ _⟩
  · simp [hlt] at h

theorem merge_default_effect (tl : Nat) (st st1 : compile_state) (c : Nat) (spliced : Bool)
    (h : merge_default tl st c = .ok (st1, spliced)) :
    st1.string_index = st.string_index ∧ st1.table_row = st.table_row ∧
      (st1.data st.merge_row_current c).next_state =
        (if (st.data st.merge_row_current c).next_state = 0 then st.table_row
          else (st.data st.merge_row_current c).next_state) ∧
      (st1.data st.merge_row_current c).callback =
        (st.data st.merge_row_current c).callback := by
  unfold merge_default at h
  by_cases hlt : st.merge_row_current < tl
  · by_cases hn : (st.data st.merge_row_current c).next_state = 0
    · simp only [hlt, hn, if_true, Except.ok.injEq, Prod.mk.injEq] at h
      rw [← h.1]
      refine ⟨rfl, rfl, ?_, ?_⟩
      · show (set_element st.data st.merge_row_current c _ st.merge_row_current c).next_state = _
        rw [set_element_same]; simp [hn]
      · show (set_element st.data st.merge_row_current c _ st.merge_row_current c).callback = _
        rw [set_element_same]
    · simp only [hlt, hn, if_true, if_false, Except.ok.injEq, Prod.mk.injEq] at h
      rw [← h.1]
      exact ⟨rfl, rfl, by simp [hn], rfl⟩
  · simp [hlt] at h

/-- C7 as stated fails: with `hi|hi2` a fresh cursor fed `hi2` passes 2 to the second
callback, not 3. -/
theorem position_after_match_counterexample :
    (feed (string_matcher_of [104, 105, 124, 104, 105, 50] 2) fresh_cursor [104, 105, 50]).2 =
      [⟨false, []⟩, ⟨false, []⟩, ⟨true, [(1, 2)]⟩] ∧
    ∀ r ∈ (feed (string_matcher_of [104, 105, 124, 104, 105, 50] 2) fresh_cursor
      [104, 105, 50]).2, (1, 3) ∉ r.invoked := by
  decide!

/-- C7 as amended. A fired callback receives the index of the last byte of its match, that is
the number of bytes consumed before that byte: for a well-formed spec without empty
alternatives and a fresh cursor, the callback invoked by the first call that meets a
cell without a next state is passed the length of its alternative minus one (modulo
2^64, the counter being a `size_t`; the number itself for every alternative of at most
2^64 bytes).  `hi|hi2` fed `hi2` passes 2 to the second callback, `hi|hi2` fed `hi `
passes 1 to the first and `cat|car|c` fed `car` passes 2 to the callback of `car`. -/
theorem fired_position_is_last_byte_index (meta_matcher_spec : List Nat) (n : Nat)
    (hwf : calculate_table_length meta_matcher_spec = .ok n)
    (hne : ∀ a ∈ alternatives meta_matcher_spec, a ≠ []) :
    (∃ t, compile_to_table n meta_matcher_spec (alternatives meta_matcher_spec).length = .ok t ∧
      ∀ (bytes : List Nat) (last : Nat), (∀ b ∈ bytes ++ [last], b < 256) →
        (∀ (i : Nat) (e : string_matcher_table_element_t),
          (looked_up (to_string_matcher t) fresh_cursor (bytes ++ [last]))[i]? = some e →
          (e.next_state_ptr = none ↔ i = bytes.length)) →
        ∀ r ∈ (feed (to_string_matcher t) fresh_cursor (bytes ++ [last])).2,
          ∀ (k p : Nat), (k, p) ∈ r.invoked →
            ∃ a, (alternatives meta_matcher_spec)[k]? = some a ∧ a <+: bytes ++ [last] ∧
              p = (a.length - 1) % size_t_values ∧
              (a.length ≤ size_t_values → p + 1 = a.length)) ∧
    (feed (string_matcher_of [104, 105, 124, 104, 105, 50] 2) fresh_cursor [104, 105, 50]).2 =
      [⟨false, []⟩, ⟨false, []⟩, ⟨true, [(1, 2)]⟩] ∧
    (feed (string_matcher_of [104, 105, 124, 104, 105, 50] 2) fresh_cursor [104, 105, 32]).2 =
      [⟨false, []⟩, ⟨false, []⟩, ⟨true, [(0, 1)]⟩] ∧
    (feed (string_matcher_of [99, 97, 116, 124, 99, 97, 114, 124, 99] 3) fresh_cursor
      [99, 97, 114]).2 = [⟨false, []⟩, ⟨false, []⟩, ⟨true, [(1, 2)]⟩] := by
  refine ⟨?_, by decide!, by decide!, by decide!⟩
  obtain ⟨t, name, hc, _, _, ht⟩ := compile_to_table_trie meta_matcher_spec n hwf hne
  have h0 := trie_rows_pos _ _ _ _ _ _ ht (alternatives_length_pos _)
    (first_alternative_ne_nil _ hne)
  refine ⟨t, hc, ?_⟩
  intro bytes last hb hdead r hr k p hkp
  obtain ⟨r2, hr2, hcase⟩ := feed_first_dead _ _ _ name t ht h0 (le_refl _) hne bytes last hb hdead
  rw [hr2] at hr
  rcases List.mem_append.1 hr with h | h
  · rw [List.eq_of_mem_replicate h] at hkp
    simp at hkp
  · rw [List.mem_singleton.1 h] at hkp
    rcases hcase with ⟨k2, a, hl, ha, hr3⟩ | ⟨_, hr3⟩
    · rw [hr3] at hkp
      simp only [List.mem_singleton, Prod.mk.injEq] at hkp
      obtain ⟨a2, ha2, hp2, _⟩ := hl
      rw [ha] at ha2
      simp only [Option.some.injEq] at ha2
      subst ha2
      have hlen : 0 < a.length :=
        List.length_pos.2 (hne a (List.getElem?_mem ha))
      refine ⟨a, by rw [hkp.1]; exact ha, hp2, hkp.2, fun hle => ?_⟩
      rw [hkp.2, Nat.mod_eq_of_lt (by omega)]
      omega
    · rw [hr3] at hkp
      simp at hkp

theorem fired_position_is_last_byte_index_witness :
    (calculate_table_length [104, 105, 124, 104, 105, 50] = .ok 5 ∧
      ∀ a ∈ alternatives [104, 105, 124, 104, 105, 50], a ≠ []) ∧
    ((∃ t, compile_to_table 5 [104, 105, 124, 104, 105, 50]
        (alternatives [104, 105, 124, 104, 105, 50]).length = .ok t ∧
      ∀ (bytes : List Nat) (last : Nat), (∀ b ∈ bytes ++ [last], b < 256) →
        (∀ (i : Nat) (e : string_matcher_table_element_t),
          (looked_up (to_string_matcher t) fresh_cursor (bytes ++ [last]))[i]? = some e →
          (e.next_state_ptr = none ↔ i = bytes.length)) →
        ∀ r ∈ (feed (to_string_matcher t) fresh_cursor (bytes ++ [last])).2,
          ∀ (k p : Nat), (k, p) ∈ r.invoked →
            ∃ a, (alternatives [104, 105, 124, 104, 105, 50])[k]? = some a ∧
              a <+: bytes ++ [last] ∧ p = (a.length - 1) % size_t_values ∧
              (a.length ≤ size_t_values → p + 1 = a.length)) ∧
    (feed (string_matcher_of [104, 105, 124, 104, 105, 50] 2) fresh_cursor [104, 105, 50]).2 =
      [⟨false, []⟩, ⟨false, []⟩, ⟨true, [(1, 2)]⟩] ∧
    (feed (string_matcher_of [104, 105, 124, 104, 105, 50] 2) fresh_cursor [104, 105, 32]).2 =
      [⟨false, []⟩, ⟨false, []⟩, ⟨true, [(0, 1)]⟩] ∧
    (feed (string_matcher_of [99, 97, 116, 124, 99, 97, 114, 124, 99] 3) fresh_cursor
      [99, 97, 114]).2 = [⟨false, []⟩, ⟨false, []⟩, ⟨true, [(1, 2)]⟩]) :=
  ⟨⟨rfl, by decide⟩, fired_position_is_last_byte_index [104, 105, 124, 104, 105, 50] 5 rfl
    (by decide)⟩

theorem dangling_escape_cons (c : Nat) (rest : List Nat) :
    dangling_escape (c :: rest) =
      if c = 92 then
        match rest with
        | [] => true
        | _ :: rest2 => dangling_escape rest2
      else dangling_escape rest := by
  cases rest <;> rfl

theorem invalid_escape_target_cons (c : Nat) (rest : List Nat) :
    invalid_escape_target (c :: rest) =
      if c = 92 then
        match rest with
        | [] => false
        | d :: rest2 => decide (d ≠ 124 ∧ d ≠ 92) || invalid_escape_target rest2
      else invalid_escape_target rest := by
  cases rest <;> rfl

theorem malformed_nil : ¬ malformed [] := by
  simp [malformed, dangling_escape, invalid_escape_target]

theorem malformed_literal (c : Nat) (rest : List Nat) (h0 : ¬ c > 127) (h2 : c ≠ 92) :
    malformed (c :: rest) ↔ malformed rest := by
  have hc : ¬ 128 ≤ c := by omega
  simp [malformed, dangling_escape_cons, invalid_escape_target_cons, h2, hc]

theorem malformed_escape (d : Nat) (rest2 : List Nat) (h0 : ¬ d > 127)
    (hd : d = 124 ∨ d = 92) : malformed (92 :: d :: rest2) ↔ malformed rest2 := by
  have hc : ¬ 128 ≤ d := by omega
  have ht : ¬ (d ≠ 124 ∧ d ≠ 92) := by omega
  simp only [malformed, dangling_escape_cons, invalid_escape_target_cons, if_true,
    List.mem_cons, exists_eq_or_imp, Nat.reduceLeDiff, false_or, hc,
    Bool.or_eq_true, decide_eq_true_eq, ht]

theorem calculate_table_length_loop_rejects (l : List Nat) (r : Nat) :
    (∃ e, calculate_table_length_loop l r = .error e) ↔ malformed l := by
  induction l, r using calculate_table_length_loop.induct with
  | case1 r =>
    rw [calculate_table_length_loop.eq_def]
    simp [malformed_nil]
  | case2 c rest r hc =>
    rw [calculate_table_length_loop.eq_def]
    simp only [hc, if_true, Except.error.injEq, exists_eq', true_iff]
    exact Or.inl ⟨c, by simp, by omega⟩
  | case3 rest r _ ih =>
    rw [calculate_table_length_loop.eq_def]
    simp only [gt_iff_lt, Nat.reduceLT, if_false, if_true]
    rw [ih, malformed_literal 124 rest (by omega) (by omega)]
  | case4 r _ _ =>
    rw [calculate_table_length_loop.eq_def]
    simp [malformed, dangling_escape]
  | case5 r d rest2 hd _ _ =>
    rw [calculate_table_length_loop.eq_def]
    simp only [gt_iff_lt, Nat.reduceLT, if_false, Nat.reduceEqDiff, if_true, hd,
      Except.error.injEq, exists_eq', true_iff]
    exact Or.inl ⟨d, by simp, by omega⟩
  | case6 r d rest2 hd hd2 _ _ ih =>
    rw [calculate_table_length_loop.eq_def]
    simp only [gt_iff_lt, Nat.reduceLT, if_false, Nat.reduceEqDiff, if_true, hd, hd2]
    rw [ih, malformed_escape d rest2 hd hd2]
  | case7 r d rest2 hd hd2 _ _ =>
    rw [calculate_table_length_loop.eq_def]
    simp only [gt_iff_lt, Nat.reduceLT, if_false, Nat.reduceEqDiff, if_true, hd, hd2,
      Except.error.injEq, exists_eq', true_iff]
    refine Or.inr (Or.inr ?_)
    rw [invalid_escape_target_cons]
    have ht : d ≠ 124 ∧ d ≠ 92 := by omega
    simp [ht]
  | case8 c rest r h1 h2 h3 ih =>
    rw [calculate_table_length_loop.eq_def]
    simp only [h1, h2, h3, if_false]
    rw [ih, malformed_literal c rest h1 h3]

/-- C11. `calculate_table_length` rejects a spec exactly when the spec is malformed (a byte of
value 128 or more, a backslash opening an escape at the end of the spec, or such a
backslash followed by a byte other than the pipe and the backslash); every other spec
is accepted and yields a count. -/
theorem calculate_table_length_rejects_malformed (meta_matcher_spec : List Nat) :
    ((∃ e, calculate_table_length meta_matcher_spec = .error e) ↔
      malformed meta_matcher_spec) ∧
    ((∃ n, calculate_table_length meta_matcher_spec = .ok n) ↔
      ¬ malformed meta_matcher_spec) := by
  have h := calculate_table_length_loop_rejects meta_matcher_spec 0
  refine ⟨h, ?_⟩
  rw [← h]
  unfold calculate_table_length
  cases calculate_table_length_loop meta_matcher_spec 0 <;> simp

theorem literal_positions_of_pipes (l : List Nat) (h : ∀ b ∈ l, b = 124) :
    literal_positions l = 0 := by
  induction l with
  | nil => exact literal_positions_nil
  | cons c rest ih =>
    have hc : c = 124 := h c (by simp)
    rw [hc, literal_positions_pipe]
    exact ih (fun b hb => h b (by simp [hb]))

/-- C12. Building a matcher fails for every spec with zero literal byte positions, whatever
the number of callbacks, so no table is produced; the empty spec and the specs made of
unescaped pipes only are such specs. -/
theorem build_fails_without_literal_bytes (meta_matcher_spec : List Nat) (callbacks : Nat)
    (h : literal_positions meta_matcher_spec = 0) :
    (∃ e, create_string_matcher_with_indices meta_matcher_spec callbacks = .error e) ∧
    (∀ l : List Nat, (∀ b ∈ l, b = 124) → literal_positions l = 0) ∧
    create_string_matcher_with_indices [] callbacks = .error .table_length_zero ∧
    create_string_matcher_with_indices [124] callbacks = .error .table_length_zero ∧
    create_string_matcher_with_indices [124, 124, 124] callbacks =
      .error .table_length_zero := by
  refine ⟨?_, literal_positions_of_pipes, rfl, rfl, rfl⟩
  unfold create_string_matcher_with_indices
  cases hc : calculate_table_length meta_matcher_spec with
  | error e => exact ⟨e, rfl⟩
  | ok n =>
    have hn := (calculate_table_length_loop_counts meta_matcher_spec 0 n hc).1
    have h0 : n = 0 := by omega
    exact ⟨.table_length_zero, by simp [h0]⟩

theorem build_fails_without_literal_bytes_witness :
    literal_positions [124, 124, 124] = 0 ∧
    ((∃ e, create_string_matcher_with_indices [124, 124, 124] 4 = .error e) ∧
    (∀ l : List Nat, (∀ b ∈ l, b = 124) → literal_positions l = 0) ∧
    create_string_matcher_with_indices [] 4 = .error .table_length_zero ∧
    create_string_matcher_with_indices [124] 4 = .error .table_length_zero ∧
    create_string_matcher_with_indices [124, 124, 124] 4 = .error .table_length_zero) :=
  ⟨rfl, build_fails_without_literal_bytes [124, 124, 124] 4 rfl⟩

theorem push_byte_length (c : Nat) (l : List (List Nat)) (hl : l ≠ []) :
    (push_byte c l).length = l.length := by
  cases l with
  | nil => exact absurd rfl hl
  | cons a as => rfl

theorem default_step_string_index (tl cb : Nat) (c : Nat) (rest : List Nat) (k : Nat)
    (ih : ∀ (m : Bool) (st st2 : compile_state), compile_loops tl cb m st rest = .ok st2 →
      st2.string_index + 1 = st.string_index + k)
    (m : Bool) (st st2 : compile_state)
    (h : (match m with
      | false =>
        match chain_default tl st c with
        | .ok st1 => compile_loops tl cb false st1 rest
        | .error e => .error e
      | true =>
        match merge_default tl st c with
        | .ok (st1, spliced) => compile_loops tl cb (!spliced) st1 rest
        | .error e => .error e) = .ok st2) :
    st2.string_index + 1 = st.string_index + k := by
  cases m with
  | false =>
    simp only at h
    cases h1 : chain_default tl st c with
    | error e => rw [h1] at h; cases h
    | ok st1 =>
      rw [h1] at h
      rw [ih false st1 st2 h, (chain_default_effect tl st st1 c h1).1]
  | true =>
    simp only at h
    cases h1 : merge_default tl st c with
    | error e => rw [h1] at h; cases h
    | ok p =>
      rw [h1] at h
      rw [ih (!p.2) p.1 st2 h, (merge_default_effect tl st p.1 c p.2 h1).1]

/-- The loops advance `string_index` once for every unescaped pipe. -/
theorem compile_loops_string_index (tl cb : Nat) (rest : List Nat) :
    ∀ (m : Bool) (st st2 : compile_state), compile_loops tl cb m st rest = .ok st2 →
      st2.string_index + 1 = st.string_index + (alternatives rest).length := by
  induction rest using alternatives.induct with
  | case1 =>
    intro m st st2 h
    rw [compile_loops_nil] at h
    cases h
    rw [alternatives_nil]; rfl
  | case2 rest ih =>
    intro m st st2 h
    rw [compile_loops_pipe] at h
    rw [alternatives_pipe, List.length_cons]
    cases m with
    | false =>
      simp only at h
      cases h1 : chain_pipe tl cb st with
      | error e => rw [h1] at h; cases h
      | ok st1 =>
        rw [h1] at h
        have := ih true st1 st2 h
        rw [(chain_pipe_effect tl cb st st1 h1).1] at this
        omega
    | true =>
      simp only at h
      cases h1 : merge_pipe tl cb st with
      | error e => rw [h1] at h; cases h
      | ok st1 =>
        rw [h1] at h
        have := ih true st1 st2 h
        rw [(merge_pipe_effect tl cb st st1 h1).1] at this
        omega
  | case3 _ =>
    intro m st st2 h
    cases m
    · rw [compile_loops_chain_cons] at h; simp at h
    · rw [compile_loops_merge_cons] at h; simp at h
  | case4 d rest2 _ ih =>
    intro m st st2 h
    rw [alternatives_escape, push_byte_length _ _ (alternatives_ne_nil _)]
    by_cases hd : d > 127
    · cases m
      · rw [compile_loops_chain_cons] at h; simp [hd] at h
      · rw [compile_loops_merge_cons] at h; simp [hd] at h
    · rw [compile_loops_escape _ _ _ _ _ _ hd] at h
      exact default_step_string_index tl cb d rest2 _ ih m st st2 h
  | case5 c rest h1 h2 ih =>
    intro m st st2 h
    rw [alternatives_literal _ _ h1 h2, push_byte_length _ _ (alternatives_ne_nil _)]
    by_cases hc : c > 127
    · cases m
      · rw [compile_loops_chain_cons] at h; simp [hc] at h
      · rw [compile_loops_merge_cons] at h; simp [hc] at h
    · rw [compile_loops_literal _ _ _ _ _ _ hc h1 h2] at h
      exact default_step_string_index tl cb c rest _ ih m st st2 h

theorem compile_finish_string_index (tl cb : Nat) (st st1 : compile_state)
    (h : compile_finish tl cb st = .ok st1) : st1.string_index = st.string_index + 1 := by
  unfold compile_finish at h
  simp only [differs_from_minus_one_true, if_true] at h
  by_cases hm : st.merge_row_current ≠ 0
  · rw [if_pos hm] at h
    cases hr : row_index tl st.last_merge_row with
    | error e => rw [hr] at h; simp at h
    | ok row =>
      cases hf : func_ptr cb st.string_index with
      | error e => rw [hr, hf] at h; simp at h
      | ok f =>
        rw [hr, hf] at h
        simp only [Except.ok.injEq] at h
        rw [← h]
  · rw [if_neg hm] at h
    cases hr : row_index tl st.last_table_row with
    | error e => rw [hr] at h; simp at h
    | ok row =>
      cases hf : func_ptr cb st.string_index with
      | error e => rw [hr, hf] at h; simp at h
      | ok f =>
        rw [hr, hf] at h
        simp only [Except.ok.injEq] at h
        rw [← h]

/-- A table is returned only for as many callbacks as the spec has alternatives. -/
theorem compile_to_table_callbacks (tl cb : Nat) (meta_matcher_spec : List Nat)
    (t : index_table) (h : compile_to_table tl meta_matcher_spec cb = .ok t) :
    cb = (alternatives meta_matcher_spec).length := by
  unfold compile_to_table at h
  by_cases h0 : cb = 0
  · simp [h0] at h
  · simp only [h0, if_false] at h
    cases h1 : compile_loops tl cb false compile_init meta_matcher_spec with
    | error e => rw [h1] at h; cases h
    | ok st =>
      rw [h1] at h
      simp only at h
      cases h2 : compile_finish tl cb st with
      | error e => rw [h2] at h; cases h
      | ok st1 =>
        rw [h2] at h
        simp only at h
        by_cases h3 : st1.string_index ≠ cb
        · simp [h3] at h
        · have e1 := compile_loops_string_index tl cb meta_matcher_spec false compile_init st h1
          have e2 := compile_finish_string_index tl cb st st1 h2
          have e3 : compile_init.string_index = 0 := rfl
          omega

theorem alternatives_length_pipes (l : List Nat) :
    (alternatives l).length = 1 + unescaped_pipes l := by
  unfold unescaped_pipes
  induction l using alternatives.induct with
  | case1 => rfl
  | case2 rest ih =>
    rw [alternatives_pipe, spec_tokens_cons]
    simp [ih]; omega
  | case3 _ => rfl
  | case4 d rest2 _ ih =>
    rw [alternatives_escape, push_byte_length _ _ (alternatives_ne_nil _), spec_tokens_cons]
    simp [ih]
  | case5 c rest h1 h2 ih =>
    rw [alternatives_literal _ _ h1 h2, push_byte_length _ _ (alternatives_ne_nil _),
      spec_tokens_cons]
    simp [ih, h1, h2]

/-- C13. `compile_to_table` fails whenever the number of callbacks differs from the number
of alternatives of the spec, which is one plus the number of unescaped pipes (empty
alternatives included).  The spec `ab|` with one callback fails; the harness spec has
14 unescaped pipes and builds with 15 callbacks, not with 14 or 16. -/
theorem callback_count_mismatch_fails (table_length callbacks : Nat)
    (meta_matcher_spec : List Nat)
    (h : callbacks ≠ (alternatives meta_matcher_spec).length) :
    (∃ e, compile_to_table table_length meta_matcher_spec callbacks = .error e) ∧
    (alternatives meta_matcher_spec).length = 1 + unescaped_pipes meta_matcher_spec ∧
    (alternatives [97, 98, 124]).length = 2 ∧
    (compile_to_table 2 [97, 98, 124] 1).isOk = false ∧
    (create_string_matcher_with_indices [97, 98, 124] 1).isOk = false ∧
    unescaped_pipes harness_spec = 14 ∧
    (create_string_matcher_with_indices harness_spec 15).isOk = true ∧
    (create_string_matcher_with_indices harness_spec 14).isOk = false ∧
    (create_string_matcher_with_indices harness_spec 16).isOk = false := by
  refine ⟨?_, alternatives_length_pipes _, by decide!, by decide!, by decide!, by decide!,
    by decide!, by decide!, by decide!⟩
  cases hc : compile_to_table table_length meta_matcher_spec callbacks with
  | error e => exact ⟨e, rfl⟩
  | ok t => exact absurd (compile_to_table_callbacks _ _ _ t hc) h

theorem callback_count_mismatch_fails_witness :
    1 ≠ (alternatives [97, 98, 124]).length ∧
    ((∃ e, compile_to_table 2 [97, 98, 124] 1 = .error e) ∧
    (alternatives [97, 98, 124]).length = 1 + unescaped_pipes [97, 98, 124] ∧
    (alternatives [97, 98, 124]).length = 2 ∧
    (compile_to_table 2 [97, 98, 124] 1).isOk = false ∧
    (create_string_matcher_with_indices [97, 98, 124] 1).isOk = false ∧
    unescaped_pipes harness_spec = 14 ∧
    (create_string_matcher_with_indices harness_spec 15).isOk = true ∧
    (create_string_matcher_with_indices harness_spec 14).isOk = false ∧
    (create_string_matcher_with_indices harness_spec 16).isOk = false) :=
  ⟨by decide, callback_count_mismatch_fails 2 1 [97, 98, 124] (by decide)⟩

theorem chain_default_eq (tl : Nat) (st st1 : compile_state) (c : Nat)
    (h : chain_default tl st c = .ok st1) :
    st.table_row < tl ∧
    st1 = { st with last_table_row := some st.table_row
                    data := set_element st.data st.table_row c ⟨st.table_row + 1, none⟩
                    table_row := st.table_row + 1
                    character := c } := by
  unfold chain_default at h
  by_cases hlt : st.table_row < tl
  · rw [if_pos hlt] at h
    exact ⟨hlt, (Except.ok.inj h).symm⟩
  · rw [if_neg hlt] at h; cases h

theorem chain_pipe_eq (tl cb : Nat) (st st1 : compile_state)
    (h : chain_pipe tl cb st = .ok st1) :
    ∃ row f, st.last_table_row = some row ∧ row < tl ∧
      st1 = { st with data := set_element st.data row st.character ⟨0, f⟩
                      character := 255
                      string_index := st.string_index + 1 } := by
  unfold chain_pipe at h
  simp only [differs_from_minus_one_true, if_true] at h
  cases hl : st.last_table_row with
  | none => rw [hl] at h; simp [row_index] at h
  | some row =>
    rw [hl] at h
    by_cases hlt : row < tl
    · cases hf : func_ptr cb st.string_index with
      | error e => rw [hf] at h; simp [row_index, hlt] at h
      | ok f =>
        rw [hf] at h
        simp only [row_index, hlt, if_true, Except.ok.injEq] at h
        exact ⟨row, f, rfl, hlt, h.symm⟩
    · simp [row_index, hlt] at h

theorem merge_pipe_eq (tl cb : Nat) (st st1 : compile_state)
    (h : merge_pipe tl cb st = .ok st1) :
    ∃ row f, st.last_merge_row = some row ∧ row < tl ∧
      st1 = { st with data := set_element st.data row st.character
                                ⟨(st.data row st.character).next_state, f⟩
                      character := 255
                      string_index := st.string_index + 1
                      merge_row_current := 0 } := by
  unfold merge_pipe at h
  simp only [differs_from_minus_one_true, if_true] at h
  cases hl : st.last_merge_row with
  | none => rw [hl] at h; simp [row_index] at h
  | some row =>
    rw [hl] at h
    by_cases hlt : row < tl
    · cases hf : func_ptr cb st.string_index with
      | error e => rw [hf] at h; simp [row_index, hlt] at h
      | ok f =>
        rw [hf] at h
        simp only [row_index, hlt, if_true, Except.ok.injEq] at h
        exact ⟨row, f, rfl, hlt, h.symm⟩
    · simp [row_index, hlt] at h

theorem merge_default_eq (tl : Nat) (st st1 : compile_state) (c : Nat) (spliced : Bool)
    (h : merge_default tl st c = .ok (st1, spliced)) :
    st.merge_row_current < tl ∧
    (((st.data st.merge_row_current c).next_state = 0 ∧ spliced = true ∧
      st1 = { st with last_table_row := some st.merge_row_current
                      data := set_element st.data st.merge_row_current c
                                ⟨st.table_row, (st.data st.merge_row_current c).callback⟩
                      merge_row_current := 0
                      character := c }) ∨
     ((st.data st.merge_row_current c).next_state ≠ 0 ∧ spliced = false ∧
      st1 = { st with last_merge_row := some st.merge_row_current
                      merge_row_current := (st.data st.merge_row_current c).next_state
                      character := c })) := by
  unfold merge_default at h
  by_cases hlt : st.merge_row_current < tl
  · rw [if_pos hlt] at h
    refine ⟨hlt, ?_⟩
    by_cases hn : (st.data st.merge_row_current c).next_state = 0
    · simp only [hn, if_true, Except.ok.injEq, Prod.mk.injEq] at h
      exact Or.inl ⟨hn, h.2.symm, h.1.symm⟩
    · simp only [hn, if_false, Except.ok.injEq, Prod.mk.injEq] at h
      exact Or.inr ⟨hn, h.2.symm, h.1.symm⟩
  · rw [if_neg hlt] at h; cases h

theorem bounds_inv_init (tl : Nat) : bounds_inv tl false compile_init := by
  constructor
  · intro r c; exact Or.inl rfl
  · intro _; rfl
  · intro h; cases h
  · intro r h; cases h
  · intro r h; cases h
  · intro r c _; exact ⟨rfl, fun _ => rfl⟩
  · exact Or.inr rfl
  · exact Nat.zero_le _

theorem bounds_chain_default (tl : Nat) (st st1 : compile_state) (c : Nat) (hc : ¬ c > 127)
    (hinv : bounds_inv tl false st) (h : chain_default tl st c = .ok st1) :
    bounds_inv tl false st1 := by
  obtain ⟨hlt, rfl⟩ := chain_default_eq tl st st1 c h
  constructor
  · intro r c0
    show (set_element st.data st.table_row c ⟨st.table_row + 1, none⟩ r c0).next_state = 0 ∨
      (set_element st.data st.table_row c ⟨st.table_row + 1, none⟩ r c0).next_state <
        st.table_row + 1 ∨
      (false = false ∧
        (set_element st.data st.table_row c ⟨st.table_row + 1, none⟩ r c0).next_state =
          st.table_row + 1 ∧ some st.table_row = some r ∧ c = c0)
    by_cases hcell : r = st.table_row ∧ c0 = c
    · rcases hcell with ⟨rfl, rfl⟩
      rw [set_element_same]
      exact Or.inr (Or.inr ⟨rfl, rfl, rfl, rfl⟩)
    · rw [set_element_other _ _ _ _ _ _ hcell]
      rcases hinv.next_bound r c0 with h0 | h1 | ⟨_, h2, _, _⟩
      · exact Or.inl h0
      · exact Or.inr (Or.inl (by omega))
      · exact Or.inr (Or.inl (by omega))
  · intro _; exact hinv.mrc_chain rfl
  · intro h; cases h
  · intro r hr
    show r < st.table_row + 1
    have : st.table_row = r := Option.some.inj hr
    omega
  · intro r hr
    show r < st.table_row + 1
    have := hinv.lmr r hr
    omega
  · intro r c0 hc0
    show (set_element st.data st.table_row c ⟨st.table_row + 1, none⟩ r c0).next_state = 0 ∧
      (c0 ≠ 255 →
        (set_element st.data st.table_row c ⟨st.table_row + 1, none⟩ r c0).callback = none)
    have hcell : ¬ (r = st.table_row ∧ c0 = c) := by omega
    rw [set_element_other _ _ _ _ _ _ hcell]
    exact hinv.high r c0 hc0
  · show c ≤ 127 ∨ c = 255
    omega
  · show st.table_row + 1 ≤ tl
    omega

theorem bounds_chain_pipe (tl cb : Nat) (st st1 : compile_state)
    (hinv : bounds_inv tl false st) (h : chain_pipe tl cb st = .ok st1) :
    bounds_inv tl true st1 := by
  obtain ⟨row, f, hl, _, rfl⟩ := chain_pipe_eq tl cb st st1 h
  have hrow := hinv.ltr row hl
  constructor
  · intro r c0
    show (set_element st.data row st.character ⟨0, f⟩ r c0).next_state = 0 ∨
      (set_element st.data row st.character ⟨0, f⟩ r c0).next_state < st.table_row ∨ _
    by_cases hcell : r = row ∧ c0 = st.character
    · rcases hcell with ⟨rfl, rfl⟩
      rw [set_element_same]
      exact Or.inl rfl
    · rw [set_element_other _ _ _ _ _ _ hcell]
      rcases hinv.next_bound r c0 with h0 | h1 | ⟨_, _, h3, h4⟩
      · exact Or.inl h0
      · exact Or.inr (Or.inl h1)
      · rw [hl] at h3
        exact absurd ⟨(Option.some.inj h3).symm, h4.symm⟩ hcell
  · intro h; cases h
  · intro _
    show st.merge_row_current < st.table_row
    rw [hinv.mrc_chain rfl]; omega
  · exact hinv.ltr
  · exact hinv.lmr
  · intro r c0 hc0
    show (set_element st.data row st.character ⟨0, f⟩ r c0).next_state = 0 ∧
      (c0 ≠ 255 → (set_element st.data row st.character ⟨0, f⟩ r c0).callback = none)
    by_cases hcell : r = row ∧ c0 = st.character
    · rcases hcell with ⟨rfl, rfl⟩
      rw [set_element_same]
      refine ⟨rfl, fun hne => ?_⟩
      rcases hinv.char_ok with h1 | h1 <;> omega
    · rw [set_element_other _ _ _ _ _ _ hcell]
      exact hinv.high r c0 hc0
  · exact Or.inr rfl
  · exact hinv.table_le

theorem bounds_merge_pipe (tl cb : Nat) (st st1 : compile_state)
    (hinv : bounds_inv tl true st) (h : merge_pipe tl cb st = .ok st1) :
    bounds_inv tl true st1 := by
  obtain ⟨row, f, hl, _, rfl⟩ := merge_pipe_eq tl cb st st1 h
  have hnext : ∀ r c0, (set_element st.data row st.character
      ⟨(st.data row st.character).next_state, f⟩ r c0).next_state =
      (st.data r c0).next_state := by
    intro r c0
    by_cases hcell : r = row ∧ c0 = st.character
    · rcases hcell with ⟨rfl, rfl⟩
      rw [set_element_same]
    · rw [set_element_other _ _ _ _ _ _ hcell]
  constructor
  · intro r c0
    show (set_element st.data row st.character
        ⟨(st.data row st.character).next_state, f⟩ r c0).next_state = 0 ∨
      (set_element st.data row st.character
        ⟨(st.data row st.character).next_state, f⟩ r c0).next_state < st.table_row ∨ _
    rw [hnext]
    rcases hinv.next_bound r c0 with h0 | h1 | ⟨h2, _⟩
    · exact Or.inl h0
    · exact Or.inr (Or.inl h1)
    · cases h2
  · intro h; cases h
  · intro _
    show 0 < st.table_row
    have := hinv.mrc_merge rfl
    omega
  · exact hinv.ltr
  · exact hinv.lmr
  · intro r c0 hc0
    show (set_element st.data row st.character
        ⟨(st.data row st.character).next_state, f⟩ r c0).next_state = 0 ∧
      (c0 ≠ 255 → (set_element st.data row st.character
        ⟨(st.data row st.character).next_state, f⟩ r c0).callback = none)
    rw [hnext]
    refine ⟨(hinv.high r c0 hc0).1, fun hne => ?_⟩
    have hcell : ¬ (r = row ∧ c0 = st.character) := by
      rintro ⟨_, rfl⟩
      rcases hinv.char_ok with h1 | h1 <;> omega
    rw [set_element_other _ _ _ _ _ _ hcell]
    exact (hinv.high r c0 hc0).2 hne
  · exact Or.inr rfl
  · exact hinv.table_le

theorem bounds_merge_default (tl : Nat) (st st1 : compile_state) (c : Nat) (spliced : Bool)
    (hc : ¬ c > 127) (hinv : bounds_inv tl true st)
    (h : merge_default tl st c = .ok (st1, spliced)) :
    bounds_inv tl (!spliced) st1 := by
  obtain ⟨_, h1 | h1⟩ := merge_default_eq tl st st1 c spliced h
  · obtain ⟨hn, rfl, rfl⟩ := h1
    have hmrc := hinv.mrc_merge rfl
    constructor
    · intro r c0
      show (set_element st.data st.merge_row_current c
          ⟨st.table_row, (st.data st.merge_row_current c).callback⟩ r c0).next_state = 0 ∨
        (set_element st.data st.merge_row_current c
          ⟨st.table_row, (st.data st.merge_row_current c).callback⟩ r c0).next_state <
          st.table_row ∨
        ((!true) = false ∧
          (set_element st.data st.merge_row_current c
            ⟨st.table_row, (st.data st.merge_row_current c).callback⟩ r c0).next_state =
            st.table_row ∧ some st.merge_row_current = some r ∧ c = c0)
      by_cases hcell : r = st.merge_row_current ∧ c0 = c
      · rcases hcell with ⟨rfl, rfl⟩
        rw [set_element_same]
        exact Or.inr (Or.inr ⟨rfl, rfl, rfl, rfl⟩)
      · rw [set_element_other _ _ _ _ _ _ hcell]
        rcases hinv.next_bound r c0 with h0 | h1 | ⟨h2, _⟩
        · exact Or.inl h0
        · exact Or.inr (Or.inl h1)
        · cases h2
    · intro _; rfl
    · intro h; cases h
    · intro r hr
      show r < st.table_row
      have : st.merge_row_current = r := Option.some.inj hr
      omega
    · exact hinv.lmr
    · intro r c0 hc0
      show (set_element st.data st.merge_row_current c
          ⟨st.table_row, (st.data st.merge_row_current c).callback⟩ r c0).next_state = 0 ∧
        (c0 ≠ 255 → (set_element st.data st.merge_row_current c
          ⟨st.table_row, (st.data st.merge_row_current c).callback⟩ r c0).callback = none)
      have hcell : ¬ (r = st.merge_row_current ∧ c0 = c) := by omega
      rw [set_element_other _ _ _ _ _ _ hcell]
      exact hinv.high r c0 hc0
    · show c ≤ 127 ∨ c = 255
      omega
    · exact hinv.table_le
  · obtain ⟨hn, rfl, rfl⟩ := h1
    constructor
    · intro r c0
      rcases hinv.next_bound r c0 with h0 | h1 | ⟨h2, _⟩
      · exact Or.inl h0
      · exact Or.inr (Or.inl h1)
      · cases h2
    · intro h; cases h
    · intro _
      show (st.data st.merge_row_current c).next_state < st.table_row
      rcases hinv.next_bound st.merge_row_current c with h0 | h1 | ⟨h2, _⟩
      · exact absurd h0 hn
      · exact h1
      · cases h2
    · exact hinv.ltr
    · intro r hr
      show r < st.table_row
      have : st.merge_row_current = r := Option.some.inj hr
      have := hinv.mrc_merge rfl
      omega
    · exact hinv.high
    · show c ≤ 127 ∨ c = 255
      omega
    · exact hinv.table_le

/-- A property kept by the four cases of the two loops holds when the loops are left. -/
theorem compile_loops_preserves (tl cb : Nat) (P : Bool → compile_state → Prop)
    (hcd : ∀ (st st1 : compile_state) (c : Nat), ¬ c > 127 → P false st →
      chain_default tl st c = .ok st1 → P false st1)
    (hcp : ∀ (st st1 : compile_state), P false st → chain_pipe tl cb st = .ok st1 → P true st1)
    (hmp : ∀ (st st1 : compile_state), P true st → merge_pipe tl cb st = .ok st1 → P true st1)
    (hmd : ∀ (st st1 : compile_state) (c : Nat) (spliced : Bool), ¬ c > 127 → P true st →
      merge_default tl st c = .ok (st1, spliced) → P (!spliced) st1)
    (rest : List Nat) :
    ∀ (m : Bool) (st st2 : compile_state), compile_loops tl cb m st rest = .ok st2 →
      P m st → ∃ m2, P m2 st2 := by
  have hstep : ∀ (c : Nat) (rest2 : List Nat), ¬ c > 127 →
      (∀ (m : Bool) (st st2 : compile_state), compile_loops tl cb m st rest2 = .ok st2 →
        P m st → ∃ m2, P m2 st2) →
      ∀ (m : Bool) (st st2 : compile_state),
        (match m with
          | false =>
            match chain_default tl st c with
            | .ok st1 => compile_loops tl cb false st1 rest2
            | .error e => .error e
          | true =>
            match merge_default tl st c with
            | .ok (st1, spliced) => compile_loops tl cb (!spliced) st1 rest2
            | .error e => .error e) = .ok st2 →
        P m st → ∃ m2, P m2 st2 := by
    intro c rest2 hc ih m st st2 h hP
    cases m with
    | false =>
      simp only at h
      cases h1 : chain_default tl st c with
      | error e => rw [h1] at h; cases h
      | ok st1 =>
        rw [h1] at h
        exact ih false st1 st2 h (hcd st st1 c hc hP h1)
    | true =>
      simp only at h
      cases h1 : merge_default tl st c with
      | error e => rw [h1] at h; cases h
      | ok p =>
        rw [h1] at h
        exact ih (!p.2) p.1 st2 h (hmd st p.1 c p.2 hc hP h1)
  induction rest using alternatives.induct with
  | case1 =>
    intro m st st2 h hP
    rw [compile_loops_nil] at h
    cases h
    exact ⟨m, hP⟩
  | case2 rest ih =>
    intro m st st2 h hP
    rw [compile_loops_pipe] at h
    cases m with
    | false =>
      simp only at h
      cases h1 : chain_pipe tl cb st with
      | error e => rw [h1] at h; cases h
      | ok st1 =>
        rw [h1] at h
        exact ih true st1 st2 h (hcp st st1 hP h1)
    | true =>
      simp only at h
      cases h1 : merge_pipe tl cb st with
      | error e => rw [h1] at h; cases h
      | ok st1 =>
        rw [h1] at h
        exact ih true st1 st2 h (hmp st st1 hP h1)
  | case3 _ =>
    intro m st st2 h
    cases m
    · rw [compile_loops_chain_cons] at h; simp at h
    · rw [compile_loops_merge_cons] at h; simp at h
  | case4 d rest2 _ ih =>
    intro m st st2 h hP
    by_cases hd : d > 127
    · cases m
      · rw [compile_loops_chain_cons] at h; simp [hd] at h
      · rw [compile_loops_merge_cons] at h; simp [hd] at h
    · rw [compile_loops_escape _ _ _ _ _ _ hd] at h
      exact hstep d rest2 hd ih m st st2 h hP
  | case5 c rest h1 h2 ih =>
    intro m st st2 h hP
    by_cases hc : c > 127
    · cases m
      · rw [compile_loops_chain_cons] at h; simp [hc] at h
      · rw [compile_loops_merge_cons] at h; simp [hc] at h
    · rw [compile_loops_literal _ _ _ _ _ _ hc h1 h2] at h
      exact hstep c rest hc ih m st st2 h hP

theorem compile_loops_bounds (tl cb : Nat) (rest : List Nat) (m : Bool)
    (st st2 : compile_state) (h : compile_loops tl cb m st rest = .ok st2)
    (hinv : bounds_inv tl m st) : ∃ m2, bounds_inv tl m2 st2 :=
  compile_loops_preserves tl cb (bounds_inv tl)
    (fun st st1 c hc hP h1 => bounds_chain_default tl st st1 c hc hP h1)
    (fun st st1 hP h1 => bounds_chain_pipe tl cb st st1 hP h1)
    (fun st st1 hP h1 => bounds_merge_pipe tl cb st st1 hP h1)
    (fun st st1 c spliced hc hP h1 => bounds_merge_default tl st st1 c spliced hc hP h1)
    rest m st st2 h hinv

theorem compile_finish_eq (tl cb : Nat) (st st1 : compile_state)
    (h : compile_finish tl cb st = .ok st1) :
    ∃ row f, row < tl ∧
      ((st.merge_row_current ≠ 0 ∧ st.last_merge_row = some row ∧
        st1 = { st with data := set_element st.data row st.character
                                  ⟨(st.data row st.character).next_state, f⟩
                        string_index := st.string_index + 1 }) ∨
       (st.merge_row_current = 0 ∧ st.last_table_row = some row ∧
        st1 = { st with data := set_element st.data row st.character ⟨0, f⟩
                        string_index := st.string_index + 1 })) := by
  unfold compile_finish at h
  simp only [differs_from_minus_one_true, if_true] at h
  by_cases hm : st.merge_row_current ≠ 0
  · rw [if_pos hm] at h
    cases hl : st.last_merge_row with
    | none => rw [hl] at h; simp [row_index] at h
    | some row =>
      rw [hl] at h
      by_cases hlt : row < tl
      · cases hf : func_ptr cb st.string_index with
        | error e => rw [hf] at h; simp [row_index, hlt] at h
        | ok f =>
          rw [hf] at h
          simp only [row_index, hlt, if_true, Except.ok.injEq] at h
          exact ⟨row, f, hlt, Or.inl ⟨hm, rfl, h.symm⟩⟩
      · simp [row_index, hlt] at h
  · rw [if_neg hm] at h
    cases hl : st.last_table_row with
    | none => rw [hl] at h; simp [row_index] at h
    | some row =>
      rw [hl] at h
      by_cases hlt : row < tl
      · cases hf : func_ptr cb st.string_index with
        | error e => rw [hf] at h; simp [row_index, hlt] at h
        | ok f =>
          rw [hf] at h
          simp only [row_index, hlt, if_true, Except.ok.injEq] at h
          exact ⟨row, f, hlt, Or.inr ⟨not_not.1 hm, rfl, h.symm⟩⟩
      · simp [row_index, hlt] at h

/-- After lines 481-489 no cell points to `table_row` or beyond, row 0 exists, and the
columns from 128 on hold at most a callback in column 255. -/
theorem compile_finish_bounds (tl cb : Nat) (m : Bool) (st st1 : compile_state)
    (hinv : bounds_inv tl m st) (h : compile_finish tl cb st = .ok st1) :
    st1.table_row = st.table_row ∧ 0 < st1.table_row ∧ st1.table_row ≤ tl ∧
    (∀ r c, (st1.data r c).next_state = 0 ∨ (st1.data r c).next_state < st1.table_row) ∧
    (∀ r c, 128 ≤ c →
      (st1.data r c).next_state = 0 ∧ (c ≠ 255 → (st1.data r c).callback = none)) := by
  obtain ⟨row, f, _, h1 | h1⟩ := compile_finish_eq tl cb st st1 h
  · obtain ⟨hm, hl, rfl⟩ := h1
    have hrow := hinv.lmr row hl
    have hmerge : m = true := by
      cases m
      · exact absurd (hinv.mrc_chain rfl) hm
      · rfl
    have hnext : ∀ r c0, (set_element st.data row st.character
        ⟨(st.data row st.character).next_state, f⟩ r c0).next_state =
        (st.data r c0).next_state := by
      intro r c0
      by_cases hcell : r = row ∧ c0 = st.character
      · rcases hcell with ⟨rfl, rfl⟩
        rw [set_element_same]
      · rw [set_element_other _ _ _ _ _ _ hcell]
    refine ⟨rfl, by show 0 < st.table_row; omega, hinv.table_le, ?_, ?_⟩
    · intro r c0
      show (set_element st.data row st.character
          ⟨(st.data row st.character).next_state, f⟩ r c0).next_state = 0 ∨
        (set_element st.data row st.character
          ⟨(st.data row st.character).next_state, f⟩ r c0).next_state < st.table_row
      rw [hnext]
      rcases hinv.next_bound r c0 with h0 | h1 | ⟨h2, _⟩
      · exact Or.inl h0
      · exact Or.inr h1
      · rw [hmerge] at h2; cases h2
    · intro r c0 hc0
      show (set_element st.data row st.character
          ⟨(st.data row st.character).next_state, f⟩ r c0).next_state = 0 ∧
        (c0 ≠ 255 → (set_element st.data row st.character
          ⟨(st.data row st.character).next_state, f⟩ r c0).callback = none)
      rw [hnext]
      refine ⟨(hinv.high r c0 hc0).1, fun hne => ?_⟩
      have hcell : ¬ (r = row ∧ c0 = st.character) := by
        rintro ⟨_, rfl⟩
        rcases hinv.char_ok with h1 | h1 <;> omega
      rw [set_element_other _ _ _ _ _ _ hcell]
      exact (hinv.high r c0 hc0).2 hne
  · obtain ⟨hm, hl, rfl⟩ := h1
    have hrow := hinv.ltr row hl
    refine ⟨rfl, by show 0 < st.table_row; omega, hinv.table_le, ?_, ?_⟩
    · intro r c0
      show (set_element st.data row st.character ⟨0, f⟩ r c0).next_state = 0 ∨
        (set_element st.data row st.character ⟨0, f⟩ r c0).next_state < st.table_row
      by_cases hcell : r = row ∧ c0 = st.character
      · rcases hcell with ⟨rfl, rfl⟩
        rw [set_element_same]
        exact Or.inl rfl
      · rw [set_element_other _ _ _ _ _ _ hcell]
        rcases hinv.next_bound r c0 with h0 | h1 | ⟨_, _, h3, h4⟩
        · exact Or.inl h0
        · exact Or.inr h1
        · rw [hl] at h3
          exact absurd ⟨(Option.some.inj h3).symm, h4.symm⟩ hcell
    · intro r c0 hc0
      show (set_element st.data row st.character ⟨0, f⟩ r c0).next_state = 0 ∧
        (c0 ≠ 255 → (set_element st.data row st.character ⟨0, f⟩ r c0).callback = none)
      by_cases hcell : r = row ∧ c0 = st.character
      · rcases hcell with ⟨rfl, rfl⟩
        rw [set_element_same]
        refine ⟨rfl, fun hne => ?_⟩
        rcases hinv.char_ok with h1 | h1 <;> omega
      · rw [set_element_other _ _ _ _ _ _ hcell]
        exact hinv.high r c0 hc0

theorem compile_to_table_eq (tl cb : Nat) (meta_matcher_spec : List Nat) (t : index_table)
    (h : compile_to_table tl meta_matcher_spec cb = .ok t) :
    ∃ st st1, compile_loops tl cb false compile_init meta_matcher_spec = .ok st ∧
      compile_finish tl cb st = .ok st1 ∧
      t = { length := tl, data := st1.data, second := st1.table_row } := by
  unfold compile_to_table at h
  by_cases h0 : cb = 0
  · simp [h0] at h
  · rw [if_neg h0] at h
    cases h1 : compile_loops tl cb false compile_init meta_matcher_spec with
    | error e => rw [h1] at h; cases h
    | ok st =>
      rw [h1] at h
      simp only at h
      cases h2 : compile_finish tl cb st with
      | error e => rw [h2] at h; cases h
      | ok st1 =>
        rw [h2] at h
        simp only at h
        by_cases h3 : st1.string_index ≠ cb
        · rw [if_pos h3] at h; cases h
        · rw [if_neg h3] at h
          exact ⟨st, st1, rfl, h2, (Except.ok.inj h).symm⟩

/-- Every table that `compile_to_table` returns, for whatever spec: the length it was
built for, at least one row in use and no more than the table has, next states below
the number of rows in use, and nothing but a callback in column 255 from column 128
on. -/
theorem compile_to_table_bounds (tl cb : Nat) (meta_matcher_spec : List Nat)
    (t : index_table) (h : compile_to_table tl meta_matcher_spec cb = .ok t) :
    t.length = tl ∧ 0 < t.second ∧ t.second ≤ tl ∧
    (∀ r c, (t.data r c).next_state = 0 ∨ (t.data r c).next_state < t.second) ∧
    (∀ r c, 128 ≤ c →
      (t.data r c).next_state = 0 ∧ (c ≠ 255 → (t.data r c).callback = none)) := by
  obtain ⟨st, st1, h1, h2, rfl⟩ := compile_to_table_eq tl cb meta_matcher_spec t h
  obtain ⟨m2, hinv⟩ := compile_loops_bounds tl cb meta_matcher_spec false compile_init st h1
    (bounds_inv_init tl)
  obtain ⟨_, e2, e3, e4, e5⟩ := compile_finish_bounds tl cb m2 st st1 hinv h2
  exact ⟨rfl, e2, e3, e4, e5⟩

/-- C15. In every table that `compile_to_table` returns, the next state of every cell is
either 0 (none) or below the number of rows reported as used, so in the matcher of
that many rows every next-state pointer names a row of the matcher. -/
theorem next_states_within_used_rows (table_length callbacks : Nat)
    (meta_matcher_spec : List Nat) (t : index_table)
    (h : compile_to_table table_length meta_matcher_spec callbacks = .ok t) :
    (∀ r c, (t.data r c).next_state = 0 ∨ (t.data r c).next_state < t.second) ∧
    (∀ r c next, ((to_string_matcher t).data r c).next_state_ptr = some next →
      next < (to_string_matcher t).length) := by
  obtain ⟨_, _, _, h4, _⟩ := compile_to_table_bounds _ _ _ t h
  refine ⟨h4, ?_⟩
  intro r c next hn
  rw [to_string_matcher_data] at hn
  by_cases h0 : (t.data r c).next_state = 0
  · simp [h0] at hn
  · simp only [h0, if_false, Option.some.injEq] at hn
    rcases h4 r c with h5 | h5
    · exact absurd h5 h0
    · rw [← hn]; exact h5

theorem run_calls_state (t : index_table)
    (hpos : 0 < t.second)
    (hnext : ∀ r c, (t.data r c).next_state = 0 ∨ (t.data r c).next_state < t.second)
    (calls : List cursor_call) :
    ∀ cur : cursor, cur.state < t.second →
      (run_calls (to_string_matcher t) cur calls).state < t.second := by
  induction calls with
  | nil => intro cur h; exact h
  | cons call rest ih =>
    intro cur h
    cases call with
    | full_reset => exact ih (full_reset cur) hpos
    | match_character b =>
      refine ih _ ?_
      by_cases hn : (t.data cur.state (b % 256)).next_state = 0
      · have : (match_character (to_string_matcher t) cur b).1.state = 0 := by
          cases h1 : (t.data cur.state (b % 256)).callback <;>
            cases h3 : cur.callback_ptr_at_last_match <;>
            simp [match_character, to_string_matcher_data, h1, hn, h3]
        rw [this]; exact hpos
      · rw [(match_character_live t cur b hn).2.1]
        rcases hnext cur.state (b % 256) with h5 | h5
        · exact absurd h5 hn
        · exact h5

theorem returned_table_ok (x : Except build_error index_table) (h : x.isOk = true) :
    x = .ok (returned_table x) := by
  cases x with
  | error e => cases h
  | ok t => rfl

theorem next_states_within_used_rows_witness :
    compile_to_table 20 harness_spec 15 =
      .ok (returned_table (compile_to_table 20 harness_spec 15)) ∧
    ((∀ r c, ((returned_table (compile_to_table 20 harness_spec 15)).data r c).next_state = 0 ∨
      ((returned_table (compile_to_table 20 harness_spec 15)).data r c).next_state <
        (returned_table (compile_to_table 20 harness_spec 15)).second) ∧
    (∀ r c next,
      ((to_string_matcher (returned_table (compile_to_table 20 harness_spec 15))).data
        r c).next_state_ptr = some next →
      next < (to_string_matcher (returned_table (compile_to_table 20 harness_spec 15))).length)) :=
  ⟨returned_table_ok _ (by decide!),
    next_states_within_used_rows 20 15 harness_spec _ (returned_table_ok _ (by decide!))⟩

/-- C20. `match_character` is total, and for every table that a build returns, after every
sequence of calls of `match_character` (with any byte value) and `full_reset` on a
fresh cursor the cursor's row is below the number of rows of the matcher, so the row
and the column (the byte value, below 256) of every lookup are in range. -/
theorem cursor_state_in_range (table_length callbacks : Nat) (meta_matcher_spec : List Nat)
    (t : index_table)
    (h : compile_to_table table_length meta_matcher_spec callbacks = .ok t)
    (calls : List cursor_call) :
    (run_calls (to_string_matcher t) fresh_cursor calls).state <
      (to_string_matcher t).length ∧
    ∀ character : Nat, character % 256 < 256 := by
  obtain ⟨_, h2, _, h4, _⟩ := compile_to_table_bounds _ _ _ t h
  exact ⟨run_calls_state t h2 h4 calls fresh_cursor h2, fun c => Nat.mod_lt _ (by omega)⟩

theorem cursor_state_in_range_witness :
    compile_to_table 20 harness_spec 15 =
      .ok (returned_table (compile_to_table 20 harness_spec 15)) ∧
    ((run_calls (to_string_matcher (returned_table (compile_to_table 20 harness_spec 15)))
        fresh_cursor [.match_character 104, .match_character 105, .full_reset,
          .match_character 255, .match_character 104, .match_character 105,
          .match_character 52]).state <
      (to_string_matcher (returned_table (compile_to_table 20 harness_spec 15))).length ∧
    ∀ character : Nat, character % 256 < 256) :=
  ⟨returned_table_ok _ (by decide!),
    cursor_state_in_range 20 15 harness_spec _ (returned_table_ok _ (by decide!)) _⟩

theorem row_index_eq (tl n : Nat) (x : Option Nat) (hx : ∀ r, x = some r → r < n)
    (hle : n ≤ tl) : row_index tl x = row_index n x := by
  cases x with
  | none => rfl
  | some r =>
    have h1 := hx r rfl
    have h2 : r < tl := by omega
    simp [row_index, h1, h2]

theorem chain_pipe_rows (tl n cb : Nat) (st : compile_state) (hinv : bounds_inv n false st)
    (hle : n ≤ tl) : chain_pipe tl cb st = chain_pipe n cb st := by
  unfold chain_pipe
  rw [row_index_eq tl n st.last_table_row
    (fun r hr => Nat.lt_of_lt_of_le (hinv.ltr r hr) hinv.table_le) hle]

theorem merge_pipe_rows (tl n cb : Nat) (st : compile_state) (hinv : bounds_inv n true st)
    (hle : n ≤ tl) : merge_pipe tl cb st = merge_pipe n cb st := by
  unfold merge_pipe
  rw [row_index_eq tl n st.last_merge_row
    (fun r hr => Nat.lt_of_lt_of_le (hinv.lmr r hr) hinv.table_le) hle]

theorem compile_finish_rows (tl n cb : Nat) (m : Bool) (st : compile_state)
    (hinv : bounds_inv n m st) (hle : n ≤ tl) :
    compile_finish tl cb st = compile_finish n cb st := by
  unfold compile_finish
  rw [row_index_eq tl n st.last_table_row
    (fun r hr => Nat.lt_of_lt_of_le (hinv.ltr r hr) hinv.table_le) hle,
    row_index_eq tl n st.last_merge_row
    (fun r hr => Nat.lt_of_lt_of_le (hinv.lmr r hr) hinv.table_le) hle]

theorem chain_default_rows (tl n : Nat) (st : compile_state) (c : Nat)
    (h : st.table_row < n) (hle : n ≤ tl) : chain_default tl st c = chain_default n st c := by
  have h2 : st.table_row < tl := by omega
  simp [chain_default, h, h2]

theorem merge_default_rows (tl n : Nat) (st : compile_state) (c : Nat)
    (h : st.merge_row_current < n) (hle : n ≤ tl) :
    merge_default tl st c = merge_default n st c := by
  have h2 : st.merge_row_current < tl := by omega
  simp [merge_default, h, h2]

theorem default_step_rows (tl n cb : Nat) (hle : n ≤ tl) (c : Nat) (rest : List Nat)
    (hc : ¬ c > 127)
    (ih : ∀ (m : Bool) (st : compile_state), bounds_inv n m st →
      st.table_row + literal_positions rest ≤ n →
      compile_loops tl cb m st rest = compile_loops n cb m st rest)
    (m : Bool) (st : compile_state) :
    bounds_inv n m st → st.table_row + literal_positions rest + 1 ≤ n →
    (match m with
      | false =>
        match chain_default tl st c with
        | .ok st1 => compile_loops tl cb false st1 rest
        | .error e => .error e
      | true =>
        match merge_default tl st c with
        | .ok (st1, spliced) => compile_loops tl cb (!spliced) st1 rest
        | .error e => .error e) =
    (match m with
      | false =>
        match chain_default n st c with
        | .ok st1 => compile_loops n cb false st1 rest
        | .error e => .error e
      | true =>
        match merge_default n st c with
        | .ok (st1, spliced) => compile_loops n cb (!spliced) st1 rest
        | .error e => .error e) := by
  intro hinv hlen
  cases m with
  | false =>
    simp only
    rw [chain_default_rows tl n st c (by omega) hle]
    cases h1 : chain_default n st c with
    | error e => rfl
    | ok st1 =>
      have hinv1 := bounds_chain_default n st st1 c hc hinv h1
      have htr := (chain_default_effect n st st1 c h1).2.1
      exact ih false st1 hinv1 (by omega)
  | true =>
    simp only
    have hm := hinv.mrc_merge rfl
    rw [merge_default_rows tl n st c (by omega) hle]
    cases h1 : merge_default n st c with
    | error e => rfl
    | ok p =>
      have hinv1 := bounds_merge_default n st p.1 c p.2 hc hinv h1
      have htr := (merge_default_effect n st p.1 c p.2 h1).2.1
      exact ih (!p.2) p.1 hinv1 (by omega)

/-- On a spec that `calculate_table_length` accepts with the count `n`, the loops do the
same with a table of `n` rows as with any longer table: no row from `n` on is read or
written. -/
theorem compile_loops_rows (tl n cb : Nat) (hle : n ≤ tl) (rest : List Nat) (r : Nat) :
    ∀ (n0 : Nat), calculate_table_length_loop rest r = .ok n0 →
    ∀ (m : Bool) (st : compile_state), bounds_inv n m st →
      st.table_row + literal_positions rest ≤ n →
      compile_loops tl cb m st rest = compile_loops n cb m st rest := by
  induction rest, r using calculate_table_length_loop.induct with
  | case1 r =>
    intro n0 _ m st _ _
    rw [compile_loops_nil, compile_loops_nil]
  | case2 c rest r hc =>
    intro n0 h
    rw [calculate_table_length_loop.eq_def] at h; simp [hc] at h
  | case3 rest r _ ih =>
    intro n0 h m st hinv hlen
    rw [calculate_table_length_loop.eq_def] at h
    simp only [gt_iff_lt, Nat.reduceLT, if_false, if_true] at h
    rw [literal_positions_pipe] at hlen
    rw [compile_loops_pipe, compile_loops_pipe]
    cases m with
    | false =>
      simp only
      rw [chain_pipe_rows tl n cb st hinv hle]
      cases h1 : chain_pipe n cb st with
      | error e => rfl
      | ok st1 =>
        have htr := (chain_pipe_effect n cb st st1 h1).2.1
        exact ih n0 h true st1 (bounds_chain_pipe n cb st st1 hinv h1) (by omega)
    | true =>
      simp only
      rw [merge_pipe_rows tl n cb st hinv hle]
      cases h1 : merge_pipe n cb st with
      | error e => rfl
      | ok st1 =>
        have htr := (merge_pipe_effect n cb st st1 h1).2.1
        exact ih n0 h true st1 (bounds_merge_pipe n cb st st1 hinv h1) (by omega)
  | case4 r _ _ =>
    intro n0 h
    rw [calculate_table_length_loop.eq_def] at h; simp at h
  | case5 r d rest2 hd _ _ =>
    intro n0 h
    rw [calculate_table_length_loop.eq_def] at h; simp [hd] at h
  | case6 r d rest2 hd hd2 _ _ ih =>
    intro n0 h m st hinv hlen
    rw [calculate_table_length_loop.eq_def] at h
    simp [hd, hd2] at h
    rw [literal_positions_escape _ _ hd2] at hlen
    rw [compile_loops_escape _ _ _ _ _ _ hd, compile_loops_escape _ _ _ _ _ _ hd]
    exact default_step_rows tl n cb hle d rest2 hd (ih n0 h) m st hinv (by omega)
  | case7 r d rest2 hd hd2 _ _ =>
    intro n0 h
    rw [calculate_table_length_loop.eq_def] at h; simp [hd, hd2] at h
  | case8 c rest r h1 h2 h3 ih =>
    intro n0 h m st hinv hlen
    rw [calculate_table_length_loop.eq_def] at h
    simp [h1, h2, h3] at h
    rw [literal_positions_literal _ _ h2 h3] at hlen
    rw [compile_loops_literal _ _ _ _ _ _ h1 h2 h3, compile_loops_literal _ _ _ _ _ _ h1 h2 h3]
    exact default_step_rows tl n cb hle c rest h1 (ih n0 h) m st hinv (by omega)

/-- C16. For a spec that `calculate_table_length` accepts with the count `n`: a table built
with `n` rows reports at most `n` rows as used, and the build does the same (same
failure, or same cells and same number of used rows) with `n` rows as with any longer
table, that is, it reads and writes no row from `n` on. -/
theorem table_length_suffices (meta_matcher_spec : List Nat) (n : Nat)
    (hwf : calculate_table_length meta_matcher_spec = .ok n) (callbacks : Nat) :
    (∀ t, compile_to_table n meta_matcher_spec callbacks = .ok t →
      t.second ≤ n ∧ t.length = n) ∧
    (∀ tl, n ≤ tl →
      compile_to_table tl meta_matcher_spec callbacks =
        (compile_to_table n meta_matcher_spec callbacks).map
          (fun t => { t with length := tl })) := by
  constructor
  · intro t h
    obtain ⟨h1, _, h3, _, _⟩ := compile_to_table_bounds _ _ _ t h
    exact ⟨h3, h1⟩
  · intro tl hle
    have hlit := (calculate_table_length_loop_counts meta_matcher_spec 0 n hwf).1
    have hloops := compile_loops_rows tl n callbacks hle meta_matcher_spec 0 n hwf false
      compile_init (bounds_inv_init n) (by show 0 + _ ≤ n; omega)
    unfold compile_to_table
    by_cases h0 : callbacks = 0
    · simp [h0, Except.map]
    · rw [if_neg h0, if_neg h0, hloops]
      cases h1 : compile_loops n callbacks false compile_init meta_matcher_spec with
      | error e => rfl
      | ok st =>
        obtain ⟨m2, hinv⟩ := compile_loops_bounds n callbacks meta_matcher_spec false
          compile_init st h1 (bounds_inv_init n)
        simp only
        rw [compile_finish_rows tl n callbacks m2 st hinv hle]
        cases h2 : compile_finish n callbacks st with
        | error e => rfl
        | ok st1 =>
          simp only
          by_cases h3 : st1.string_index ≠ callbacks
          · rw [if_pos h3, if_pos h3]; rfl
          · rw [if_neg h3, if_neg h3]; rfl

theorem table_length_suffices_witness :
    calculate_table_length harness_spec = .ok 20 ∧
    ((∀ t, compile_to_table 20 harness_spec 15 = .ok t → t.second ≤ 20 ∧ t.length = 20) ∧
    (∀ tl, 20 ≤ tl →
      compile_to_table tl harness_spec 15 =
        (compile_to_table 20 harness_spec 15).map (fun t => { t with length := tl }))) :=
  ⟨rfl, table_length_suffices harness_spec 20 rfl 15⟩

/-- C14 fails on the code: a spec with a leading empty alternative (`|ab`, two callbacks)
or with adjacent pipes before any merge (`a||b`, three callbacks) stops the build with
the read of a row variable that has no value yet, whatever the table length; the
trailing empty alternative of `ab|` builds. -/
theorem empty_alternative_build_stops :
    calculate_table_length [124, 97, 98] = .ok 2 ∧
    (alternatives [124, 97, 98]).length = 2 ∧
    failure (compile_to_table 2 [124, 97, 98] 2) = some .uninitialized_read ∧
    failure (create_string_matcher_with_indices [124, 97, 98] 2) = some .uninitialized_read ∧
    calculate_table_length [97, 124, 124, 98] = .ok 2 ∧
    (alternatives [97, 124, 124, 98]).length = 3 ∧
    failure (compile_to_table 2 [97, 124, 124, 98] 3) = some .uninitialized_read ∧
    (compile_to_table 2 [97, 98, 124] 2).isOk = true ∧
    ∀ (table_length callbacks : Nat) (rest : List Nat),
      (compile_to_table table_length (124 :: rest) callbacks).isOk = false := by
  refine ⟨rfl, by decide!, by decide!, by decide!, rfl, by decide!, by decide!, by decide!, ?_⟩
  intro tl cb rest
  unfold compile_to_table
  by_cases h0 : cb = 0
  · rw [if_pos h0]; rfl
  · rw [if_neg h0, compile_loops_pipe]
    simp [chain_pipe, differs_from_minus_one_true, compile_init, row_index, Except.isOk,
      Except.toBool]

/-- C17 fails on the code: the spec `ab|` with two callbacks builds, its second alternative
is empty, the cell of byte 255 in row 1 carries the callback of that alternative, and
a fresh cursor fed the bytes 97, 255 invokes it. -/
theorem empty_alternative_matches :
    alternatives [97, 98, 124] = [[97, 98], []] ∧
    (create_string_matcher_with_indices [97, 98, 124] 2).isOk = true ∧
    (string_matcher_of [97, 98, 124] 2).data 1 255 = ⟨none, some 1⟩ ∧
    (feed (string_matcher_of [97, 98, 124] 2) fresh_cursor [97, 255]).2 =
      [⟨false, []⟩, ⟨true, [(1, 1)]⟩] := by
  refine ⟨by decide!, by decide!, by decide!, by decide!⟩

/-- C18 fails on the code in column 255: the table of the harness spec carries callbacks
in the cells of byte 255 of rows 0 and 1, and a fresh cursor fed the byte 255 invokes
callback 14.  In every table that `compile_to_table` returns the bytes from 128 on
have no next state, and the bytes 128 to 254 carry no callback. -/
theorem byte_255_carries_callbacks :
    (create_string_matcher_with_indices harness_spec 15).isOk = true ∧
    (string_matcher_of harness_spec 15).data 0 255 = ⟨none, some 14⟩ ∧
    (string_matcher_of harness_spec 15).data 1 255 = ⟨none, some 12⟩ ∧
    (feed (string_matcher_of harness_spec 15) fresh_cursor [255]).2 = [⟨true, [(14, 0)]⟩] ∧
    ∀ (table_length callbacks : Nat) (meta_matcher_spec : List Nat) (t : index_table),
      compile_to_table table_length meta_matcher_spec callbacks = .ok t →
      ∀ r c, 128 ≤ c →
        (t.data r c).next_state = 0 ∧ (c ≠ 255 → (t.data r c).callback = none) := by
  refine ⟨by decide!, by decide!, by decide!, by decide!, ?_⟩
  intro tl cb spec t h
  exact (compile_to_table_bounds tl cb spec t h).2.2.2.2

theorem continues_iff (alts : List (List Nat)) (w : List Nat) :
    continues alts w = true ↔
      ∃ (j : Nat) (v : List Nat), v ≠ [] ∧ alts[j]? = some (w ++ v) := by
  unfold continues
  rw [List.any_eq_true]
  constructor
  · rintro ⟨a, ha, hp⟩
    simp only [Bool.and_eq_true, decide_eq_true_eq] at hp
    obtain ⟨v, hv⟩ := List.isPrefixOf_iff_prefix.1 hp.1
    obtain ⟨j, hj⟩ := List.mem_iff_getElem?.1 ha
    refine ⟨j, v, ?_, by rw [hj, hv]⟩
    rintro rfl
    rw [← hv] at hp
    simp at hp
  · rintro ⟨j, v, hv, hj⟩
    refine ⟨w ++ v, List.getElem?_mem hj, ?_⟩
    simp only [Bool.and_eq_true, decide_eq_true_eq]
    refine ⟨List.isPrefixOf_iff_prefix.2 (List.prefix_append _ _), ?_⟩
    have : 0 < v.length := List.length_pos.2 hv
    simp; omega

theorem continues_congr (alts1 alts2 : List (List Nat)) (h : ∀ a, a ∈ alts1 ↔ a ∈ alts2)
    (w : List Nat) : continues alts1 w = continues alts2 w := by
  rw [Bool.eq_iff_iff]
  unfold continues
  rw [List.any_eq_true, List.any_eq_true]
  constructor
  · rintro ⟨a, ha, hp⟩; exact ⟨a, (h a).1 ha, hp⟩
  · rintro ⟨a, ha, hp⟩; exact ⟨a, (h a).2 ha, hp⟩

theorem reference_step_congr (alts1 alts2 : List (List Nat))
    (h : ∀ a, a ∈ alts1 ↔ a ∈ alts2) (rc : reference_cursor) (b : Nat) :
    reference_step alts1 rc b = reference_step alts2 rc b := by
  unfold reference_step
  simp only [continues_congr alts1 alts2 h, h]

theorem reference_feed_congr (alts1 alts2 : List (List Nat))
    (h : ∀ a, a ∈ alts1 ↔ a ∈ alts2) (bytes : List Nat) :
    ∀ rc, reference_feed alts1 rc bytes = reference_feed alts2 rc bytes := by
  induction bytes with
  | nil => intro rc; rfl
  | cons b rest ih =>
    intro rc
    show (reference_step alts1 rc b).2 :: reference_feed alts1 (reference_step alts1 rc b).1 rest =
      (reference_step alts2 rc b).2 :: reference_feed alts2 (reference_step alts2 rc b).1 rest
    rw [reference_step_congr alts1 alts2 h, ih]

theorem match_character_dead_cursor (t : index_table) (cur : cursor) (b : Nat)
    (hn : (t.data cur.state (b % 256)).next_state = 0) :
    (match_character (to_string_matcher t) cur b).1.state = 0 ∧
    (match_character (to_string_matcher t) cur b).1.callback_ptr_at_last_match = none ∧
    (match_character (to_string_matcher t) cur b).1.input_stream_position =
      (cur.input_stream_position + 1) % size_t_values := by
  cases h1 : (t.data cur.state (b % 256)).callback <;>
    cases h3 : cur.callback_ptr_at_last_match <;>
    simp [match_character, to_string_matcher_data, h1, hn, h3]

/-- One call of `match_character` on the compiled table does what one step of the
reference matcher does. -/
theorem same_place_step (alts : List (List Nat)) (R : Nat) (name : Nat → List Nat)
    (t : index_table) (ht : trie_inv alts alts.length R name t.data R) (h0 : 0 < R)
    (cur : cursor) (rc : reference_cursor) (b : Nat) (h : same_place alts t.data cur rc) :
    same_place alts t.data (match_character (to_string_matcher t) cur b).1
        (reference_step alts rc b).1 ∧
      named_result alts (match_character (to_string_matcher t) cur b).2 =
        (reference_step alts rc b).2 := by
  obtain ⟨hw, hpos, hrec⟩ := h
  have hcont : continues alts (rc.walked ++ [b % 256]) = true ↔
      (t.data cur.state (b % 256)).next_state ≠ 0 := by
    rw [continues_iff, trie_next_state alts R name t.data ht h0 rc.walked cur.state (b % 256) hw]
    constructor
    · rintro ⟨j, v, hv, hj⟩; exact ⟨j, v, hv, by rw [hj]; simp⟩
    · rintro ⟨j, v, hv, hj⟩; exact ⟨j, v, hv, by rw [hj]; simp⟩
  have hsome : ∀ k, (t.data cur.state (b % 256)).callback = some k →
      alts[k]? = some (rc.walked ++ [b % 256]) ∧ rc.walked ++ [b % 256] ∈ alts := by
    intro k hk
    have := (trie_callback_sound alts R R name t.data ht h0 rc.walked cur.state (b % 256) k
      hw hk).1
    exact ⟨this, List.getElem?_mem this⟩
  have hnone : (t.data cur.state (b % 256)).callback = none →
      rc.walked ++ [b % 256] ∉ alts := by
    intro hk hmem
    obtain ⟨j, hj⟩ := List.mem_iff_getElem?.1 hmem
    obtain ⟨s2, k, hw2, hk2⟩ := trie_callback_complete alts R R name t.data ht (le_refl _)
      rc.walked (b % 256) j hj
    rw [hw] at hw2
    rw [← Option.some.inj hw2, hk] at hk2
    cases hk2
  by_cases hn : (t.data cur.state (b % 256)).next_state = 0
  · have hc : continues alts (rc.walked ++ [b % 256]) = false := by
      cases hcc : continues alts (rc.walked ++ [b % 256]) with
      | false => rfl
      | true => exact absurd hn (hcont.1 hcc)
    obtain ⟨c1, c2, c3⟩ := match_character_dead_cursor t cur b hn
    obtain ⟨d1, d2⟩ := match_character_dead t cur b hn
    cases hk : (t.data cur.state (b % 256)).callback with
    | none =>
      have hmem := hnone hk
      cases hcb : cur.callback_ptr_at_last_match with
      | none =>
        rw [hcb] at hrec
        simp only at hrec
        have hstep : reference_step alts rc b =
            ({ walked := [], recorded := none, position := (rc.position + 1) % size_t_values }, (false, [])) := by
          simp [reference_step, hc, hmem, hrec]
        rw [hstep, d1 hk, hcb]
        refine ⟨⟨by rw [c1]; rfl, by rw [c3, hpos], by rw [c2]⟩, rfl⟩
      | some f =>
        rw [hcb] at hrec
        obtain ⟨a, ha, hra⟩ := hrec
        have hstep : reference_step alts rc b =
            ({ walked := [], recorded := none, position := (rc.position + 1) % size_t_values },
              (true, [(some a, cur.input_stream_position_at_last_match)])) := by
          simp [reference_step, hc, hmem, hra]
        rw [hstep, d1 hk, hcb]
        refine ⟨⟨by rw [c1]; rfl, by rw [c3, hpos], by rw [c2]⟩, ?_⟩
        simp [named_result, ha]
    | some k =>
      obtain ⟨ha, hmem⟩ := hsome k hk
      have hstep : reference_step alts rc b =
          ({ walked := [], recorded := none, position := (rc.position + 1) % size_t_values },
            (true, [(some (rc.walked ++ [b % 256]), rc.position)])) := by
        simp [reference_step, hc, hmem]
      rw [hstep, d2 k hk]
      refine ⟨⟨by rw [c1]; rfl, by rw [c3, hpos], by rw [c2]⟩, ?_⟩
      simp [named_result, ha, hpos]
  · have hc : continues alts (rc.walked ++ [b % 256]) = true := hcont.2 hn
    obtain ⟨m1, m2, m3, m4, m5⟩ := match_character_live t cur b hn
    have hwalk : walk t.data 0 (rc.walked ++ [b % 256]) =
        some (match_character (to_string_matcher t) cur b).1.state := by
      rw [walk_snoc _ _ _ _ _ hw, m2]
      simp [hn]
    cases hk : (t.data cur.state (b % 256)).callback with
    | none =>
      have hmem := hnone hk
      have hstep : reference_step alts rc b =
          ({ walked := rc.walked ++ [b % 256], recorded := rc.recorded,
             position := (rc.position + 1) % size_t_values }, (false, [])) := by
        simp [reference_step, hc, hmem]
      rw [hstep, m1]
      refine ⟨⟨hwalk, by rw [m3, hpos], ?_⟩, rfl⟩
      rw [(m4 hk).1, (m4 hk).2]
      exact hrec
    | some k =>
      obtain ⟨ha, hmem⟩ := hsome k hk
      have hstep : reference_step alts rc b =
          ({ walked := rc.walked ++ [b % 256],
             recorded := some (rc.walked ++ [b % 256], rc.position),
             position := (rc.position + 1) % size_t_values }, (false, [])) := by
        simp [reference_step, hc, hmem]
      rw [hstep, m1]
      refine ⟨⟨hwalk, by rw [m3, hpos], ?_⟩, rfl⟩
      rw [(m5 k hk).1, (m5 k hk).2]
      exact ⟨_, ha, by rw [hpos]⟩

theorem same_place_feed (alts : List (List Nat)) (R : Nat) (name : Nat → List Nat)
    (t : index_table) (ht : trie_inv alts alts.length R name t.data R) (h0 : 0 < R)
    (bytes : List Nat) :
    ∀ (cur : cursor) (rc : reference_cursor), same_place alts t.data cur rc →
      (feed (to_string_matcher t) cur bytes).2.map (named_result alts) =
        reference_feed alts rc bytes := by
  induction bytes with
  | nil => intro cur rc _; rfl
  | cons b rest ih =>
    intro cur rc h
    obtain ⟨h1, h2⟩ := same_place_step alts R name t ht h0 cur rc b h
    rw [feed_cons]
    show named_result alts (match_character (to_string_matcher t) cur b).2 ::
        List.map (named_result alts)
          (feed (to_string_matcher t) (match_character (to_string_matcher t) cur b).1 rest).2 =
      (reference_step alts rc b).2 :: reference_feed alts (reference_step alts rc b).1 rest
    rw [h2, ih _ _ h1]

/-- C19. Matching pays no attention to the order of the alternatives: when two well-formed
specs have the same pairwise distinct, non-empty alternatives in different orders,
both build, and on every byte sequence the two matchers, started fresh, return the
same values and invoke the callbacks of the same alternatives with the same
arguments, call by call (a callback is named by its alternative, which names it
uniquely). -/
theorem order_of_alternatives_irrelevant (spec1 spec2 : List Nat) (n1 n2 : Nat)
    (hwf1 : calculate_table_length spec1 = .ok n1)
    (hwf2 : calculate_table_length spec2 = .ok n2)
    (hne : ∀ a ∈ alternatives spec1, a ≠ [])
    (hdistinct : (alternatives spec1).Nodup)
    (hperm : (alternatives spec2).Perm (alternatives spec1)) :
    ∃ t1 t2, compile_to_table n1 spec1 (alternatives spec1).length = .ok t1 ∧
      compile_to_table n2 spec2 (alternatives spec2).length = .ok t2 ∧
      (∀ bytes : List Nat,
        (feed (to_string_matcher t1) fresh_cursor bytes).2.map
            (named_result (alternatives spec1)) =
          (feed (to_string_matcher t2) fresh_cursor bytes).2.map
            (named_result (alternatives spec2))) ∧
      (∀ (k1 k2 : Nat) (a : List Nat), (alternatives spec1)[k1]? = some a →
        (alternatives spec1)[k2]? = some a → k1 = k2) ∧
      (∀ (k1 k2 : Nat) (a : List Nat), (alternatives spec2)[k1]? = some a →
        (alternatives spec2)[k2]? = some a → k1 = k2) := by
  have hmem : ∀ a, a ∈ alternatives spec1 ↔ a ∈ alternatives spec2 :=
    fun a => (hperm.mem_iff).symm
  have hne2 : ∀ a ∈ alternatives spec2, a ≠ [] := fun a ha => hne a ((hmem a).2 ha)
  have hdistinct2 : (alternatives spec2).Nodup := hperm.nodup_iff.2 hdistinct
  obtain ⟨t1, name1, hc1, _, _, ht1⟩ := compile_to_table_trie spec1 n1 hwf1 hne
  obtain ⟨t2, name2, hc2, _, _, ht2⟩ := compile_to_table_trie spec2 n2 hwf2 hne2
  have h01 := trie_rows_pos _ _ _ _ _ _ ht1 (alternatives_length_pos _)
    (first_alternative_ne_nil _ hne)
  have h02 := trie_rows_pos _ _ _ _ _ _ ht2 (alternatives_length_pos _)
    (first_alternative_ne_nil _ hne2)
  have hinj : ∀ (l : List (List Nat)), l.Nodup → ∀ (k1 k2 : Nat) (a : List Nat),
      l[k1]? = some a → l[k2]? = some a → k1 = k2 := by
    intro l hl k1 k2 a e1 e2
    obtain ⟨b1, g1⟩ := List.getElem?_eq_some_iff.1 e1
    obtain ⟨b2, g2⟩ := List.getElem?_eq_some_iff.1 e2
    exact (List.Nodup.getElem_inj_iff hl).1 (g1.trans g2.symm)
  refine ⟨t1, t2, hc1, hc2, ?_, hinj _ hdistinct, hinj _ hdistinct2⟩
  intro bytes
  have hstart1 : same_place (alternatives spec1) t1.data fresh_cursor ⟨[], none, 0⟩ :=
    ⟨rfl, rfl, rfl⟩
  have hstart2 : same_place (alternatives spec2) t2.data fresh_cursor ⟨[], none, 0⟩ :=
    ⟨rfl, rfl, rfl⟩
  rw [same_place_feed _ _ name1 t1 ht1 h01 bytes _ _ hstart1,
    same_place_feed _ _ name2 t2 ht2 h02 bytes _ _ hstart2]
  exact reference_feed_congr _ _ hmem bytes _

theorem order_of_alternatives_irrelevant_witness :
    (calculate_table_length [104, 105, 124, 104, 105, 50] = .ok 5 ∧
      calculate_table_length [104, 105, 50, 124, 104, 105] = .ok 5 ∧
      (∀ a ∈ alternatives [104, 105, 124, 104, 105, 50], a ≠ []) ∧
      (alternatives [104, 105, 124, 104, 105, 50]).Nodup ∧
      (alternatives [104, 105, 50, 124, 104, 105]).Perm
        (alternatives [104, 105, 124, 104, 105, 50])) ∧
    ∃ t1 t2, compile_to_table 5 [104, 105, 124, 104, 105, 50]
        (alternatives [104, 105, 124, 104, 105, 50]).length = .ok t1 ∧
      compile_to_table 5 [104, 105, 50, 124, 104, 105]
        (alternatives [104, 105, 50, 124, 104, 105]).length = .ok t2 ∧
      (∀ bytes : List Nat,
        (feed (to_string_matcher t1) fresh_cursor bytes).2.map
            (named_result (alternatives [104, 105, 124, 104, 105, 50])) =
          (feed (to_string_matcher t2) fresh_cursor bytes).2.map
            (named_result (alternatives [104, 105, 50, 124, 104, 105]))) ∧
      (∀ (k1 k2 : Nat) (a : List Nat),
        (alternatives [104, 105, 124, 104, 105, 50])[k1]? = some a →
        (alternatives [104, 105, 124, 104, 105, 50])[k2]? = some a → k1 = k2) ∧
      (∀ (k1 k2 : Nat) (a : List Nat),
        (alternatives [104, 105, 50, 124, 104, 105])[k1]? = some a →
        (alternatives [104, 105, 50, 124, 104, 105])[k2]? = some a → k1 = k2) :=
  ⟨⟨rfl, rfl, by decide, by decide, by decide⟩,
    order_of_alternatives_irrelevant [104, 105, 124, 104, 105, 50]
      [104, 105, 50, 124, 104, 105] 5 5 rfl rfl (by decide) (by decide) (by decide)⟩

/-- C21. The byte that causes a dead transition is dropped: for every table, cursor and byte
whose cell has no next state, `match_character` leaves the cursor at the start row,
whatever the start row holds for that byte, and its outcome depends on the one cell it
looked up only.  With `ab|c` a fresh cursor fed `ac` invokes nothing, while fed `c`
alone it invokes the second callback; with `ab|cd` a fresh cursor fed `acd` invokes
nothing, while fed `cd` it invokes the second callback. -/
theorem dead_byte_is_dropped (t : string_matcher_table) (cur : cursor) (character : Nat)
    (h : (t.data cur.state (character % 256)).next_state_ptr = none) :
    (match_character t cur character).1.state = 0 ∧
    (∀ t2 : string_matcher_table,
      t2.data cur.state (character % 256) = t.data cur.state (character % 256) →
      match_character t2 cur character = match_character t cur character) ∧
    (feed (string_matcher_of [97, 98, 124, 99] 2) fresh_cursor [97, 99]).2 =
      [⟨false, []⟩, ⟨false, []⟩] ∧
    (feed (string_matcher_of [97, 98, 124, 99] 2) fresh_cursor [99]).2 =
      [⟨true, [(1, 0)]⟩] ∧
    (string_matcher_of [97, 98, 124, 99, 100] 2).data 0 99 = ⟨some 2, none⟩ ∧
    (feed (string_matcher_of [97, 98, 124, 99, 100] 2) fresh_cursor [97, 99]).1.state = 0 ∧
    (feed (string_matcher_of [97, 98, 124, 99, 100] 2) fresh_cursor [97, 99, 100]).2 =
      [⟨false, []⟩, ⟨false, []⟩, ⟨false, []⟩] ∧
    (feed (string_matcher_of [97, 98, 124, 99, 100] 2) fresh_cursor [99, 100]).2 =
      [⟨false, []⟩, ⟨true, [(1, 1)]⟩] := by
  refine ⟨?_, ?_, by decide!, by decide!, by decide!, by decide!, by decide!, by decide!⟩
  · cases h1 : (t.data cur.state (character % 256)).callback <;>
      cases h3 : cur.callback_ptr_at_last_match <;>
      simp [match_character, h, h1, h3]
  · intro t2 h2
    simp only [match_character, h2]

theorem dead_byte_is_dropped_witness :
    ((string_matcher_of [97, 98, 124, 99, 100] 2).data
      (feed (string_matcher_of [97, 98, 124, 99, 100] 2) fresh_cursor [97]).1.state
      (99 % 256)).next_state_ptr = none ∧
    ((match_character (string_matcher_of [97, 98, 124, 99, 100] 2)
      (feed (string_matcher_of [97, 98, 124, 99, 100] 2) fresh_cursor [97]).1 99).1.state = 0 ∧
    (∀ t2 : string_matcher_table,
      t2.data (feed (string_matcher_of [97, 98, 124, 99, 100] 2) fresh_cursor [97]).1.state
          (99 % 256) =
        (string_matcher_of [97, 98, 124, 99, 100] 2).data
          (feed (string_matcher_of [97, 98, 124, 99, 100] 2) fresh_cursor [97]).1.state
          (99 % 256) →
      match_character t2
          (feed (string_matcher_of [97, 98, 124, 99, 100] 2) fresh_cursor [97]).1 99 =
        match_character (string_matcher_of [97, 98, 124, 99, 100] 2)
          (feed (string_matcher_of [97, 98, 124, 99, 100] 2) fresh_cursor [97]).1 99) ∧
    (feed (string_matcher_of [97, 98, 124, 99] 2) fresh_cursor [97, 99]).2 =
      [⟨false, []⟩, ⟨false, []⟩] ∧
    (feed (string_matcher_of [97, 98, 124, 99] 2) fresh_cursor [99]).2 =
      [⟨true, [(1, 0)]⟩] ∧
    (string_matcher_of [97, 98, 124, 99, 100] 2).data 0 99 = ⟨some 2, none⟩ ∧
    (feed (string_matcher_of [97, 98, 124, 99, 100] 2) fresh_cursor [97, 99]).1.state = 0 ∧
    (feed (string_matcher_of [97, 98, 124, 99, 100] 2) fresh_cursor [97, 99, 100]).2 =
      [⟨false, []⟩, ⟨false, []⟩, ⟨false, []⟩] ∧
    (feed (string_matcher_of [97, 98, 124, 99, 100] 2) fresh_cursor [99, 100]).2 =
      [⟨false, []⟩, ⟨true, [(1, 1)]⟩]) :=
  ⟨by decide!, dead_byte_is_dropped _ _ 99 (by decide!)⟩

theorem to_string_matcher_no_zero_target (t : index_table) (r c : Nat) :
    ((to_string_matcher t).data r c).next_state_ptr ≠ some 0 := by
  rw [to_string_matcher_data]
  by_cases h : (t.data r c).next_state = 0
  · simp [h]
  · simp [h]

theorem string_matcher_of_no_zero_target (meta_matcher_spec : List Nat) (callbacks r c : Nat) :
    ((string_matcher_of meta_matcher_spec callbacks).data r c).next_state_ptr ≠ some 0 := by
  unfold string_matcher_of
  cases create_string_matcher_with_indices meta_matcher_spec callbacks with
  | ok t0 => exact to_string_matcher_no_zero_target t0 r c
  | error e => simp

theorem run_calls_start_state (t : string_matcher_table)
    (h : ∀ r c, (t.data r c).next_state_ptr ≠ some 0) (calls : List cursor_call) :
    ∀ cur : cursor, (cur.state = 0 → cur.callback_ptr_at_last_match = none) →
      (run_calls t cur calls).state = 0 →
      (run_calls t cur calls).callback_ptr_at_last_match = none := by
  induction calls with
  | nil => intro cur hc; exact hc
  | cons call rest ih =>
    intro cur hc
    cases call with
    | full_reset => exact ih (full_reset cur) (fun _ => rfl)
    | match_character b =>
      refine ih _ ?_
      cases h2 : (t.data cur.state (b % 256)).next_state_ptr with
      | none =>
        intro _
        cases h1 : (t.data cur.state (b % 256)).callback <;>
          cases h3 : cur.callback_ptr_at_last_match <;>
          simp [match_character, h1, h2, h3]
      | some next =>
        intro h0
        have hne : next ≠ 0 := by
          rintro rfl
          exact h _ _ h2
        have : (match_character t cur b).1.state = next := by
          cases h1 : (t.data cur.state (b % 256)).callback <;>
            simp [match_character, h1, h2]
        rw [this] at h0
        exact absurd h0 hne

/-- C26. Over a table in which no next state is row 0, after every sequence of calls of
`match_character` and `full_reset` on a fresh cursor, a cursor at the start row has no
recorded match.  A call that meets a cell without a next state fires what is recorded
at that moment, the callback of the cell or else the match recorded before, exactly
once, clears it and returns to the start row; a call that meets a cell with a next
state invokes nothing and keeps the recorded match unless the cell carries a callback,
which replaces it; `full_reset` clears the recorded match, and nothing that was
recorded before it is fired after it.  So a match recorded during a walk is fired at
the dead transition that ends the walk or discarded by `full_reset`, at most once, and
the next walk starts without it.  The tables made by the conversion loop never have
row 0 as a next state.  With `hi|hi2`: `hi hi ` fires the first callback twice, once
per walk, and `hi`, `full_reset`, space fires nothing. -/
theorem start_state_has_no_recorded_match (t : string_matcher_table)
    (h : ∀ r c, (t.data r c).next_state_ptr ≠ some 0) (calls : List cursor_call) :
    ((run_calls t fresh_cursor calls).state = 0 →
      (run_calls t fresh_cursor calls).callback_ptr_at_last_match = none) ∧
    (∀ (cur : cursor) (b : Nat), (match_character t cur b).2.invoked ≠ [] →
      (t.data cur.state (b % 256)).next_state_ptr = none) ∧
    (∀ (cur : cursor) (b : Nat), (t.data cur.state (b % 256)).next_state_ptr = none →
      (match_character t cur b).1.state = 0 ∧
      (match_character t cur b).1.callback_ptr_at_last_match = none ∧
      (match_character t cur b).2.invoked.length ≤ 1 ∧
      (match_character t cur b).2 =
        match (t.data cur.state (b % 256)).callback with
        | some k => ⟨true, [(k, cur.input_stream_position)]⟩
        | none =>
          match cur.callback_ptr_at_last_match with
          | some f => ⟨true, [(f, cur.input_stream_position_at_last_match)]⟩
          | none => ⟨false, []⟩) ∧
    (∀ (cur : cursor) (b next : Nat),
      (t.data cur.state (b % 256)).next_state_ptr = some next →
      (match_character t cur b).2 = ⟨false, []⟩ ∧
      (match_character t cur b).1.state = next ∧
      (match_character t cur b).1.callback_ptr_at_last_match =
        (match (t.data cur.state (b % 256)).callback with
          | some k => some k
          | none => cur.callback_ptr_at_last_match) ∧
      (match_character t cur b).1.input_stream_position_at_last_match =
        (match (t.data cur.state (b % 256)).callback with
          | some _ => cur.input_stream_position
          | none => cur.input_stream_position_at_last_match)) ∧
    (∀ (cur : cursor) (bytes : List Nat), (full_reset cur).state = 0 ∧
      (full_reset cur).callback_ptr_at_last_match = none ∧
      (feed t (full_reset cur) bytes).2 = (feed t fresh_cursor bytes).2) ∧
    (∀ (t0 : index_table) (r c : Nat),
      ((to_string_matcher t0).data r c).next_state_ptr ≠ some 0) ∧
    (feed (string_matcher_of [104, 105, 124, 104, 105, 50] 2) fresh_cursor
      [104, 105, 32, 104, 105, 32]).2 =
      [⟨false, []⟩, ⟨false, []⟩, ⟨true, [(0, 1)]⟩,
        ⟨false, []⟩, ⟨false, []⟩, ⟨true, [(0, 4)]⟩] ∧
    (feed (string_matcher_of [104, 105, 124, 104, 105, 50] 2) fresh_cursor
      [104, 105]).1.callback_ptr_at_last_match = some 0 ∧
    (feed (string_matcher_of [104, 105, 124, 104, 105, 50] 2)
      (full_reset (feed (string_matcher_of [104, 105, 124, 104, 105, 50] 2) fresh_cursor
        [104, 105]).1) [32]).2 = [⟨false, []⟩] := by
  refine ⟨run_calls_start_state t h calls fresh_cursor (fun _ => rfl), ?_, ?_, ?_, ?_,
    to_string_matcher_no_zero_target, by decide!, by decide!, by decide!⟩
  · intro cur b
    cases h1 : (t.data cur.state (b % 256)).callback <;>
      cases h2 : (t.data cur.state (b % 256)).next_state_ptr <;>
      cases h3 : cur.callback_ptr_at_last_match <;>
      simp [match_character, h1, h2, h3]
  · intro cur b h2
    cases h1 : (t.data cur.state (b % 256)).callback <;>
      cases h3 : cur.callback_ptr_at_last_match <;>
      simp [match_character, h1, h2, h3]
  · intro cur b next h2
    cases h1 : (t.data cur.state (b % 256)).callback <;>
      simp [match_character, h1, h2]
  · intro cur bytes
    refine ⟨rfl, rfl, feed_same_members t bytes _ _ ?_⟩
    simp [same_members, full_reset, fresh_cursor]

theorem start_state_has_no_recorded_match_witness :
    (∀ r c, ((string_matcher_of harness_spec 15).data r c).next_state_ptr ≠ some 0) ∧
    (((run_calls (string_matcher_of harness_spec 15) fresh_cursor
        [.match_character 104, .match_character 105, .match_character 32,
        .match_character 104, .full_reset]).state = 0 →
      (run_calls (string_matcher_of harness_spec 15) fresh_cursor
        [.match_character 104, .match_character 105, .match_character 32,
        .match_character 104, .full_reset]).callback_ptr_at_last_match = none) ∧
    (∀ (cur : cursor) (b : Nat),
        (match_character (string_matcher_of harness_spec 15) cur b).2.invoked ≠ [] →
      ((string_matcher_of harness_spec 15).data cur.state (b % 256)).next_state_ptr = none) ∧
    (∀ (cur : cursor) (b : Nat),
        ((string_matcher_of harness_spec 15).data cur.state (b % 256)).next_state_ptr = none →
      (match_character (string_matcher_of harness_spec 15) cur b).1.state = 0 ∧
      (match_character (string_matcher_of harness_spec 15) cur b).1.callback_ptr_at_last_match = none ∧
      (match_character (string_matcher_of harness_spec 15) cur b).2.invoked.length ≤ 1 ∧
      (match_character (string_matcher_of harness_spec 15) cur b).2 =
        match ((string_matcher_of harness_spec 15).data cur.state (b % 256)).callback with
        | some k => ⟨true, [(k, cur.input_stream_position)]⟩
        | none =>
          match cur.callback_ptr_at_last_match with
          | some f => ⟨true, [(f, cur.input_stream_position_at_last_match)]⟩
          | none => ⟨false, []⟩) ∧
    (∀ (cur : cursor) (b next : Nat),
      ((string_matcher_of harness_spec 15).data cur.state (b % 256)).next_state_ptr = some next →
      (match_character (string_matcher_of harness_spec 15) cur b).2 = ⟨false, []⟩ ∧
      (match_character (string_matcher_of harness_spec 15) cur b).1.state = next ∧
      (match_character (string_matcher_of harness_spec 15) cur b).1.callback_ptr_at_last_match =
        (match ((string_matcher_of harness_spec 15).data cur.state (b % 256)).callback with
          | some k => some k
          | none => cur.callback_ptr_at_last_match) ∧
      (match_character (string_matcher_of harness_spec 15) cur b).1.input_stream_position_at_last_match =
        (match ((string_matcher_of harness_spec 15).data cur.state (b % 256)).callback with
          | some _ => cur.input_stream_position
          | none => cur.input_stream_position_at_last_match)) ∧
    (∀ (cur : cursor) (bytes : List Nat), (full_reset cur).state = 0 ∧
      (full_reset cur).callback_ptr_at_last_match = none ∧
      (feed (string_matcher_of harness_spec 15) (full_reset cur) bytes).2 =
        (feed (string_matcher_of harness_spec 15) fresh_cursor bytes).2) ∧
    (∀ (t0 : index_table) (r c : Nat),
      ((to_string_matcher t0).data r c).next_state_ptr ≠ some 0) ∧
    (feed (string_matcher_of [104, 105, 124, 104, 105, 50] 2) fresh_cursor
      [104, 105, 32, 104, 105, 32]).2 =
      [⟨false, []⟩, ⟨false, []⟩, ⟨true, [(0, 1)]⟩,
        ⟨false, []⟩, ⟨false, []⟩, ⟨true, [(0, 4)]⟩] ∧
    (feed (string_matcher_of [104, 105, 124, 104, 105, 50] 2) fresh_cursor
      [104, 105]).1.callback_ptr_at_last_match = some 0 ∧
    (feed (string_matcher_of [104, 105, 124, 104, 105, 50] 2)
      (full_reset (feed (string_matcher_of [104, 105, 124, 104, 105, 50] 2) fresh_cursor
        [104, 105]).1) [32]).2 = [⟨false, []⟩]) :=
  ⟨string_matcher_of_no_zero_target _ _,
    start_state_has_no_recorded_match _ (string_matcher_of_no_zero_target _ _) _⟩

theorem compile_finish_table_row (tl cb : Nat) (st st1 : compile_state)
    (h : compile_finish tl cb st = .ok st1) : st1.table_row = st.table_row := by
  obtain ⟨row, f, _, h1 | h1⟩ := compile_finish_eq tl cb st st1 h
  · rw [h1.2.2]
  · rw [h1.2.2]

theorem default_step_table_row (tl cb : Nat) (c : Nat) (rest2 : List Nat) (k : Nat)
    (ih : ∀ (m : Bool) (st st2 : compile_state), compile_loops tl cb m st rest2 = .ok st2 →
      st2.table_row ≤ st.table_row + k ∧ (m = false → (alternatives rest2).length = 1 →
        st2.table_row = st.table_row + k)) :
    ∀ (m : Bool) (st st2 : compile_state),
      (match m with
        | false =>
          match chain_default tl st c with
          | .ok st1 => compile_loops tl cb false st1 rest2
          | .error e => .error e
        | true =>
          match merge_default tl st c with
          | .ok (st1, spliced) => compile_loops tl cb (!spliced) st1 rest2
          | .error e => .error e) = .ok st2 →
      st2.table_row ≤ st.table_row + (k + 1) ∧ (m = false → (alternatives rest2).length = 1 →
        st2.table_row = st.table_row + (k + 1)) := by
  intro m st st2 h
  cases m with
  | false =>
    simp only at h
    cases h1 : chain_default tl st c with
    | error e => rw [h1] at h; cases h
    | ok st1 =>
      rw [h1] at h
      have htr := (chain_default_effect tl st st1 c h1).2.1
      obtain ⟨e1, e2⟩ := ih false st1 st2 h
      refine ⟨by omega, fun _ hlen => ?_⟩
      have := e2 rfl hlen
      omega
  | true =>
    simp only at h
    cases h1 : merge_default tl st c with
    | error e => rw [h1] at h; cases h
    | ok p =>
      rw [h1] at h
      have htr := (merge_default_effect tl st p.1 c p.2 h1).2.1
      obtain ⟨e1, _⟩ := ih (!p.2) p.1 st2 h
      refine ⟨by omega, fun hm => ?_⟩
      cases hm

/-- On a spec that `calculate_table_length` accepts, the loops raise `table_row` by at
most the number of literal positions, and by exactly that number when the
chain-building loop handles a spec of one alternative. -/
theorem compile_loops_table_row (tl cb : Nat) (rest : List Nat) (r : Nat) :
    ∀ (n0 : Nat), calculate_table_length_loop rest r = .ok n0 →
    ∀ (m : Bool) (st st2 : compile_state), compile_loops tl cb m st rest = .ok st2 →
      st2.table_row ≤ st.table_row + literal_positions rest ∧
      (m = false → (alternatives rest).length = 1 →
        st2.table_row = st.table_row + literal_positions rest) := by
  induction rest, r using calculate_table_length_loop.induct with
  | case1 r =>
    intro n0 _ m st st2 h
    rw [compile_loops_nil] at h
    cases h
    rw [literal_positions_nil]
    exact ⟨le_refl _, fun _ _ => rfl⟩
  | case2 c rest r hc =>
    intro n0 h
    rw [calculate_table_length_loop.eq_def] at h; simp [hc] at h
  | case3 rest r _ ih =>
    intro n0 h m st st2 hl
    rw [calculate_table_length_loop.eq_def] at h
    simp only [gt_iff_lt, Nat.reduceLT, if_false, if_true] at h
    rw [literal_positions_pipe]
    rw [compile_loops_pipe] at hl
    refine ⟨?_, fun _ hlen => ?_⟩
    · cases m with
      | false =>
        simp only at hl
        cases h1 : chain_pipe tl cb st with
        | error e => rw [h1] at hl; cases hl
        | ok st1 =>
          rw [h1] at hl
          have htr := (chain_pipe_effect tl cb st st1 h1).2.1
          have := (ih n0 h true st1 st2 hl).1
          omega
      | true =>
        simp only at hl
        cases h1 : merge_pipe tl cb st with
        | error e => rw [h1] at hl; cases hl
        | ok st1 =>
          rw [h1] at hl
          have htr := (merge_pipe_effect tl cb st st1 h1).2.1
          have := (ih n0 h true st1 st2 hl).1
          omega
    · rw [alternatives_pipe] at hlen
      have := alternatives_length_pos rest
      simp only [List.length_cons] at hlen
      omega
  | case4 r _ _ =>
    intro n0 h
    rw [calculate_table_length_loop.eq_def] at h; simp at h
  | case5 r d rest2 hd _ _ =>
    intro n0 h
    rw [calculate_table_length_loop.eq_def] at h; simp [hd] at h
  | case6 r d rest2 hd hd2 _ _ ih =>
    intro n0 h m st st2 hl
    rw [calculate_table_length_loop.eq_def] at h
    simp [hd, hd2] at h
    rw [literal_positions_escape _ _ hd2, alternatives_escape,
      push_byte_length _ _ (alternatives_ne_nil rest2)]
    rw [compile_loops_escape _ _ _ _ _ _ hd] at hl
    exact default_step_table_row tl cb d rest2 _ (ih n0 h) m st st2 hl
  | case7 r d rest2 hd hd2 _ _ =>
    intro n0 h
    rw [calculate_table_length_loop.eq_def] at h; simp [hd, hd2] at h
  | case8 c rest r h1 h2 h3 ih =>
    intro n0 h m st st2 hl
    rw [calculate_table_length_loop.eq_def] at h
    simp [h1, h2, h3] at h
    rw [literal_positions_literal _ _ h2 h3, alternatives_literal _ _ h2 h3,
      push_byte_length _ _ (alternatives_ne_nil rest)]
    rw [compile_loops_literal _ _ _ _ _ _ h1 h2 h3] at hl
    exact default_step_table_row tl cb c rest _ (ih n0 h) m st st2 hl

/-- C23 as stated fails: `hi|hi2` compiles, `calculate_table_length` gives 5 for it and
the number of rows reported as used is 3; the second alternative shares the rows of
`hi` and adds one row for the cell of `2`. -/
theorem fresh_chain_per_alternative_counterexample :
    calculate_table_length [104, 105, 124, 104, 105, 50] = .ok 5 ∧
    (create_string_matcher_with_indices [104, 105, 124, 104, 105, 50] 2).isOk = true ∧
    (returned_table (create_string_matcher_with_indices [104, 105, 124, 104, 105, 50] 2)).second
      = 3 ∧
    (returned_table (create_string_matcher_with_indices [104, 105, 124, 104, 105, 50] 2)).second
      ≠ 5 ∧
    (returned_table (create_string_matcher_with_indices [104, 105] 1)).second = 2 := by
  refine ⟨rfl, ?_, ?_, ?_, ?_⟩ <;> decide!

/-- C23 as amended. Only a literal byte handled by the chain-building loop allocates a
row: its default case raises `table_row` by exactly one, while the merge loop, whether
it follows an existing next state or splices in a missing one, both pipe cases and the
end handling leave `table_row` as it is.  So for every well-formed spec that compiles
the number of rows reported as used is at most `calculate_table_length` of the spec,
and equal to it when the spec is a single alternative. -/
theorem rows_allocated_by_chain_loop_only (meta_matcher_spec : List Nat) (n : Nat)
    (hwf : calculate_table_length meta_matcher_spec = .ok n) (table_length callbacks : Nat)
    (t : index_table)
    (h : compile_to_table table_length meta_matcher_spec callbacks = .ok t) :
    t.second ≤ n ∧
    ((alternatives meta_matcher_spec).length = 1 → t.second = n) ∧
    (∀ (st st1 : compile_state) (c : Nat), chain_default table_length st c = .ok st1 →
      st1.table_row = st.table_row + 1) ∧
    (∀ (st st1 : compile_state) (c : Nat) (spliced : Bool),
      merge_default table_length st c = .ok (st1, spliced) → st1.table_row = st.table_row) ∧
    (∀ (st st1 : compile_state), chain_pipe table_length callbacks st = .ok st1 →
      st1.table_row = st.table_row) ∧
    (∀ (st st1 : compile_state), merge_pipe table_length callbacks st = .ok st1 →
      st1.table_row = st.table_row) ∧
    (∀ (st st1 : compile_state), compile_finish table_length callbacks st = .ok st1 →
      st1.table_row = st.table_row) := by
  obtain ⟨st, st1, h1, h2, rfl⟩ := compile_to_table_eq _ _ _ t h
  have hlit := (calculate_table_length_loop_counts meta_matcher_spec 0 n hwf).1
  obtain ⟨e1, e2⟩ := compile_loops_table_row table_length callbacks meta_matcher_spec 0 n hwf
    false compile_init st h1
  have hfin := compile_finish_table_row _ _ _ _ h2
  have h0 : compile_init.table_row = 0 := rfl
  refine ⟨?_, ?_, ?_, ?_, ?_, ?_, ?_⟩
  · show st1.table_row ≤ n
    omega
  · intro hlen
    show st1.table_row = n
    have := e2 rfl hlen
    omega
  · intro s s1 c hs; exact (chain_default_effect _ _ _ _ hs).2.1
  · intro s s1 c sp hs; exact (merge_default_effect _ _ _ _ _ hs).2.1
  · intro s s1 hs; exact (chain_pipe_effect _ _ _ _ hs).2.1
  · intro s s1 hs; exact (merge_pipe_effect _ _ _ _ hs).2.1
  · intro s s1 hs; exact compile_finish_table_row _ _ _ _ hs

theorem rows_allocated_by_chain_loop_only_witness :
    calculate_table_length [104, 105, 124, 104, 105, 50] = .ok 5 ∧
    compile_to_table 5 [104, 105, 124, 104, 105, 50] 2 =
      .ok (returned_table (compile_to_table 5 [104, 105, 124, 104, 105, 50] 2)) ∧
    (returned_table (compile_to_table 5 [104, 105, 124, 104, 105, 50] 2)).second = 3 ∧
    ((returned_table (compile_to_table 5 [104, 105, 124, 104, 105, 50] 2)).second ≤ 5 ∧
    ((alternatives [104, 105, 124, 104, 105, 50]).length = 1 →
      (returned_table (compile_to_table 5 [104, 105, 124, 104, 105, 50] 2)).second = 5) ∧
    (∀ (st st1 : compile_state) (c : Nat), chain_default 5 st c = .ok st1 →
      st1.table_row = st.table_row + 1) ∧
    (∀ (st st1 : compile_state) (c : Nat) (spliced : Bool),
      merge_default 5 st c = .ok (st1, spliced) → st1.table_row = st.table_row) ∧
    (∀ (st st1 : compile_state), chain_pipe 5 2 st = .ok st1 →
      st1.table_row = st.table_row) ∧
    (∀ (st st1 : compile_state), merge_pipe 5 2 st = .ok st1 →
      st1.table_row = st.table_row) ∧
    (∀ (st st1 : compile_state), compile_finish 5 2 st = .ok st1 →
      st1.table_row = st.table_row)) :=
  ⟨rfl, returned_table_ok _ (by decide!), by decide!,
    rows_allocated_by_chain_loop_only [104, 105, 124, 104, 105, 50] 5 rfl 5 2 _
      (returned_table_ok _ (by decide!))⟩

theorem mem_proper_prefixes (alts : List (List Nat)) (u : List Nat) :
    u ∈ proper_prefixes alts ↔
      ∃ (j : Nat) (v : List Nat), v ≠ [] ∧ alts[j]? = some (u ++ v) := by
  unfold proper_prefixes
  simp only [List.mem_dedup, List.mem_flatten, List.mem_map, exists_exists_and_eq_and,
    List.mem_filter, List.mem_inits, decide_eq_true_eq]
  constructor
  · rintro ⟨a, ha, ⟨v, rfl⟩, hlen⟩
    obtain ⟨j, hj⟩ := List.getElem?_of_mem ha
    refine ⟨j, v, ?_, hj⟩
    rintro rfl
    simp at hlen
  · rintro ⟨j, v, hv, hj⟩
    refine ⟨u ++ v, List.getElem?_mem hj, ⟨v, rfl⟩, ?_⟩
    have : 0 < v.length := List.length_pos.2 hv
    simp; omega

/-- The rows in use are named by the proper prefixes of the alternatives, one row per
prefix. -/
theorem trie_rows_are_proper_prefixes (alts : List (List Nat)) (R : Nat)
    (name : Nat → List Nat) (data : index_rows)
    (ht : trie_inv alts alts.length R name data R) (h0 : 0 < R)
    (hne : ∀ a ∈ alts, a ≠ []) (hlen : 0 < alts.length) :
    R = (proper_prefixes alts).length := by
  have hnd : ((List.range R).map name).Nodup := by
    refine List.Nodup.map_on ?_ (List.nodup_range R)
    intro x hx y hy hxy
    exact ht.name_inj x y (List.mem_range.1 hx) (List.mem_range.1 hy) hxy
  have hperm : ((List.range R).map name).Perm (proper_prefixes alts) := by
    refine (List.perm_ext_iff_of_nodup hnd (List.nodup_dedup _)).2 ?_
    intro u
    show u ∈ List.map name (List.range R) ↔ u ∈ proper_prefixes alts
    rw [mem_proper_prefixes]
    simp only [List.mem_map, List.mem_range]
    constructor
    · rintro ⟨s, hs, rfl⟩
      rcases Nat.eq_zero_or_pos s with hs0 | hs0
      · subst hs0
        rw [ht.name_zero]
        have ha : alts[0]? = some (alts.get ⟨0, hlen⟩) := List.getElem?_eq_getElem hlen
        refine ⟨0, alts.get ⟨0, hlen⟩, hne _ (List.getElem?_mem ha), by simp⟩
      · obtain ⟨p, c, hp⟩ := ht.parent s hs0 hs
        have hn : (data p c).next_state ≠ 0 := by omega
        obtain ⟨_, _, h3⟩ := ht.edge p c hn
        obtain ⟨j, v, hv, hj⟩ := ht.used p c hn (by omega)
        rw [hp] at h3
        exact ⟨j, v, hv, by rw [hj, h3]; simp⟩
    · rintro ⟨j, v, hv, hj⟩
      obtain ⟨v2, x, rfl⟩ : ∃ v2 x, v = v2 ++ [x] :=
        ⟨v.dropLast, v.getLast hv, (List.dropLast_append_getLast hv).symm⟩
      have hj2 : alts[j]? = some ((u ++ v2) ++ [x]) := by rw [hj]; simp
      obtain ⟨s2, k, hw2, _⟩ :=
        trie_callback_complete alts R R name data ht (le_refl _) _ x j hj2
      rw [walk_append] at hw2
      cases hw : walk data 0 u with
      | none => rw [hw] at hw2; simp at hw2
      | some s =>
        obtain ⟨hs, hname⟩ := trie_walk_name alts _ R R name data ht u 0 s h0 hw
        rw [ht.name_zero, List.nil_append] at hname
        exact ⟨s, hs, hname⟩
  have := hperm.length_eq
  simpa using this

/-- C25. The table has no unreachable rows: for a well-formed spec without empty
alternatives the build returns a table, the number of rows it reports as used is the
number of distinct proper prefixes of the alternatives (the empty prefix included), and
every row below that number is reached from row 0 by following next states.  It is 3
for `hi|hi2` and 5 for `hi|hi2|hi3|hi33|hi44`. -/
theorem used_rows_are_proper_prefixes (meta_matcher_spec : List Nat) (n : Nat)
    (hwf : calculate_table_length meta_matcher_spec = .ok n)
    (hne : ∀ a ∈ alternatives meta_matcher_spec, a ≠ []) :
    (∃ t, compile_to_table n meta_matcher_spec (alternatives meta_matcher_spec).length = .ok t ∧
      t.second = (proper_prefixes (alternatives meta_matcher_spec)).length ∧
      (∀ s, s < t.second → ∃ u, walk t.data 0 u = some s) ∧
      (∀ s, s < t.second → ∃ u, u ∈ proper_prefixes (alternatives meta_matcher_spec) ∧
        walk t.data 0 u = some s) ∧
      (∀ u, u ∈ proper_prefixes (alternatives meta_matcher_spec) →
        ∃ s, s < t.second ∧ walk t.data 0 u = some s)) ∧
    (proper_prefixes (alternatives [104, 105, 124, 104, 105, 50])).length = 3 ∧
    (returned_table (create_string_matcher_with_indices [104, 105, 124, 104, 105, 50] 2)).second
      = 3 ∧
    (proper_prefixes (alternatives [104, 105, 124, 104, 105, 50, 124, 104, 105, 51, 124,
      104, 105, 51, 51, 124, 104, 105, 52, 52])).length = 5 ∧
    (returned_table (create_string_matcher_with_indices [104, 105, 124, 104, 105, 50, 124,
      104, 105, 51, 124, 104, 105, 51, 51, 124, 104, 105, 52, 52] 5)).second = 5 := by
  refine ⟨?_, by decide!, by decide!, by decide!, by decide!⟩
  obtain ⟨t, name, hc, _, _, ht⟩ := compile_to_table_trie meta_matcher_spec n hwf hne
  have h0 := trie_rows_pos _ _ _ _ _ _ ht (alternatives_length_pos _)
    (first_alternative_ne_nil _ hne)
  have hcount := trie_rows_are_proper_prefixes _ _ name t.data ht h0 hne
    (alternatives_length_pos _)
  refine ⟨t, hc, hcount, ?_, ?_, ?_⟩
  · intro s hs
    exact ⟨name s, trie_reach _ _ _ _ name t.data ht _ s rfl hs⟩
  · intro s hs
    refine ⟨name s, ?_, trie_reach _ _ _ _ name t.data ht _ s rfl hs⟩
    rw [mem_proper_prefixes]
    rcases Nat.eq_zero_or_pos s with hs0 | hs0
    · subst hs0
      rw [ht.name_zero]
      have hlen := alternatives_length_pos meta_matcher_spec
      have ha : (alternatives meta_matcher_spec)[0]? =
          some ((alternatives meta_matcher_spec).get ⟨0, hlen⟩) := List.getElem?_eq_getElem hlen
      exact ⟨0, _, hne _ (List.getElem?_mem ha), by simp⟩
    · obtain ⟨p, c, hp⟩ := ht.parent s hs0 hs
      have hn : (t.data p c).next_state ≠ 0 := by omega
      obtain ⟨_, _, h3⟩ := ht.edge p c hn
      obtain ⟨j, v, hv, hj⟩ := ht.used p c hn (by omega)
      rw [hp] at h3
      exact ⟨j, v, hv, by rw [hj, h3]; simp⟩
  · intro u hu
    rw [mem_proper_prefixes] at hu
    obtain ⟨j, v, hv, hj⟩ := hu
    obtain ⟨v2, x, rfl⟩ : ∃ v2 x, v = v2 ++ [x] :=
      ⟨v.dropLast, v.getLast hv, (List.dropLast_append_getLast hv).symm⟩
    have hj2 : (alternatives meta_matcher_spec)[j]? = some ((u ++ v2) ++ [x]) := by
      rw [hj]; simp
    obtain ⟨s2, k, hw2, _⟩ :=
      trie_callback_complete _ _ _ name t.data ht (le_refl _) _ x j hj2
    rw [walk_append] at hw2
    cases hw : walk t.data 0 u with
    | none => rw [hw] at hw2; simp at hw2
    | some s =>
      obtain ⟨hs, _⟩ := trie_walk_name _ _ _ _ name t.data ht u 0 s h0 hw
      exact ⟨s, hs, rfl⟩

theorem used_rows_are_proper_prefixes_witness :
    (calculate_table_length [104, 105, 124, 104, 105, 50] = .ok 5 ∧
      ∀ a ∈ alternatives [104, 105, 124, 104, 105, 50], a ≠ []) ∧
    ((∃ t, compile_to_table 5 [104, 105, 124, 104, 105, 50]
        (alternatives [104, 105, 124, 104, 105, 50]).length = .ok t ∧
      t.second = (proper_prefixes (alternatives [104, 105, 124, 104, 105, 50])).length ∧
      (∀ s, s < t.second → ∃ u, walk t.data 0 u = some s) ∧
      (∀ s, s < t.second → ∃ u, u ∈ proper_prefixes (alternatives [104, 105, 124, 104, 105, 50]) ∧
        walk t.data 0 u = some s) ∧
      (∀ u, u ∈ proper_prefixes (alternatives [104, 105, 124, 104, 105, 50]) →
        ∃ s, s < t.second ∧ walk t.data 0 u = some s)) ∧
    (proper_prefixes (alternatives [104, 105, 124, 104, 105, 50])).length = 3 ∧
    (returned_table (create_string_matcher_with_indices [104, 105, 124, 104, 105, 50] 2)).second
      = 3 ∧
    (proper_prefixes (alternatives [104, 105, 124, 104, 105, 50, 124, 104, 105, 51, 124,
      104, 105, 51, 51, 124, 104, 105, 52, 52])).length = 5 ∧
    (returned_table (create_string_matcher_with_indices [104, 105, 124, 104, 105, 50, 124,
      104, 105, 51, 124, 104, 105, 51, 51, 124, 104, 105, 52, 52] 5)).second = 5) :=
  ⟨⟨rfl, by decide⟩,
    used_rows_are_proper_prefixes [104, 105, 124, 104, 105, 50] 5 rfl (by decide)⟩

theorem mem_push_byte (c : Nat) (l : List (List Nat)) (a : List Nat) (b : Nat)
    (ha : a ∈ push_byte c l) (hb : b ∈ a) : b = c ∨ ∃ a0 ∈ l, b ∈ a0 := by
  cases l with
  | nil =>
    simp only [push_byte, List.mem_singleton] at ha
    subst ha
    simp only [List.mem_singleton] at hb
    exact Or.inl hb
  | cons a1 as =>
    simp only [push_byte, List.mem_cons] at ha
    rcases ha with rfl | ha
    · simp only [List.mem_cons] at hb
      rcases hb with hb | hb
      · exact Or.inl hb
      · exact Or.inr ⟨a1, by simp, hb⟩
    · exact Or.inr ⟨a, by simp [ha], hb⟩

/-- The alternatives of a spec that `calculate_table_length` accepts are made of bytes
below 128. -/
theorem alternatives_bytes (l : List Nat) (r : Nat) :
    ∀ n0 : Nat, calculate_table_length_loop l r = .ok n0 →
      ∀ a ∈ alternatives l, ∀ b ∈ a, b ≤ 127 := by
  induction l, r using calculate_table_length_loop.induct with
  | case1 r =>
    intro n0 _ a ha b hb
    rw [alternatives_nil] at ha
    simp only [List.mem_singleton] at ha
    subst ha
    cases hb
  | case2 c rest r hc =>
    intro n0 h
    rw [calculate_table_length_loop.eq_def] at h; simp [hc] at h
  | case3 rest r _ ih =>
    intro n0 h a ha b hb
    rw [calculate_table_length_loop.eq_def] at h
    simp only [gt_iff_lt, Nat.reduceLT, if_false, if_true] at h
    rw [alternatives_pipe] at ha
    simp only [List.mem_cons] at ha
    rcases ha with rfl | ha
    · cases hb
    · exact ih n0 h a ha b hb
  | case4 r _ _ =>
    intro n0 h
    rw [calculate_table_length_loop.eq_def] at h; simp at h
  | case5 r d rest2 hd _ _ =>
    intro n0 h
    rw [calculate_table_length_loop.eq_def] at h; simp [hd] at h
  | case6 r d rest2 hd hd2 _ _ ih =>
    intro n0 h a ha b hb
    rw [calculate_table_length_loop.eq_def] at h
    simp [hd, hd2] at h
    rw [alternatives_escape] at ha
    rcases mem_push_byte _ _ _ _ ha hb with rfl | ⟨a0, ha0, hb0⟩
    · omega
    · exact ih n0 h a0 ha0 b hb0
  | case7 r d rest2 hd hd2 _ _ =>
    intro n0 h
    rw [calculate_table_length_loop.eq_def] at h; simp [hd, hd2] at h
  | case8 c rest r h1 h2 h3 ih =>
    intro n0 h a ha b hb
    rw [calculate_table_length_loop.eq_def] at h
    simp [h1, h2, h3] at h
    rw [alternatives_literal _ _ h2 h3] at ha
    rcases mem_push_byte _ _ _ _ ha hb with rfl | ⟨a0, ha0, hb0⟩
    · omega
    · exact ih n0 h a0 ha0 b hb0

theorem without_column_255_set (data : index_rows) (r c : Nat)
    (e : string_matcher_with_indices_table_element_t) (hc : c ≠ 255) :
    without_column_255 (set_element data r c e) =
      set_element (without_column_255 data) r c e := by
  funext r0 c0
  by_cases h1 : c0 = 255
  · have h2 : ¬ (r0 = r ∧ c0 = c) := by omega
    show (if c0 = 255 then zero_element else set_element data r c e r0 c0) =
      set_element (without_column_255 data) r c e r0 c0
    rw [if_pos h1, set_element_other _ _ _ _ _ _ h2]
    show zero_element = if c0 = 255 then zero_element else data r0 c0
    rw [if_pos h1]
  · show (if c0 = 255 then zero_element else set_element data r c e r0 c0) =
      set_element (without_column_255 data) r c e r0 c0
    rw [if_neg h1]
    by_cases h2 : r0 = r ∧ c0 = c
    · rcases h2 with ⟨rfl, rfl⟩
      rw [set_element_same, set_element_same]
    · rw [set_element_other _ _ _ _ _ _ h2, set_element_other _ _ _ _ _ _ h2]
      show data r0 c0 = if c0 = 255 then zero_element else data r0 c0
      rw [if_neg h1]

theorem without_column_255_set_255 (data : index_rows) (r : Nat)
    (e : string_matcher_with_indices_table_element_t) :
    without_column_255 (set_element data r 255 e) = without_column_255 data := by
  funext r0 c0
  by_cases h1 : c0 = 255
  · simp [without_column_255, h1]
  · have h2 : ¬ (r0 = r ∧ c0 = 255) := by omega
    simp [without_column_255, set_element, h1, h2]

theorem without_column_255_apply (data : index_rows) (r c : Nat) (hc : c ≠ 255) :
    without_column_255 data r c = data r c := by
  unfold without_column_255
  rw [if_neg hc]

/-- The exact effect of the pipe case of the chain-building loop: the cell of the last
byte gets `{ 0, callback }` with the callback of the alternative that ends here. -/
theorem chain_pipe_exact (tl cb : Nat) (st st1 : compile_state)
    (h : chain_pipe tl cb st = .ok st1) :
    ∃ row, st.last_table_row = some row ∧ row < tl ∧ st.string_index < cb ∧
      st1 = { st with data := set_element st.data row st.character ⟨0, some st.string_index⟩
                      character := 255
                      string_index := st.string_index + 1 } := by
  unfold chain_pipe at h
  simp only [differs_from_minus_one_true, if_true] at h
  cases hl : st.last_table_row with
  | none => rw [hl] at h; simp [row_index] at h
  | some row =>
    rw [hl] at h
    by_cases hlt : row < tl
    · by_cases hi : st.string_index < cb
      · simp only [row_index, func_ptr, hlt, hi, if_true, Except.ok.injEq] at h
        exact ⟨row, rfl, hlt, hi, h.symm⟩
      · simp [row_index, func_ptr, hlt, hi] at h
    · simp [row_index, hlt] at h

/-- The exact effect of the pipe case of the merge loop: the cell of the last byte gets
the callback of the alternative that ends here and keeps its next state, and the next
alternative starts at row 0. -/
theorem merge_pipe_exact (tl cb : Nat) (st st1 : compile_state)
    (h : merge_pipe tl cb st = .ok st1) :
    ∃ row, st.last_merge_row = some row ∧ row < tl ∧ st.string_index < cb ∧
      st1 = { st with data := set_element st.data row st.character
                                ⟨(st.data row st.character).next_state, some st.string_index⟩
                      character := 255
                      string_index := st.string_index + 1
                      merge_row_current := 0 } := by
  unfold merge_pipe at h
  simp only [differs_from_minus_one_true, if_true] at h
  cases hl : st.last_merge_row with
  | none => rw [hl] at h; simp [row_index] at h
  | some row =>
    rw [hl] at h
    by_cases hlt : row < tl
    · by_cases hi : st.string_index < cb
      · simp only [row_index, func_ptr, hlt, hi, if_true, Except.ok.injEq] at h
        exact ⟨row, rfl, hlt, hi, h.symm⟩
      · simp [row_index, func_ptr, hlt, hi] at h
    · simp [row_index, hlt] at h

/-- The exact effect of the end handling (lines 481-489). -/
theorem compile_finish_exact (tl cb : Nat) (st st1 : compile_state)
    (h : compile_finish tl cb st = .ok st1) :
    ∃ row, row < tl ∧ st.string_index < cb ∧
      ((st.merge_row_current ≠ 0 ∧ st.last_merge_row = some row ∧
        st1 = { st with data := set_element st.data row st.character
                                  ⟨(st.data row st.character).next_state,
                                    some st.string_index⟩
                        string_index := st.string_index + 1 }) ∨
       (st.merge_row_current = 0 ∧ st.last_table_row = some row ∧
        st1 = { st with data := set_element st.data row st.character
                                  ⟨0, some st.string_index⟩
                        string_index := st.string_index + 1 })) := by
  unfold compile_finish at h
  simp only [differs_from_minus_one_true, if_true] at h
  by_cases hm : st.merge_row_current ≠ 0
  · rw [if_pos hm] at h
    cases hl : st.last_merge_row with
    | none => rw [hl] at h; simp [row_index] at h
    | some row =>
      rw [hl] at h
      by_cases hlt : row < tl
      · by_cases hi : st.string_index < cb
        · simp only [row_index, func_ptr, hlt, hi, if_true, Except.ok.injEq] at h
          exact ⟨row, hlt, hi, Or.inl ⟨hm, rfl, h.symm⟩⟩
        · simp [row_index, func_ptr, hlt, hi] at h
      · simp [row_index, hlt] at h
  · rw [if_neg hm] at h
    cases hl : st.last_table_row with
    | none => rw [hl] at h; simp [row_index] at h
    | some row =>
      rw [hl] at h
      by_cases hlt : row < tl
      · by_cases hi : st.string_index < cb
        · simp only [row_index, func_ptr, hlt, hi, if_true, Except.ok.injEq] at h
          exact ⟨row, hlt, hi, Or.inr ⟨not_not.1 hm, rfl, h.symm⟩⟩
        · simp [row_index, func_ptr, hlt, hi] at h
      · simp [row_index, hlt] at h

/-- Two runs of the default case of the chain-building loop, one on the table and one
on the table without column 255, end in the same state up to column 255. -/
theorem chain_default_without (tl tl2 : Nat) (st st1 est1 : compile_state) (c : Nat)
    (hc : c ≠ 255) (h : chain_default tl st c = .ok st1)
    (h2 : chain_default tl2 (state_without_column_255 st) c = .ok est1) :
    est1 = state_without_column_255 st1 := by
  obtain ⟨_, rfl⟩ := chain_default_eq tl st st1 c h
  obtain ⟨_, rfl⟩ := chain_default_eq tl2 _ est1 c h2
  simp only [state_without_column_255, without_column_255_set _ _ _ _ hc]

theorem merge_default_without (tl tl2 : Nat) (st st1 est1 : compile_state) (c : Nat)
    (spliced spliced2 : Bool) (hc : c ≠ 255)
    (h : merge_default tl st c = .ok (st1, spliced))
    (h2 : merge_default tl2 (state_without_column_255 st) c = .ok (est1, spliced2)) :
    est1 = state_without_column_255 st1 ∧ spliced2 = spliced := by
  have hcell : (state_without_column_255 st).data st.merge_row_current c =
      st.data st.merge_row_current c := without_column_255_apply _ _ _ hc
  obtain ⟨_, h3⟩ := merge_default_eq tl st st1 c spliced h
  obtain ⟨_, h4⟩ := merge_default_eq tl2 _ est1 c spliced2 h2
  have hm : (state_without_column_255 st).merge_row_current = st.merge_row_current := rfl
  rw [hm, hcell] at h4
  rcases h3 with ⟨a1, a2, a3⟩ | ⟨a1, a2, a3⟩ <;> rcases h4 with ⟨b1, b2, b3⟩ | ⟨b1, b2, b3⟩
  · rw [a2, b2, a3, b3]
    refine ⟨?_, rfl⟩
    simp only [state_without_column_255, without_column_255_set _ _ _ _ hc]
  · exact absurd a1 b1
  · exact absurd b1 a1
  · rw [a2, b2, a3, b3]
    exact ⟨rfl, rfl⟩

theorem chain_pipe_without (tl tl2 cb cb2 : Nat) (st st1 est1 : compile_state)
    (hc : st.character ≠ 255) (h : chain_pipe tl cb st = .ok st1)
    (h2 : chain_pipe tl2 cb2 (state_without_column_255 st) = .ok est1) :
    est1 = state_without_column_255 st1 := by
  obtain ⟨row, hr, _, _, rfl⟩ := chain_pipe_exact tl cb st st1 h
  obtain ⟨row2, hr2, _, _, rfl⟩ := chain_pipe_exact tl2 cb2 _ est1 h2
  have : row2 = row := by
    have hr3 : st.last_table_row = some row2 := hr2
    rw [hr] at hr3
    exact (Option.some.inj hr3).symm
  subst this
  simp only [state_without_column_255, without_column_255_set _ _ _ _ hc]

theorem merge_pipe_without (tl tl2 cb cb2 : Nat) (st st1 est1 : compile_state)
    (hc : st.character ≠ 255) (h : merge_pipe tl cb st = .ok st1)
    (h2 : merge_pipe tl2 cb2 (state_without_column_255 st) = .ok est1) :
    est1 = state_without_column_255 st1 := by
  obtain ⟨row, hr, _, _, rfl⟩ := merge_pipe_exact tl cb st st1 h
  obtain ⟨row2, hr2, _, _, rfl⟩ := merge_pipe_exact tl2 cb2 _ est1 h2
  have : row2 = row := by
    have hr3 : st.last_merge_row = some row2 := hr2
    rw [hr] at hr3
    exact (Option.some.inj hr3).symm
  subst this
  have hcell : (state_without_column_255 st).data row2 st.character =
      st.data row2 st.character := without_column_255_apply _ _ _ hc
  have hch : (state_without_column_255 st).character = st.character := rfl
  simp only [hch, hcell]
  simp only [state_without_column_255, without_column_255_set _ _ _ _ hc]

theorem compile_finish_without (tl tl2 cb cb2 : Nat) (st st1 est1 : compile_state)
    (hc : st.character ≠ 255) (h : compile_finish tl cb st = .ok st1)
    (h2 : compile_finish tl2 cb2 (state_without_column_255 st) = .ok est1) :
    est1 = state_without_column_255 st1 := by
  obtain ⟨row, _, _, h3⟩ := compile_finish_exact tl cb st st1 h
  obtain ⟨row2, _, _, h4⟩ := compile_finish_exact tl2 cb2 _ est1 h2
  have hmr : (state_without_column_255 st).merge_row_current = st.merge_row_current := rfl
  have hlm : (state_without_column_255 st).last_merge_row = st.last_merge_row := rfl
  have hlt : (state_without_column_255 st).last_table_row = st.last_table_row := rfl
  have hch : (state_without_column_255 st).character = st.character := rfl
  rw [hmr, hlm, hlt, hch] at h4
  rcases h3 with ⟨a1, a2, a3⟩ | ⟨a1, a2, a3⟩ <;> rcases h4 with ⟨b1, b2, b3⟩ | ⟨b1, b2, b3⟩
  · have : row2 = row := by rw [a2] at b2; exact (Option.some.inj b2).symm
    subst this
    have hcell : (state_without_column_255 st).data row2 st.character =
        st.data row2 st.character := without_column_255_apply _ _ _ hc
    rw [a3, b3, hcell]
    simp only [state_without_column_255, without_column_255_set _ _ _ _ hc]
  · exact absurd b1 a1
  · exact absurd a1 b1
  · have : row2 = row := by rw [a2] at b2; exact (Option.some.inj b2).symm
    subst this
    rw [a3, b3]
    simp only [state_without_column_255, without_column_255_set _ _ _ _ hc]

/-- An empty alternative leaves the trie as it is. -/
theorem trie_inv_skip_empty (alts : List (List Nat)) (done N R : Nat) (name : Nat → List Nat)
    (data : index_rows) (ht : trie_inv alts done N name data R)
    (halt : alts[done]? = some []) : trie_inv alts (done + 1) N name data R := by
  constructor
  · exact ht.name_zero
  · exact ht.edge
  · exact ht.parent
  · exact ht.name_inj
  · exact ht.used
  · intro s c k hk
    obtain ⟨h1, h2, h3, h4⟩ := ht.cb_sound s c k hk
    refine ⟨h1, by omega, h3, ?_⟩
    intro j hj hjw
    by_cases hjd : j = done
    · rw [hjd, halt] at hjw
      simp at hjw
    · exact h4 j (by omega) hjw
  · intro j hj hjne
    by_cases hjd : j = done
    · rw [hjd] at hjne
      exact absurd halt hjne
    · exact ht.cb_complete j (by omega) hjne
  · exact ht.rows_zero

theorem chain_inv_init (alts : List (List Nat)) :
    chain_inv alts 0 [] (fun _ => []) compile_init := by
  constructor
  · constructor
    · rfl
    · intro s c hne; exact absurd rfl hne
    · intro s h0 hs
      have : compile_init.table_row = 0 := rfl
      omega
    · intro s s2 hs hs2 _
      have : compile_init.table_row = 0 := rfl
      omega
    · intro s c hne; exact absurd rfl hne
    · intro s c k hk; cases hk
    · intro j hj; omega
    · intro s c _; rfl
  · rfl
  · rfl
  · rfl
  · intro h; exact absurd rfl h

theorem state_without_column_255_init :
    state_without_column_255 compile_init = compile_init := by
  have : without_column_255 compile_init.data = compile_init.data := by
    funext r c
    show (if c = 255 then zero_element else zero_element) = zero_element
    simp
  show ({ compile_init with data := without_column_255 compile_init.data } : compile_state) =
    compile_init
  rw [this]

/-- A literal byte handled by whichever loop is running on a spec that may have empty
alternatives, the loops continuing on the rest of the spec. -/
theorem literal_general (alts : List (List Nat)) (tl cb c : Nat) (rest : List Nat)
    (hc : ¬ c > 127)
    (ih : ∀ (merging : Bool) (st st2 : compile_state) (w : List Nat) (name : Nat → List Nat)
      (done : Nat), alts.drop done = prepend w (alternatives rest) →
      general_inv merging alts done w name st →
      compile_loops tl cb merging st rest = .ok st2 → loops_post_general alts st2)
    (merging : Bool) (st st2 : compile_state) (w : List Nat) (name : Nat → List Nat)
    (done : Nat) (hparse : alts.drop done = prepend (w ++ [c]) (alternatives rest))
    (hinv : general_inv merging alts done w name st) :
    (match merging with
      | false =>
        match chain_default tl st c with
        | .ok st1 => compile_loops tl cb false st1 rest
        | .error e => .error e
      | true =>
        match merge_default tl st c with
        | .ok (st1, spliced) => compile_loops tl cb (!spliced) st1 rest
        | .error e => .error e) = .ok st2 → loops_post_general alts st2 := by
  intro h
  have hc255 : c ≠ 255 := by omega
  have hcur : ∃ v, alts[done]? = some (w ++ c :: v) := by
    cases hX : alternatives rest with
    | nil => exact absurd hX (alternatives_ne_nil rest)
    | cons a as =>
      rw [hX] at hparse
      exact ⟨a, by rw [(drop_eq_cons _ _ _ _ hparse).1]; simp⟩
  cases merging with
  | false =>
    simp only at h
    cases h1 : chain_default tl st c with
    | error e => rw [h1] at h; cases h
    | ok st1 =>
      rw [h1] at h
      obtain ⟨hlt, hst1⟩ := chain_default_eq tl st st1 c h1
      have hloop : chain_inv alts done w name (state_without_column_255 st) := hinv.loop
      obtain ⟨est1, e1, e2, _⟩ := chain_default_inv alts done w name
        (state_without_column_255 st) tl c hloop hlt hcur
      have hest := chain_default_without tl tl st st1 est1 c hc255 h1 e1
      subst hest
      refine ih false st1 st2 _ _ done hparse ⟨e2, ?_, ?_⟩ h
      · rw [hst1]
        show c = 255 ↔ w ++ [c] = []
        simp [hc255]
      · intro _ hw
        simp at hw
  | true =>
    simp only at h
    cases h1 : merge_default tl st c with
    | error e => rw [h1] at h; cases h
    | ok p =>
      obtain ⟨st1, spliced⟩ := p
      rw [h1] at h
      simp only at h
      have hst1c : st1.character = c := by
        obtain ⟨_, h3 | h3⟩ := merge_default_eq tl st st1 c spliced h1 <;> rw [h3.2.2]
      have hloop : merge_inv alts done w name (state_without_column_255 st) := hinv.loop
      rcases merge_default_inv alts done w name (state_without_column_255 st)
        (st.table_row + 1) c hloop (Nat.lt_succ_self _) with
        ⟨est1, e1, e2, _⟩ | ⟨est1, e1, e2, _⟩
      · obtain ⟨hest, hsp⟩ := merge_default_without tl _ st st1 est1 c spliced false hc255 h1 e1
        subst hest
        rw [← hsp] at h
        refine ih true st1 st2 _ _ done hparse ⟨e2, ?_, ?_⟩ h
        · rw [hst1c]
          simp [hc255]
        · intro hm; cases hm
      · obtain ⟨hest, hsp⟩ := merge_default_without tl _ st st1 est1 c spliced true hc255 h1 e1
        subst hest
        rw [← hsp] at h
        refine ih false st1 st2 _ _ done hparse ⟨e2, ?_, ?_⟩ h
        · rw [hst1c]
          simp [hc255]
        · intro _ hw
          simp at hw

/-- The two loops of `compile_to_table` keep the trie invariant, column 255 set aside,
on every well-formed spec on which they return. -/
theorem compile_loops_general (alts : List (List Nat)) (tl cb : Nat) (rest : List Nat)
    (r : Nat) :
    ∀ (n : Nat), calculate_table_length_loop rest r = .ok n →
    ∀ (merging : Bool) (st st2 : compile_state) (w : List Nat) (name : Nat → List Nat)
      (done : Nat), alts.drop done = prepend w (alternatives rest) →
      general_inv merging alts done w name st →
      compile_loops tl cb merging st rest = .ok st2 → loops_post_general alts st2 := by
  induction rest, r using calculate_table_length_loop.induct with
  | case1 r =>
    intro n _ merging st st2 w name done hparse hinv h
    rw [compile_loops_nil] at h
    cases h
    refine ⟨merging, w, name, done, ?_, hinv⟩
    rw [hparse, alternatives_nil]; simp [prepend]
  | case2 c rest r hc =>
    intro n h
    rw [calculate_table_length_loop.eq_def] at h; simp [hc] at h
  | case3 rest r _ ih =>
    intro n h merging st st2 w name done hparse hinv hl
    rw [calculate_table_length_loop.eq_def] at h
    simp only [gt_iff_lt, Nat.reduceLT, if_false, if_true] at h
    rw [alternatives_pipe] at hparse
    obtain ⟨halt, hdrop⟩ := drop_eq_cons _ _ _ _ hparse
    simp only [List.append_nil] at halt
    rw [← prepend_nil _ (alternatives_ne_nil rest)] at hdrop
    rw [compile_loops_pipe] at hl
    cases merging with
    | false =>
      simp only at hl
      cases h1 : chain_pipe tl cb st with
      | error e => rw [h1] at hl; cases hl
      | ok st1 =>
        rw [h1] at hl
        obtain ⟨row, hrow, _, _, hst1⟩ := chain_pipe_exact tl cb st st1 h1
        have hw : w ≠ [] := by
          intro hw0
          have := hinv.fresh rfl hw0
          rw [this] at hrow
          cases hrow
        have hc : st.character ≠ 255 := fun h0 => hw (hinv.char_iff.1 h0)
        have hloop : chain_inv alts done w name (state_without_column_255 st) := hinv.loop
        obtain ⟨est1, e1, e2, _⟩ := chain_pipe_inv alts done w name
          (state_without_column_255 st) st.table_row (done + 1) hloop hw halt
          (Nat.lt_succ_self _) (le_refl _)
        have hest := chain_pipe_without tl _ cb _ st st1 est1 hc h1 e1
        subst hest
        refine ih n h true st1 st2 [] name (done + 1) hdrop ⟨e2, ?_, ?_⟩ hl
        · rw [hst1]
          simp
        · intro hm; cases hm
    | true =>
      simp only at hl
      cases h1 : merge_pipe tl cb st with
      | error e => rw [h1] at hl; cases hl
      | ok st1 =>
        rw [h1] at hl
        obtain ⟨row, hrow, _, _, hst1⟩ := merge_pipe_exact tl cb st st1 h1
        have hloop : merge_inv alts done w name (state_without_column_255 st) := hinv.loop
        by_cases hw : w = []
        · have hc : st.character = 255 := hinv.char_iff.2 hw
          have hE : state_without_column_255 st1 =
              { state_without_column_255 st with character := 255
                                                 string_index := st.string_index + 1
                                                 merge_row_current := 0 } := by
            rw [hst1, hc]
            simp only [state_without_column_255, without_column_255_set_255]
          refine ih n h true st1 st2 [] name (done + 1) hdrop ⟨?_, ?_, ?_⟩ hl
          · show merge_inv alts (done + 1) [] name (state_without_column_255 st1)
            rw [hE]
            have hidx : st.string_index = done := hloop.index_eq
            have hcur : st.merge_row_current < st.table_row := hloop.cur_lt
            constructor
            · exact trie_inv_skip_empty _ _ _ _ _ _ hloop.trie (by rw [halt, hw])
            · show st.string_index + 1 = done + 1
              omega
            · show 0 < st.table_row
              omega
            · exact hloop.trie.name_zero
            · intro hne; exact absurd rfl hne
          · rw [hst1]
            simp
          · intro hm; cases hm
        · have hc : st.character ≠ 255 := fun h0 => hw (hinv.char_iff.1 h0)
          obtain ⟨est1, e1, e2, _⟩ := merge_pipe_inv alts done w name
            (state_without_column_255 st) st.table_row (done + 1) hloop hw halt
            (Nat.lt_succ_self _) (le_refl _)
          have hest := merge_pipe_without tl _ cb _ st st1 est1 hc h1 e1
          subst hest
          refine ih n h true st1 st2 [] name (done + 1) hdrop ⟨e2, ?_, ?_⟩ hl
          · rw [hst1]
            simp
          · intro hm; cases hm
  | case4 r _ _ =>
    intro n h
    rw [calculate_table_length_loop.eq_def] at h; simp at h
  | case5 r d rest2 hd _ _ =>
    intro n h
    rw [calculate_table_length_loop.eq_def] at h; simp [hd] at h
  | case6 r d rest2 hd hd2 _ _ ih =>
    intro n h merging st st2 w name done hparse hinv hl
    rw [calculate_table_length_loop.eq_def] at h
    simp [hd, hd2] at h
    rw [alternatives_escape, prepend_push_byte _ _ _ (alternatives_ne_nil _)] at hparse
    rw [compile_loops_escape _ _ _ _ _ _ hd] at hl
    exact literal_general alts tl cb d rest2 hd (ih n h) merging st st2 w name done hparse
      hinv hl
  | case7 r d rest2 hd hd2 _ _ =>
    intro n h
    rw [calculate_table_length_loop.eq_def] at h; simp [hd, hd2] at h
  | case8 c rest r h1 h2 h3 ih =>
    intro n h merging st st2 w name done hparse hinv hl
    rw [calculate_table_length_loop.eq_def] at h
    simp [h1, h2, h3] at h
    rw [alternatives_literal _ _ h2 h3, prepend_push_byte _ _ _ (alternatives_ne_nil _)] at hparse
    rw [compile_loops_literal _ _ _ _ _ _ h1 h2 h3] at hl
    exact literal_general alts tl cb c rest h1 (ih n h) merging st st2 w name done hparse
      hinv hl

/-- The end handling keeps the trie invariant, column 255 set aside, whether the last
alternative is empty or not. -/
theorem compile_finish_general (alts : List (List Nat)) (tl cb : Nat)
    (st st1 : compile_state) (hpost : loops_post_general alts st)
    (h : compile_finish tl cb st = .ok st1) :
    ∃ name, trie_inv alts alts.length st1.table_row name (without_column_255 st1.data)
      st1.table_row := by
  obtain ⟨m2, w2, name2, done2, hdrop, hinv⟩ := hpost
  obtain ⟨halt, hdrop2⟩ := drop_eq_cons _ _ _ _ hdrop
  have hlast : done2 + 1 = alts.length := by
    have hdone : done2 < alts.length := (List.getElem?_eq_some_iff.1 halt).1
    have := congrArg List.length hdrop2
    simp at this
    omega
  by_cases hw : w2 = []
  · have hc : st.character = 255 := hinv.char_iff.2 hw
    obtain ⟨row, _, _, h3⟩ := compile_finish_exact tl cb st st1 h
    cases m2 with
    | false =>
      have hloop : chain_inv alts done2 w2 name2 (state_without_column_255 st) := hinv.loop
      have hfresh := hinv.fresh rfl hw
      have hm : st.merge_row_current = 0 := hloop.no_merge
      rcases h3 with ⟨a1, _, _⟩ | ⟨_, a2, _⟩
      · exact absurd hm a1
      · rw [hfresh] at a2; cases a2
    | true =>
      have hloop : merge_inv alts done2 w2 name2 (state_without_column_255 st) := hinv.loop
      have hcur : st.merge_row_current < st.table_row := hloop.cur_lt
      have hm : st.merge_row_current = 0 := by
        have h1 : name2 st.merge_row_current = w2 := hloop.name_cur
        exact hloop.trie.name_inj st.merge_row_current 0 hcur
          (Nat.lt_of_le_of_lt (Nat.zero_le _) hcur) (by rw [h1, hw, hloop.trie.name_zero])
      rcases h3 with ⟨a1, _, _⟩ | ⟨_, _, a3⟩
      · exact absurd hm a1
      · refine ⟨name2, ?_⟩
        have hE : without_column_255 st1.data = without_column_255 st.data := by
          rw [a3, hc]
          exact without_column_255_set_255 _ _ _
        have hR : st1.table_row = st.table_row := by rw [a3]
        rw [hE, hR, ← hlast]
        exact trie_inv_skip_empty _ _ _ _ _ _ hloop.trie (by rw [halt, hw])
  · have hc : st.character ≠ 255 := fun h0 => hw (hinv.char_iff.1 h0)
    obtain ⟨est1, name, e1, _, _, _, e5⟩ := compile_finish_trie alts st.table_row alts.length
      (state_without_column_255 st) rfl m2 w2 name2 done2 hdrop (le_refl _) hinv.loop hw
    have hest := compile_finish_without tl _ cb _ st st1 est1 hc h e1
    subst hest
    exact ⟨name, e5⟩

/-- On every well-formed spec on which `compile_to_table` returns a table, empty
alternatives or not, the table without column 255 is the trie of the alternatives that
are not empty. -/
theorem compile_to_table_trie_general (meta_matcher_spec : List Nat) (n : Nat)
    (hwf : calculate_table_length meta_matcher_spec = .ok n) (tl cb : Nat) (t : index_table)
    (h : compile_to_table tl meta_matcher_spec cb = .ok t) :
    ∃ name, trie_inv (alternatives meta_matcher_spec) (alternatives meta_matcher_spec).length
      t.second name (without_column_255 t.data) t.second := by
  obtain ⟨st, st1, h1, h2, rfl⟩ := compile_to_table_eq tl cb meta_matcher_spec t h
  have hinit : general_inv false (alternatives meta_matcher_spec) 0 [] (fun _ => [])
      compile_init := by
    refine ⟨?_, ?_, fun _ _ => rfl⟩
    · rw [state_without_column_255_init]
      exact chain_inv_init _
    · exact ⟨fun _ => rfl, fun _ => rfl⟩
  have hpost := compile_loops_general (alternatives meta_matcher_spec) tl cb meta_matcher_spec
    0 n hwf false compile_init st [] (fun _ => []) 0
    (by rw [prepend_nil _ (alternatives_ne_nil _)]; rfl) hinit h1
  exact compile_finish_general _ tl cb st st1 hpost h2

theorem walk_without_column_255 (data : index_rows) (u : List Nat)
    (hu : ∀ b ∈ u, b ≠ 255) :
    ∀ s, walk (without_column_255 data) s u = walk data s u := by
  induction u with
  | nil => intro s; rfl
  | cons c rest ih =>
    intro s
    have hc : c ≠ 255 := hu c (by simp)
    rw [walk_cons, walk_cons, without_column_255_apply _ _ _ hc,
      ih (fun b hb => hu b (by simp [hb]))]

/-- In every table built for a well-formed spec, the cell of the last byte of an
alternative that is not empty carries the callback of the last alternative with the
same bytes. -/
theorem last_duplicate_callback (meta_matcher_spec : List Nat) (n : Nat)
    (hwf : calculate_table_length meta_matcher_spec = .ok n) (tl cb : Nat) (t : index_table)
    (h : compile_to_table tl meta_matcher_spec cb = .ok t) (j : Nat) (u : List Nat) (c : Nat)
    (hj : (alternatives meta_matcher_spec)[j]? = some (u ++ [c])) :
    ∃ s k, walk t.data 0 u = some s ∧ (t.data s c).callback = some k ∧
      (alternatives meta_matcher_spec)[k]? = some (u ++ [c]) ∧
      ∀ m, (alternatives meta_matcher_spec)[m]? = some (u ++ [c]) → m ≤ k := by
  obtain ⟨name, ht⟩ := compile_to_table_trie_general meta_matcher_spec n hwf tl cb t h
  obtain ⟨_, h0, _, _, _⟩ := compile_to_table_bounds tl cb meta_matcher_spec t h
  have hb : ∀ b ∈ u ++ [c], b ≠ 255 := by
    intro b hx
    have := alternatives_bytes meta_matcher_spec 0 n hwf _ (List.getElem?_mem hj) b hx
    omega
  have hbu : ∀ b ∈ u, b ≠ 255 := fun b hx => hb b (by simp [hx])
  have hc : c ≠ 255 := hb c (by simp)
  obtain ⟨s, k, hw, hk⟩ := trie_callback_complete _ _ _ name _ ht (le_refl _) u c j hj
  obtain ⟨h1, h2⟩ := trie_callback_sound _ _ _ name _ ht h0 u s c k hw hk
  rw [walk_without_column_255 _ _ hbu] at hw
  rw [without_column_255_apply _ _ _ hc] at hk
  exact ⟨s, k, hw, hk, h1, h2⟩

/-- C3. Exact-duplicate law: in every table that `compile_to_table` returns for a
well-formed spec, empty alternatives or not, when two alternatives have the same bytes
the cell of their last byte carries the callback of the later one (of the last one,
when there are more than two).  Without empty alternatives, and with one callback per
alternative, the build returns.  With `ab|ab` a fresh cursor fed `ab` invokes only the
second callback; with `ab|abc|ab` the cell of `b` carries the third callback and keeps
its next state; in the spec of the test harness the alternatives 5 and 6 are both the
pipe, and the cell of the pipe carries callback 6. -/
theorem exact_duplicate_law (meta_matcher_spec : List Nat) (n : Nat)
    (hwf : calculate_table_length meta_matcher_spec = .ok n) :
    (∀ (table_length callbacks : Nat) (t : index_table),
      compile_to_table table_length meta_matcher_spec callbacks = .ok t →
      ∀ (i j : Nat) (u : List Nat) (c : Nat), i < j →
        (alternatives meta_matcher_spec)[i]? = some (u ++ [c]) →
        (alternatives meta_matcher_spec)[j]? = some (u ++ [c]) →
        ∃ s k, walk t.data 0 u = some s ∧ (t.data s c).callback = some k ∧ j ≤ k ∧
          (alternatives meta_matcher_spec)[k]? = some (u ++ [c]) ∧
          ∀ m, (alternatives meta_matcher_spec)[m]? = some (u ++ [c]) → m ≤ k) ∧
    ((∀ a ∈ alternatives meta_matcher_spec, a ≠ []) →
      ∃ t, compile_to_table n meta_matcher_spec (alternatives meta_matcher_spec).length =
        .ok t) ∧
    (feed (string_matcher_of [97, 98, 124, 97, 98] 2) fresh_cursor [97, 98]).2 =
      [⟨false, []⟩, ⟨true, [(1, 1)]⟩] ∧
    (string_matcher_of [97, 98, 124, 97, 98, 99, 124, 97, 98] 3).data 1 98 = ⟨some 2, some 2⟩ ∧
    (feed (string_matcher_of [97, 98, 124, 97, 98, 99, 124, 97, 98] 3) fresh_cursor
      [97, 98, 32]).2 = [⟨false, []⟩, ⟨false, []⟩, ⟨true, [(2, 1)]⟩] ∧
    (alternatives harness_spec)[5]? = some [124] ∧
    (alternatives harness_spec)[6]? = some [124] ∧
    (alternatives harness_spec)[8]? = some [] ∧
    (string_matcher_of harness_spec 15).data 0 124 = ⟨none, some 6⟩ ∧
    (feed (string_matcher_of harness_spec 15) fresh_cursor [124]).2 = [⟨true, [(6, 0)]⟩] := by
  refine ⟨?_, ?_, by decide!, by decide!, by decide!, by decide!, by decide!, by decide!,
    by decide!, by decide!⟩
  · intro tl cb t h i j u c _ _ hj
    obtain ⟨s, k, hw, hk, h1, h2⟩ :=
      last_duplicate_callback meta_matcher_spec n hwf tl cb t h j u c hj
    exact ⟨s, k, hw, hk, h2 j hj, h1, h2⟩
  · intro hne
    obtain ⟨t, _, hc, _⟩ := compile_to_table_trie meta_matcher_spec n hwf hne
    exact ⟨t, hc⟩

theorem exact_duplicate_law_witness :
    calculate_table_length harness_spec = .ok 20 ∧
    ((∀ (table_length callbacks : Nat) (t : index_table),
      compile_to_table table_length harness_spec callbacks = .ok t →
      ∀ (i j : Nat) (u : List Nat) (c : Nat), i < j →
        (alternatives harness_spec)[i]? = some (u ++ [c]) →
        (alternatives harness_spec)[j]? = some (u ++ [c]) →
        ∃ s k, walk t.data 0 u = some s ∧ (t.data s c).callback = some k ∧ j ≤ k ∧
          (alternatives harness_spec)[k]? = some (u ++ [c]) ∧
          ∀ m, (alternatives harness_spec)[m]? = some (u ++ [c]) → m ≤ k) ∧
    ((∀ a ∈ alternatives harness_spec, a ≠ []) →
      ∃ t, compile_to_table 20 harness_spec (alternatives harness_spec).length = .ok t) ∧
    (feed (string_matcher_of [97, 98, 124, 97, 98] 2) fresh_cursor [97, 98]).2 =
      [⟨false, []⟩, ⟨true, [(1, 1)]⟩] ∧
    (string_matcher_of [97, 98, 124, 97, 98, 99, 124, 97, 98] 3).data 1 98 = ⟨some 2, some 2⟩ ∧
    (feed (string_matcher_of [97, 98, 124, 97, 98, 99, 124, 97, 98] 3) fresh_cursor
      [97, 98, 32]).2 = [⟨false, []⟩, ⟨false, []⟩, ⟨true, [(2, 1)]⟩] ∧
    (alternatives harness_spec)[5]? = some [124] ∧
    (alternatives harness_spec)[6]? = some [124] ∧
    (alternatives harness_spec)[8]? = some [] ∧
    (string_matcher_of harness_spec 15).data 0 124 = ⟨none, some 6⟩ ∧
    (feed (string_matcher_of harness_spec 15) fresh_cursor [124]).2 = [⟨true, [(6, 0)]⟩]) :=
  ⟨rfl, exact_duplicate_law harness_spec 20 rfl⟩

theorem walk_bytes_low (data : index_rows)
    (hhigh : ∀ r c, 128 ≤ c → (data r c).next_state = 0) (u : List Nat) :
    ∀ s s1, walk data s u = some s1 → ∀ b ∈ u, b < 128 := by
  induction u with
  | nil => intro s s1 _ b hb; cases hb
  | cons c rest ih =>
    intro s s1 hw b hb
    rw [walk_cons] at hw
    by_cases hn : (data s c).next_state = 0
    · simp [hn] at hw
    · simp only [hn, if_false] at hw
      rcases List.mem_cons.1 hb with rfl | hb2
      · rcases Nat.lt_or_ge b 128 with h | h
        · exact h
        · exact absurd (hhigh s b h) hn
      · exact ih _ s1 hw b hb2

/-- In every table built for a well-formed spec, a cell reached from row 0 has a next
state only when some alternative goes on with its byte. -/
theorem transition_of_alternative (meta_matcher_spec : List Nat) (n : Nat)
    (hwf : calculate_table_length meta_matcher_spec = .ok n) (tl cb : Nat) (t : index_table)
    (h : compile_to_table tl meta_matcher_spec cb = .ok t) (u : List Nat) (s c : Nat)
    (hw : walk t.data 0 u = some s) (hn : (t.data s c).next_state ≠ 0) :
    ∃ (j : Nat) (v : List Nat), v ≠ [] ∧
      (alternatives meta_matcher_spec)[j]? = some (u ++ c :: v) := by
  obtain ⟨name, ht⟩ := compile_to_table_trie_general meta_matcher_spec n hwf tl cb t h
  obtain ⟨_, h0, _, _, hhigh⟩ := compile_to_table_bounds tl cb meta_matcher_spec t h
  have hlow := walk_bytes_low t.data (fun r c hc => (hhigh r c hc).1) u 0 s hw
  have hbu : ∀ b ∈ u, b ≠ 255 := fun b hb => by have := hlow b hb; omega
  have hc : c ≠ 255 := by
    rintro rfl
    exact hn (hhigh s 255 (by omega)).1
  rw [← walk_without_column_255 _ _ hbu] at hw
  rw [← without_column_255_apply t.data s c hc] at hn
  exact (trie_next_state _ _ name _ ht h0 u s c hw).1 hn

/-- C4. Escaping law.  On every spec that `calculate_table_length` accepts, both loops of
`compile_to_table` treat a backslash with the pipe or backslash after it as one
literal byte (the default case, which keeps `string_index` and makes or follows one
transition) and an unescaped pipe as a separator (the pipe case).  The pipe case of the
chain-building loop puts `{ 0, callback }` with the callback number `string_index`
into the cell of the last byte; the pipe case of the merge loop puts that callback
into the cell of the last byte, keeps its next state and restarts at row 0; both
advance `string_index` and give no cell a new next state.  So in every table built for
the spec the alternatives of the grammar, in which an escape is one byte and an
unescaped pipe ends an alternative, are what the table holds: the cell of the last
byte of every alternative that is not empty carries the callback of an alternative with
these bytes, every next state belongs to a byte of an alternative, and the number of
callbacks is one more than the number of unescaped pipes.  The 4-byte spec `a\|b` is
one alternative and a fresh cursor fed `a|b` invokes its callback once, in the call
for `b`; the spec `a|b` is two alternatives and a fresh cursor fed `a|b` invokes the
first callback in the call for `a`, nothing in the call for the pipe and the second
callback in the call for `b`; the spec `a\|b|a\||c` has the alternatives `a|b`, `a|` and
`c`, the second ended by a pipe met in the merge loop. -/
theorem escaping_law (meta_matcher_spec : List Nat) (n : Nat)
    (hwf : calculate_table_length meta_matcher_spec = .ok n) :
    (∀ (tl cb : Nat) (m : Bool) (st : compile_state),
      compile_loops tl cb m st meta_matcher_spec =
        compile_tokens tl cb m st (spec_tokens meta_matcher_spec)) ∧
    (∀ (tl cb : Nat) (st st1 : compile_state),
      chain_pipe tl cb st = .ok st1 ∨ merge_pipe tl cb st = .ok st1 →
      st1.string_index = st.string_index + 1 ∧ st1.table_row = st.table_row ∧
      ∀ r c, (st1.data r c).next_state = 0 ∨
        (st1.data r c).next_state = (st.data r c).next_state) ∧
    (∀ (tl cb : Nat) (st st1 : compile_state), chain_pipe tl cb st = .ok st1 →
      ∃ row, st.last_table_row = some row ∧ row < tl ∧ st.string_index < cb ∧
        st1 = { st with data := set_element st.data row st.character
                                  ⟨0, some st.string_index⟩
                        character := 255
                        string_index := st.string_index + 1 }) ∧
    (∀ (tl cb : Nat) (st st1 : compile_state), merge_pipe tl cb st = .ok st1 →
      ∃ row, st.last_merge_row = some row ∧ row < tl ∧ st.string_index < cb ∧
        st1 = { st with data := set_element st.data row st.character
                                  ⟨(st.data row st.character).next_state,
                                    some st.string_index⟩
                        character := 255
                        string_index := st.string_index + 1
                        merge_row_current := 0 }) ∧
    (∀ (tl : Nat) (st st1 : compile_state) (c : Nat), chain_default tl st c = .ok st1 →
      st1.string_index = st.string_index ∧ st1.table_row = st.table_row + 1 ∧
      st1.data st.table_row c = ⟨st.table_row + 1, none⟩) ∧
    (∀ (tl : Nat) (st st1 : compile_state) (c : Nat) (spliced : Bool),
      merge_default tl st c = .ok (st1, spliced) →
      st1.string_index = st.string_index ∧ st1.table_row = st.table_row ∧
      (st1.data st.merge_row_current c).next_state =
        (if (st.data st.merge_row_current c).next_state = 0 then st.table_row
          else (st.data st.merge_row_current c).next_state) ∧
      (st1.data st.merge_row_current c).callback =
        (st.data st.merge_row_current c).callback) ∧
    (∀ (tl cb : Nat) (t : index_table), compile_to_table tl meta_matcher_spec cb = .ok t →
      cb = (alternatives meta_matcher_spec).length ∧
      cb = 1 + unescaped_pipes meta_matcher_spec ∧
      (∀ (j : Nat) (u : List Nat) (c : Nat),
        (alternatives meta_matcher_spec)[j]? = some (u ++ [c]) →
        ∃ s k, walk t.data 0 u = some s ∧ (t.data s c).callback = some k ∧
          (alternatives meta_matcher_spec)[k]? = some (u ++ [c])) ∧
      (∀ (u : List Nat) (s c : Nat), walk t.data 0 u = some s →
        (t.data s c).next_state ≠ 0 →
        ∃ (j : Nat) (v : List Nat), v ≠ [] ∧
          (alternatives meta_matcher_spec)[j]? = some (u ++ c :: v))) ∧
    spec_tokens [97, 92, 124, 98] = [some 97, some 124, some 98] ∧
    alternatives [97, 92, 124, 98] = [[97, 124, 98]] ∧
    (feed (string_matcher_of [97, 92, 124, 98] 1) fresh_cursor [97, 124, 98]).2 =
      [⟨false, []⟩, ⟨false, []⟩, ⟨true, [(0, 2)]⟩] ∧
    spec_tokens [97, 124, 98] = [some 97, none, some 98] ∧
    alternatives [97, 124, 98] = [[97], [98]] ∧
    (feed (string_matcher_of [97, 124, 98] 2) fresh_cursor [97, 124, 98]).2 =
      [⟨true, [(0, 0)]⟩, ⟨false, []⟩, ⟨true, [(1, 2)]⟩] ∧
    spec_tokens [97, 92, 124, 98, 124, 97, 92, 124, 124, 99] =
      [some 97, some 124, some 98, none, some 97, some 124, none, some 99] ∧
    alternatives [97, 92, 124, 98, 124, 97, 92, 124, 124, 99] =
      [[97, 124, 98], [97, 124], [99]] ∧
    (feed (string_matcher_of [97, 92, 124, 98, 124, 97, 92, 124, 124, 99] 3) fresh_cursor
      [97, 124, 98]).2 = [⟨false, []⟩, ⟨false, []⟩, ⟨true, [(0, 2)]⟩] ∧
    (feed (string_matcher_of [97, 92, 124, 98, 124, 97, 92, 124, 124, 99] 3) fresh_cursor
      [97, 124, 124, 99]).2 =
      [⟨false, []⟩, ⟨false, []⟩, ⟨true, [(1, 1)]⟩, ⟨true, [(2, 3)]⟩] := by
  refine ⟨fun tl cb m st => compile_loops_tokens tl cb meta_matcher_spec 0 n hwf m st, ?_,
    chain_pipe_exact, merge_pipe_exact, chain_default_effect, merge_default_effect, ?_,
    by decide!, by decide!, by decide!, by decide!, by decide!, by decide!, by decide!,
    by decide!, by decide!, by decide!⟩
  · intro tl cb st st1 h
    rcases h with h | h
    · exact chain_pipe_effect tl cb st st1 h
    · exact merge_pipe_effect tl cb st st1 h
  · intro tl cb t h
    have hcb := compile_to_table_callbacks tl cb meta_matcher_spec t h
    refine ⟨hcb, by rw [hcb, alternatives_length_pipes], ?_, ?_⟩
    · intro j u c hj
      obtain ⟨s, k, hw, hk, h1, _⟩ :=
        last_duplicate_callback meta_matcher_spec n hwf tl cb t h j u c hj
      exact ⟨s, k, hw, hk, h1⟩
    · intro u s c hw hn
      exact transition_of_alternative meta_matcher_spec n hwf tl cb t h u s c hw hn

theorem escaping_law_witness :
    calculate_table_length [97, 92, 124, 98, 124, 97, 92, 124, 124, 99] = .ok 6 ∧
    ((∀ (tl cb : Nat) (m : Bool) (st : compile_state),
      compile_loops tl cb m st [97, 92, 124, 98, 124, 97, 92, 124, 124, 99] =
        compile_tokens tl cb m st (spec_tokens [97, 92, 124, 98, 124, 97, 92, 124, 124, 99])) ∧
    (∀ (tl cb : Nat) (st st1 : compile_state),
      chain_pipe tl cb st = .ok st1 ∨ merge_pipe tl cb st = .ok st1 →
      st1.string_index = st.string_index + 1 ∧ st1.table_row = st.table_row ∧
      ∀ r c, (st1.data r c).next_state = 0 ∨
        (st1.data r c).next_state = (st.data r c).next_state) ∧
    (∀ (tl cb : Nat) (st st1 : compile_state), chain_pipe tl cb st = .ok st1 →
      ∃ row, st.last_table_row = some row ∧ row < tl ∧ st.string_index < cb ∧
        st1 = { st with data := set_element st.data row st.character
                                  ⟨0, some st.string_index⟩
                        character := 255
                        string_index := st.string_index + 1 }) ∧
    (∀ (tl cb : Nat) (st st1 : compile_state), merge_pipe tl cb st = .ok st1 →
      ∃ row, st.last_merge_row = some row ∧ row < tl ∧ st.string_index < cb ∧
        st1 = { st with data := set_element st.data row st.character
                                  ⟨(st.data row st.character).next_state,
                                    some st.string_index⟩
                        character := 255
                        string_index := st.string_index + 1
                        merge_row_current := 0 }) ∧
    (∀ (tl : Nat) (st st1 : compile_state) (c : Nat), chain_default tl st c = .ok st1 →
      st1.string_index = st.string_index ∧ st1.table_row = st.table_row + 1 ∧
      st1.data st.table_row c = ⟨st.table_row + 1, none⟩) ∧
    (∀ (tl : Nat) (st st1 : compile_state) (c : Nat) (spliced : Bool),
      merge_default tl st c = .ok (st1, spliced) →
      st1.string_index = st.string_index ∧ st1.table_row = st.table_row ∧
      (st1.data st.merge_row_current c).next_state =
        (if (st.data st.merge_row_current c).next_state = 0 then st.table_row
          else (st.data st.merge_row_current c).next_state) ∧
      (st1.data st.merge_row_current c).callback =
        (st.data st.merge_row_current c).callback) ∧
    (∀ (tl cb : Nat) (t : index_table),
      compile_to_table tl [97, 92, 124, 98, 124, 97, 92, 124, 124, 99] cb = .ok t →
      cb = (alternatives [97, 92, 124, 98, 124, 97, 92, 124, 124, 99]).length ∧
      cb = 1 + unescaped_pipes [97, 92, 124, 98, 124, 97, 92, 124, 124, 99] ∧
      (∀ (j : Nat) (u : List Nat) (c : Nat),
        (alternatives [97, 92, 124, 98, 124, 97, 92, 124, 124, 99])[j]? = some (u ++ [c]) →
        ∃ s k, walk t.data 0 u = some s ∧ (t.data s c).callback = some k ∧
          (alternatives [97, 92, 124, 98, 124, 97, 92, 124, 124, 99])[k]? = some (u ++ [c])) ∧
      (∀ (u : List Nat) (s c : Nat), walk t.data 0 u = some s →
        (t.data s c).next_state ≠ 0 →
        ∃ (j : Nat) (v : List Nat), v ≠ [] ∧
          (alternatives [97, 92, 124, 98, 124, 97, 92, 124, 124, 99])[j]? = some (u ++ c :: v))) ∧
    spec_tokens [97, 92, 124, 98] = [some 97, some 124, some 98] ∧
    alternatives [97, 92, 124, 98] = [[97, 124, 98]] ∧
    (feed (string_matcher_of [97, 92, 124, 98] 1) fresh_cursor [97, 124, 98]).2 =
      [⟨false, []⟩, ⟨false, []⟩, ⟨true, [(0, 2)]⟩] ∧
    spec_tokens [97, 124, 98] = [some 97, none, some 98] ∧
    alternatives [97, 124, 98] = [[97], [98]] ∧
    (feed (string_matcher_of [97, 124, 98] 2) fresh_cursor [97, 124, 98]).2 =
      [⟨true, [(0, 0)]⟩, ⟨false, []⟩, ⟨true, [(1, 2)]⟩] ∧
    spec_tokens [97, 92, 124, 98, 124, 97, 92, 124, 124, 99] =
      [some 97, some 124, some 98, none, some 97, some 124, none, some 99] ∧
    alternatives [97, 92, 124, 98, 124, 97, 92, 124, 124, 99] =
      [[97, 124, 98], [97, 124], [99]] ∧
    (feed (string_matcher_of [97, 92, 124, 98, 124, 97, 92, 124, 124, 99] 3) fresh_cursor
      [97, 124, 98]).2 = [⟨false, []⟩, ⟨false, []⟩, ⟨true, [(0, 2)]⟩] ∧
    (feed (string_matcher_of [97, 92, 124, 98, 124, 97, 92, 124, 124, 99] 3) fresh_cursor
      [97, 124, 124, 99]).2 =
      [⟨false, []⟩, ⟨false, []⟩, ⟨true, [(1, 1)]⟩, ⟨true, [(2, 3)]⟩]) :=
  ⟨rfl, escaping_law [97, 92, 124, 98, 124, 97, 92, 124, 124, 99] 6 rfl⟩

/-- Feeding bytes along which the table has next states: no call invokes anything, and
the cursor ends in the row the bytes lead to. -/
theorem feed_walk (t : index_table) (bytes : List Nat) :
    ∀ (cur : cursor) (s : Nat), (∀ b ∈ bytes, b < 256) →
      walk t.data cur.state bytes = some s →
      (feed (to_string_matcher t) cur bytes).1.state = s ∧
      (feed (to_string_matcher t) cur bytes).2 = List.replicate bytes.length ⟨false, []⟩ := by
  induction bytes with
  | nil =>
    intro cur s _ hw
    simp only [walk_nil, Option.some.injEq] at hw
    exact ⟨hw, rfl⟩
  | cons b rest ih =>
    intro cur s hb hw
    have hbm : b % 256 = b := Nat.mod_eq_of_lt (hb b (by simp))
    rw [walk_cons] at hw
    by_cases hn : (t.data cur.state b).next_state = 0
    · simp [hn] at hw
    · simp only [hn, if_false] at hw
      have hn2 : (t.data cur.state (b % 256)).next_state ≠ 0 := by rw [hbm]; exact hn
      obtain ⟨m1, m2, _, _, _⟩ := match_character_live t cur b hn2
      rw [hbm] at m2
      obtain ⟨e1, e3⟩ := ih (match_character (to_string_matcher t) cur b).1 s
        (fun x hx => hb x (by simp [hx])) (by rw [m2]; exact hw)
      rw [feed_cons]
      refine ⟨e1, ?_⟩
      show _ :: _ = _
      rw [m1, e3]; rfl

/-- What the calls do when the bytes of an alternative are fed to a cursor in the start
row: the calls before the last invoke nothing; the call for the last byte invokes the
callback of the alternative when no alternative goes on after it, and else invokes
nothing and leaves the callback recorded for the next call that meets a cell without a
next state and without a callback. -/
theorem feed_alternative (alts : List (List Nat)) (R : Nat) (name : Nat → List Nat)
    (t : index_table) (ht : trie_inv alts alts.length R name t.data R) (h0 : 0 < R)
    (j : Nat) (u : List Nat) (c : Nat) (hj : alts[j]? = some (u ++ [c]))
    (hb : ∀ b ∈ u ++ [c], b < 256) (cur : cursor) (hcur : cur.state = 0)
    (hlt : cur.input_stream_position < size_t_values) :
    ∃ s k r, walk t.data 0 u = some s ∧ (t.data s c).callback = some k ∧
      alts[k]? = some (u ++ [c]) ∧
      (feed (to_string_matcher t) cur (u ++ [c])).2 =
        List.replicate u.length ⟨false, []⟩ ++ [r] ∧
      ((t.data s c).next_state = 0 ↔
        ¬ ∃ (i : Nat) (v : List Nat), v ≠ [] ∧ alts[i]? = some (u ++ c :: v)) ∧
      ((t.data s c).next_state = 0 →
        r = ⟨true, [(k, (cur.input_stream_position + u.length) % size_t_values)]⟩) ∧
      ((t.data s c).next_state ≠ 0 → r = ⟨false, []⟩ ∧
        ∀ d, d < 256 → (t.data (t.data s c).next_state d).next_state = 0 →
          (t.data (t.data s c).next_state d).callback = none →
          (match_character (to_string_matcher t)
              (feed (to_string_matcher t) cur (u ++ [c])).1 d).2 =
            ⟨true, [(k, (cur.input_stream_position + u.length) % size_t_values)]⟩) := by
  obtain ⟨s, k, hw, hk⟩ := trie_callback_complete alts R R name t.data ht (le_refl _) u c j hj
  have hk2 := (trie_callback_sound alts R R name t.data ht h0 u s c k hw hk).1
  have hbu : ∀ b ∈ u, b < 256 := fun b hx => hb b (by simp [hx])
  have hcm : c % 256 = c := Nat.mod_eq_of_lt (hb c (by simp))
  obtain ⟨e1, e3⟩ := feed_walk t u cur s hbu (by rw [hcur]; exact hw)
  have e2 := feed_position (to_string_matcher t) u cur hlt
  have hiff := trie_next_state alts R name t.data ht h0 u s c hw
  refine ⟨s, k, (match_character (to_string_matcher t)
    (feed (to_string_matcher t) cur u).1 c).2, hw, hk, hk2, ?_, ?_, ?_, ?_⟩
  · rw [feed_append, e3]; rfl
  · rw [← hiff]; simp
  · intro hn
    have hn2 : (t.data (feed (to_string_matcher t) cur u).1.state (c % 256)).next_state = 0 := by
      rw [e1, hcm]; exact hn
    have hk3 : (t.data (feed (to_string_matcher t) cur u).1.state (c % 256)).callback =
        some k := by rw [e1, hcm]; exact hk
    rw [(match_character_dead t _ c hn2).2 k hk3, e2]
  · intro hn
    have hn2 : (t.data (feed (to_string_matcher t) cur u).1.state (c % 256)).next_state ≠ 0 := by
      rw [e1, hcm]; exact hn
    have hk3 : (t.data (feed (to_string_matcher t) cur u).1.state (c % 256)).callback =
        some k := by rw [e1, hcm]; exact hk
    obtain ⟨m1, m2, m3, _, m5⟩ := match_character_live t _ c hn2
    refine ⟨m1, ?_⟩
    intro d hd hdn hdc
    have hdm : d % 256 = d := Nat.mod_eq_of_lt hd
    have hfeed : (feed (to_string_matcher t) cur (u ++ [c])).1 =
        (match_character (to_string_matcher t) (feed (to_string_matcher t) cur u).1 c).1 := by
      rw [feed_append]; rfl
    rw [hfeed]
    have hst : (match_character (to_string_matcher t)
        (feed (to_string_matcher t) cur u).1 c).1.state = (t.data s c).next_state := by
      rw [m2, e1, hcm]
    have hdn2 : (t.data (match_character (to_string_matcher t)
        (feed (to_string_matcher t) cur u).1 c).1.state (d % 256)).next_state = 0 := by
      rw [hst, hdm]; exact hdn
    have hdc2 : (t.data (match_character (to_string_matcher t)
        (feed (to_string_matcher t) cur u).1 c).1.state (d % 256)).callback = none := by
      rw [hst, hdm]; exact hdc
    rw [(match_character_dead t _ d hdn2).1 hdc2, (m5 k hk3).1, (m5 k hk3).2, e2]

/-- C24. A match is deferred only when a longer alternative could still follow: in the table
built for a well-formed spec without empty alternatives, the cell that consumes the
last byte of an alternative has no next state exactly when no alternative strictly
extends that alternative; and on a fresh cursor fed exactly the bytes of the
alternative, the calls before the last invoke nothing, and the call for the last byte
invokes the callback of the alternative (with the index of that byte, modulo 2^64) and
returns true exactly when no alternative strictly extends it, and invokes nothing and
returns false exactly when one does.  With `hi|hi2`, `hi2` fires on the byte `2` itself
and `hi` fed alone fires nothing. -/
theorem match_deferred_only_when_extended (meta_matcher_spec : List Nat) (n : Nat)
    (hwf : calculate_table_length meta_matcher_spec = .ok n)
    (hne : ∀ a ∈ alternatives meta_matcher_spec, a ≠ []) :
    (∃ t, compile_to_table n meta_matcher_spec (alternatives meta_matcher_spec).length = .ok t ∧
      ∀ (j : Nat) (u : List Nat) (c : Nat),
        (alternatives meta_matcher_spec)[j]? = some (u ++ [c]) →
        ∃ s k r, walk t.data 0 u = some s ∧
          (alternatives meta_matcher_spec)[k]? = some (u ++ [c]) ∧
          (((to_string_matcher t).data s c).next_state_ptr = none ↔
            ¬ ∃ (i : Nat) (v : List Nat), v ≠ [] ∧
              (alternatives meta_matcher_spec)[i]? = some (u ++ c :: v)) ∧
          (feed (to_string_matcher t) fresh_cursor (u ++ [c])).2 =
            List.replicate u.length ⟨false, []⟩ ++ [r] ∧
          (r = ⟨true, [(k, u.length % size_t_values)]⟩ ↔
            ¬ ∃ (i : Nat) (v : List Nat), v ≠ [] ∧
              (alternatives meta_matcher_spec)[i]? = some (u ++ c :: v)) ∧
          (r = ⟨false, []⟩ ↔
            ∃ (i : Nat) (v : List Nat), v ≠ [] ∧
              (alternatives meta_matcher_spec)[i]? = some (u ++ c :: v))) ∧
    (feed (string_matcher_of [104, 105, 124, 104, 105, 50] 2) fresh_cursor [104, 105, 50]).2 =
      [⟨false, []⟩, ⟨false, []⟩, ⟨true, [(1, 2)]⟩] ∧
    (feed (string_matcher_of [104, 105, 124, 104, 105, 50] 2) fresh_cursor [104, 105]).2 =
      [⟨false, []⟩, ⟨false, []⟩] := by
  refine ⟨?_, by decide!, by decide!⟩
  obtain ⟨t, name, hc, _, _, ht⟩ := compile_to_table_trie meta_matcher_spec n hwf hne
  have h0 := trie_rows_pos _ _ _ _ _ _ ht (alternatives_length_pos _)
    (first_alternative_ne_nil _ hne)
  refine ⟨t, hc, ?_⟩
  intro j u c hj
  have hb : ∀ b ∈ u ++ [c], b < 256 := by
    intro b hx
    have := alternatives_bytes meta_matcher_spec 0 n hwf _ (List.getElem?_mem hj) b hx
    omega
  obtain ⟨s, k, r, hw, _, hk, hfeed, hiff, hdead, hlive⟩ :=
    feed_alternative _ _ name t ht h0 j u c hj hb fresh_cursor rfl size_t_values_pos
  have hpos : (fresh_cursor.input_stream_position + u.length) % size_t_values =
      u.length % size_t_values := by
    show (0 + u.length) % size_t_values = _
    rw [Nat.zero_add]
  rw [hpos] at hdead
  refine ⟨s, k, r, hw, hk, ?_, hfeed, ?_, ?_⟩
  · rw [← hiff, to_string_matcher_data]
    by_cases hn : (t.data s c).next_state = 0 <;> simp [hn]
  · rw [← hiff]
    constructor
    · intro hr
      by_contra hn
      have := (hlive hn).1
      rw [this] at hr
      cases hr
    · exact hdead
  · have hiff2 : (t.data s c).next_state ≠ 0 ↔ ∃ (i : Nat) (v : List Nat), v ≠ [] ∧
        (alternatives meta_matcher_spec)[i]? = some (u ++ c :: v) := by
      rw [← not_iff_not, not_not, hiff]
    rw [← hiff2]
    constructor
    · intro hr hn
      have := hdead hn
      rw [this] at hr
      cases hr
    · intro hn
      exact (hlive hn).1

theorem match_deferred_only_when_extended_witness :
    (calculate_table_length [104, 105, 124, 104, 105, 50] = .ok 5 ∧
      ∀ a ∈ alternatives [104, 105, 124, 104, 105, 50], a ≠ []) ∧
    ((∃ t, compile_to_table 5 [104, 105, 124, 104, 105, 50]
        (alternatives [104, 105, 124, 104, 105, 50]).length = .ok t ∧
      ∀ (j : Nat) (u : List Nat) (c : Nat),
        (alternatives [104, 105, 124, 104, 105, 50])[j]? = some (u ++ [c]) →
        ∃ s k r, walk t.data 0 u = some s ∧
          (alternatives [104, 105, 124, 104, 105, 50])[k]? = some (u ++ [c]) ∧
          (((to_string_matcher t).data s c).next_state_ptr = none ↔
            ¬ ∃ (i : Nat) (v : List Nat), v ≠ [] ∧
              (alternatives [104, 105, 124, 104, 105, 50])[i]? = some (u ++ c :: v)) ∧
          (feed (to_string_matcher t) fresh_cursor (u ++ [c])).2 =
            List.replicate u.length ⟨false, []⟩ ++ [r] ∧
          (r = ⟨true, [(k, u.length % size_t_values)]⟩ ↔
            ¬ ∃ (i : Nat) (v : List Nat), v ≠ [] ∧
              (alternatives [104, 105, 124, 104, 105, 50])[i]? = some (u ++ c :: v)) ∧
          (r = ⟨false, []⟩ ↔
            ∃ (i : Nat) (v : List Nat), v ≠ [] ∧
              (alternatives [104, 105, 124, 104, 105, 50])[i]? = some (u ++ c :: v))) ∧
    (feed (string_matcher_of [104, 105, 124, 104, 105, 50] 2) fresh_cursor [104, 105, 50]).2 =
      [⟨false, []⟩, ⟨false, []⟩, ⟨true, [(1, 2)]⟩] ∧
    (feed (string_matcher_of [104, 105, 124, 104, 105, 50] 2) fresh_cursor [104, 105]).2 =
      [⟨false, []⟩, ⟨false, []⟩]) :=
  ⟨⟨rfl, by decide⟩, match_deferred_only_when_extended _ 5 rfl (by decide)⟩

/-- C22 as stated fails: with `hi|hi2` a fresh cursor fed `hi2` ends on the last byte of
the matching alternative `hi2`, and the call for that byte invokes the second callback
and returns true; with the single alternative `ab` fed `ab` the call for `b` invokes
the callback. -/
theorem match_at_end_of_input_counterexample :
    alternatives [104, 105, 124, 104, 105, 50] = [[104, 105], [104, 105, 50]] ∧
    (feed (string_matcher_of [104, 105, 124, 104, 105, 50] 2) fresh_cursor
      [104, 105, 50]).2.getLast? = some ⟨true, [(1, 2)]⟩ ∧
    alternatives [97, 98] = [[97, 98]] ∧
    (feed (string_matcher_of [97, 98] 1) fresh_cursor [97, 98]).2 =
      [⟨false, []⟩, ⟨true, [(0, 1)]⟩] := by
  refine ⟨by decide, by decide!, by decide, by decide!⟩

/-- C22 as amended. A match completed at the end of the input waits for one more byte only
when another alternative strictly extends the matched one.  For a well-formed spec
without empty alternatives and an input `pre ++ a` fed to a fresh cursor, where the
cursor is in the start row after `pre` and `a` is an alternative: the calls for the
bytes of `a` before the last invoke nothing; when no alternative strictly extends `a`
the call for its last byte invokes its callback with the index of that byte (modulo
2^64, the counter being a `size_t`) and returns true; when one does, that call invokes
nothing and returns false, and the call for a following byte `d` with which no
alternative goes on after `a` invokes the callback of `a`. -/
theorem match_at_end_of_input (meta_matcher_spec : List Nat) (n : Nat)
    (hwf : calculate_table_length meta_matcher_spec = .ok n)
    (hne : ∀ a ∈ alternatives meta_matcher_spec, a ≠ []) :
    (feed (string_matcher_of [104, 105, 124, 104, 105, 50] 2) fresh_cursor [104, 105]).2 =
      [⟨false, []⟩, ⟨false, []⟩] ∧
    (feed (string_matcher_of [104, 105, 124, 104, 105, 50] 2) fresh_cursor [104, 105, 32]).2 =
      [⟨false, []⟩, ⟨false, []⟩, ⟨true, [(0, 1)]⟩] ∧
    (feed (string_matcher_of [104, 105, 124, 104, 105, 50] 2) fresh_cursor
      [120, 104, 105, 50]).2 = [⟨false, []⟩, ⟨false, []⟩, ⟨false, []⟩, ⟨true, [(1, 3)]⟩] ∧
    ∃ t, compile_to_table n meta_matcher_spec (alternatives meta_matcher_spec).length = .ok t ∧
      ∀ (pre : List Nat), (feed (to_string_matcher t) fresh_cursor pre).1.state = 0 →
      ∀ (j : Nat) (u : List Nat) (c : Nat),
        (alternatives meta_matcher_spec)[j]? = some (u ++ [c]) →
        ∃ k r, (alternatives meta_matcher_spec)[k]? = some (u ++ [c]) ∧
          (feed (to_string_matcher t) fresh_cursor (pre ++ (u ++ [c]))).2 =
            (feed (to_string_matcher t) fresh_cursor pre).2 ++
              (List.replicate u.length ⟨false, []⟩ ++ [r]) ∧
          ((¬ ∃ (i : Nat) (v : List Nat), v ≠ [] ∧
              (alternatives meta_matcher_spec)[i]? = some (u ++ c :: v)) →
            r = ⟨true, [(k, (pre.length + u.length) % size_t_values)]⟩) ∧
          ((∃ (i : Nat) (v : List Nat), v ≠ [] ∧
              (alternatives meta_matcher_spec)[i]? = some (u ++ c :: v)) →
            r = ⟨false, []⟩ ∧
            ∀ d, d < 256 →
              (¬ ∃ (i : Nat) (v : List Nat),
                (alternatives meta_matcher_spec)[i]? = some (u ++ c :: d :: v)) →
              (feed (to_string_matcher t) fresh_cursor ((pre ++ (u ++ [c])) ++ [d])).2 =
                (feed (to_string_matcher t) fresh_cursor (pre ++ (u ++ [c]))).2 ++
                  [⟨true, [(k, (pre.length + u.length) % size_t_values)]⟩]) := by
  refine ⟨by decide!, by decide!, by decide!, ?_⟩
  obtain ⟨t, name, hc, _, _, ht⟩ := compile_to_table_trie meta_matcher_spec n hwf hne
  have h0 := trie_rows_pos _ _ _ _ _ _ ht (alternatives_length_pos _)
    (first_alternative_ne_nil _ hne)
  refine ⟨t, hc, ?_⟩
  intro pre hpre j u c hj
  have hb : ∀ b ∈ u ++ [c], b < 256 := by
    intro b hx
    have := alternatives_bytes meta_matcher_spec 0 n hwf _ (List.getElem?_mem hj) b hx
    omega
  obtain ⟨s, k, r, hw, _, hk, hfeed, hiff, hdead, hlive⟩ :=
    feed_alternative _ _ name t ht h0 j u c hj hb
      (feed (to_string_matcher t) fresh_cursor pre).1 hpre
      (by rw [feed_position _ _ _ size_t_values_pos]; exact Nat.mod_lt _ size_t_values_pos)
  have hpos : ((feed (to_string_matcher t) fresh_cursor pre).1.input_stream_position +
      u.length) % size_t_values = (pre.length + u.length) % size_t_values := by
    rw [feed_position _ _ _ size_t_values_pos, Nat.mod_add_mod]
    show (0 + pre.length + u.length) % size_t_values = _
    rw [Nat.zero_add]
  rw [hpos] at hdead hlive
  refine ⟨k, r, hk, ?_, ?_, ?_⟩
  · rw [feed_append, hfeed]
  · intro hno
    exact hdead (hiff.2 hno)
  · intro hext
    have hn : (t.data s c).next_state ≠ 0 := fun h => (hiff.1 h) hext
    refine ⟨(hlive hn).1, ?_⟩
    intro d hd hno
    have hw2 : walk t.data 0 (u ++ [c]) = some (t.data s c).next_state := by
      rw [walk_snoc _ _ _ _ _ hw]; simp [hn]
    have hdn : (t.data (t.data s c).next_state d).next_state = 0 := by
      by_contra hdn
      obtain ⟨i, v, _, hi⟩ :=
        (trie_next_state _ _ name t.data ht h0 (u ++ [c]) _ d hw2).1 hdn
      exact hno ⟨i, v, by rw [hi]; simp⟩
    have hdc : (t.data (t.data s c).next_state d).callback = none := by
      cases hcb : (t.data (t.data s c).next_state d).callback with
      | none => rfl
      | some k2 =>
        have := (trie_callback_sound _ _ _ name t.data ht h0 (u ++ [c]) _ d k2 hw2 hcb).1
        exact absurd ⟨k2, [], by rw [this]; simp⟩ hno
    have hlast := (hlive hn).2 d hd hdn hdc
    rw [feed_append (to_string_matcher t) (pre ++ (u ++ [c])) [d]]
    show _ ++ [(match_character (to_string_matcher t)
      (feed (to_string_matcher t) fresh_cursor (pre ++ (u ++ [c]))).1 d).2] = _
    have hcur : (feed (to_string_matcher t) fresh_cursor (pre ++ (u ++ [c]))).1 =
        (feed (to_string_matcher t) (feed (to_string_matcher t) fresh_cursor pre).1
          (u ++ [c])).1 := by
      rw [feed_append]
    rw [hcur, hlast]

theorem match_at_end_of_input_witness :
    (calculate_table_length [104, 105, 124, 104, 105, 50] = .ok 5 ∧
      ∀ a ∈ alternatives [104, 105, 124, 104, 105, 50], a ≠ []) ∧
    (feed (string_matcher_of [104, 105, 124, 104, 105, 50] 2) fresh_cursor [104, 105]).2 =
      [⟨false, []⟩, ⟨false, []⟩] ∧
    (feed (string_matcher_of [104, 105, 124, 104, 105, 50] 2) fresh_cursor [104, 105, 32]).2 =
      [⟨false, []⟩, ⟨false, []⟩, ⟨true, [(0, 1)]⟩] ∧
    (feed (string_matcher_of [104, 105, 124, 104, 105, 50] 2) fresh_cursor
      [120, 104, 105, 50]).2 = [⟨false, []⟩, ⟨false, []⟩, ⟨false, []⟩, ⟨true, [(1, 3)]⟩] ∧
    ∃ t, compile_to_table 5 [104, 105, 124, 104, 105, 50]
        (alternatives [104, 105, 124, 104, 105, 50]).length = .ok t ∧
      ∀ (pre : List Nat), (feed (to_string_matcher t) fresh_cursor pre).1.state = 0 →
      ∀ (j : Nat) (u : List Nat) (c : Nat),
        (alternatives [104, 105, 124, 104, 105, 50])[j]? = some (u ++ [c]) →
        ∃ k r, (alternatives [104, 105, 124, 104, 105, 50])[k]? = some (u ++ [c]) ∧
          (feed (to_string_matcher t) fresh_cursor (pre ++ (u ++ [c]))).2 =
            (feed (to_string_matcher t) fresh_cursor pre).2 ++
              (List.replicate u.length ⟨false, []⟩ ++ [r]) ∧
          ((¬ ∃ (i : Nat) (v : List Nat), v ≠ [] ∧
              (alternatives [104, 105, 124, 104, 105, 50])[i]? = some (u ++ c :: v)) →
            r = ⟨true, [(k, (pre.length + u.length) % size_t_values)]⟩) ∧
          ((∃ (i : Nat) (v : List Nat), v ≠ [] ∧
              (alternatives [104, 105, 124, 104, 105, 50])[i]? = some (u ++ c :: v)) →
            r = ⟨false, []⟩ ∧
            ∀ d, d < 256 →
              (¬ ∃ (i : Nat) (v : List Nat),
                (alternatives [104, 105, 124, 104, 105, 50])[i]? = some (u ++ c :: d :: v)) →
              (feed (to_string_matcher t) fresh_cursor ((pre ++ (u ++ [c])) ++ [d])).2 =
                (feed (to_string_matcher t) fresh_cursor (pre ++ (u ++ [c]))).2 ++
                  [⟨true, [(k, (pre.length + u.length) % size_t_values)]⟩]) :=
  ⟨⟨rfl, by decide⟩, match_at_end_of_input _ 5 rfl (by decide)⟩

theorem drop_cons_of_lt (l : List Nat) (i : Nat) (h : i < l.length) :
    ∃ c, l[i]? = some c ∧ l.drop i = c :: l.drop (i + 1) :=
  ⟨l.get ⟨i, h⟩, List.getElem?_eq_getElem h, List.drop_eq_getElem_cons h⟩

/-- One iteration of the chain-building loop at index `i` is one step of
`compile_loops` on the bytes from `i` on, and it moves the index forward without
passing the end of the spec. -/
theorem chain_iteration_step (tl cb : Nat) (l : List Nat) (st : compile_state) (i : Nat)
    (hi : i < l.length) :
    (compile_loops tl cb false st (l.drop i) =
      match chain_iteration tl cb l st i with
      | .error e => .error e
      | .ok p => compile_loops tl cb p.2.2 p.1 (l.drop p.2.1)) ∧
    (∀ p, chain_iteration tl cb l st i = .ok p → i < p.2.1 ∧ p.2.1 ≤ l.length) := by
  obtain ⟨c, hc, hdrop⟩ := drop_cons_of_lt l i hi
  rw [hdrop, compile_loops_chain_cons]
  unfold chain_iteration
  rw [hc]
  simp only
  by_cases h0 : c > 127
  · simp [h0]
  · rw [if_neg h0, if_neg h0]
    by_cases h1 : c = 124
    · rw [if_pos h1, if_pos h1]
      cases chain_pipe tl cb st with
      | error e => simp
      | ok st1 =>
        refine ⟨rfl, ?_⟩
        intro p hp
        cases hp
        exact ⟨Nat.lt_succ_self _, hi⟩
    · rw [if_neg h1, if_neg h1]
      by_cases h2 : c = 92
      · rw [if_pos h2, if_pos h2]
        by_cases h3 : i + 1 = l.length
        · rw [if_pos h3]
          have : l.drop (i + 1) = [] := List.drop_eq_nil_of_le (by omega)
          rw [this]
          simp
        · rw [if_neg h3]
          have hi2 : i + 1 < l.length := by omega
          obtain ⟨d, hd, hdrop2⟩ := drop_cons_of_lt l (i + 1) hi2
          rw [hdrop2, hd]
          simp only
          by_cases h4 : d > 127
          · simp [h4]
          · rw [if_neg h4, if_neg h4]
            cases chain_default tl st d with
            | error e => simp
            | ok st1 =>
              refine ⟨rfl, ?_⟩
              intro p hp
              cases hp
              exact ⟨by show i < i + 1 + 1; omega, hi2⟩
      · rw [if_neg h2, if_neg h2]
        cases chain_default tl st c with
        | error e => simp
        | ok st1 =>
          refine ⟨rfl, ?_⟩
          intro p hp
          cases hp
          exact ⟨Nat.lt_succ_self _, hi⟩

/-- One iteration of the merge loop at index `i` is one step of `compile_loops` on the
bytes from `i` on, and it moves the index forward without passing the end of the
spec. -/
theorem merge_iteration_step (tl cb : Nat) (l : List Nat) (st : compile_state) (i : Nat)
    (hi : i < l.length) :
    (compile_loops tl cb true st (l.drop i) =
      match merge_iteration tl cb l st i with
      | .error e => .error e
      | .ok p => compile_loops tl cb (!p.2.2) p.1 (l.drop p.2.1)) ∧
    (∀ p, merge_iteration tl cb l st i = .ok p → i < p.2.1 ∧ p.2.1 ≤ l.length) := by
  obtain ⟨c, hc, hdrop⟩ := drop_cons_of_lt l i hi
  rw [hdrop, compile_loops_merge_cons]
  unfold merge_iteration
  rw [hc]
  simp only
  by_cases h0 : c > 127
  · simp [h0]
  · rw [if_neg h0, if_neg h0]
    by_cases h1 : c = 124
    · rw [if_pos h1, if_pos h1]
      cases merge_pipe tl cb st with
      | error e => simp
      | ok st1 =>
        refine ⟨rfl, ?_⟩
        intro p hp
        cases hp
        exact ⟨Nat.lt_succ_self _, hi⟩
    · rw [if_neg h1, if_neg h1]
      by_cases h2 : c = 92
      · rw [if_pos h2, if_pos h2]
        by_cases h3 : i + 1 = l.length
        · rw [if_pos h3]
          have : l.drop (i + 1) = [] := List.drop_eq_nil_of_le (by omega)
          rw [this]
          simp
        · rw [if_neg h3]
          have hi2 : i + 1 < l.length := by omega
          obtain ⟨d, hd, hdrop2⟩ := drop_cons_of_lt l (i + 1) hi2
          rw [hdrop2, hd]
          simp only
          by_cases h4 : d > 127
          · simp [h4]
          · rw [if_neg h4, if_neg h4]
            cases merge_default tl st d with
            | error e => simp
            | ok q =>
              refine ⟨rfl, ?_⟩
              intro p hp
              cases hp
              exact ⟨by show i < i + 1 + 1; omega, hi2⟩
      · rw [if_neg h2, if_neg h2]
        cases merge_default tl st c with
        | error e => simp
        | ok q =>
          refine ⟨rfl, ?_⟩
          intro p hp
          cases hp
          exact ⟨Nat.lt_succ_self _, hi⟩

/-- The chain-building loop with enough iterations allowed is left, with a failure or
with an index that has moved forward unless it was the length of the spec; and what
`compile_loops` does from `i` on is what the merge loop does from there. -/
theorem chain_for_spec (tl cb : Nat) (l : List Nat) (fuel : Nat) :
    ∀ (st : compile_state) (i : Nat), i ≤ l.length → l.length - i < fuel →
      ∃ r, chain_for tl cb l fuel st i = some r ∧
        (compile_loops tl cb false st (l.drop i) =
          match r with
          | .error e => .error e
          | .ok p => compile_loops tl cb true p.1 (l.drop p.2)) ∧
        (∀ p, r = .ok p → i ≤ p.2 ∧ p.2 ≤ l.length ∧ (i < l.length → i < p.2)) := by
  induction fuel with
  | zero => intro st i _ h; omega
  | succ fuel ih =>
    intro st i hle hfuel
    unfold chain_for
    by_cases hi : i < l.length
    · rw [if_pos hi]
      obtain ⟨hstep, hprog⟩ := chain_iteration_step tl cb l st i hi
      cases hit : chain_iteration tl cb l st i with
      | error e =>
        rw [hit] at hstep
        refine ⟨.error e, rfl, hstep, ?_⟩
        intro p hp; cases hp
      | ok q =>
        obtain ⟨st1, i1, brk⟩ := q
        rw [hit] at hstep
        obtain ⟨h1, h2⟩ := hprog _ hit
        simp only at h1 h2 hstep
        cases brk with
        | true =>
          refine ⟨.ok (st1, i1), rfl, hstep, ?_⟩
          intro p hp
          cases hp
          exact ⟨by show i ≤ i1; omega, h2, fun _ => h1⟩
        | false =>
          obtain ⟨r, hr, hspec, hbound⟩ := ih st1 i1 h2 (by omega)
          refine ⟨r, hr, by rw [hstep]; exact hspec, ?_⟩
          intro p hp
          obtain ⟨b1, b2, _⟩ := hbound p hp
          exact ⟨by omega, b2, fun _ => by omega⟩
    · rw [if_neg hi]
      have hil : i = l.length := by omega
      refine ⟨.ok (st, i), rfl, ?_, ?_⟩
      · have : l.drop i = [] := List.drop_eq_nil_of_le (by omega)
        simp only [this, compile_loops_nil]
      · intro p hp
        cases hp
        exact ⟨le_refl _, hle, fun h => absurd h hi⟩

/-- The merge loop with enough iterations allowed is left, with a failure or with an
index that has not moved back; and what `compile_loops` does from `i` on is what the
chain-building loop does from there. -/
theorem merge_for_spec (tl cb : Nat) (l : List Nat) (fuel : Nat) :
    ∀ (st : compile_state) (i : Nat), i ≤ l.length → l.length - i < fuel →
      ∃ r, merge_for tl cb l fuel st i = some r ∧
        (compile_loops tl cb true st (l.drop i) =
          match r with
          | .error e => .error e
          | .ok p => compile_loops tl cb false p.1 (l.drop p.2)) ∧
        (∀ p, r = .ok p → i ≤ p.2 ∧ p.2 ≤ l.length) := by
  induction fuel with
  | zero => intro st i _ h; omega
  | succ fuel ih =>
    intro st i hle hfuel
    unfold merge_for
    by_cases hi : i < l.length
    · rw [if_pos hi]
      obtain ⟨hstep, hprog⟩ := merge_iteration_step tl cb l st i hi
      cases hit : merge_iteration tl cb l st i with
      | error e =>
        rw [hit] at hstep
        refine ⟨.error e, rfl, hstep, ?_⟩
        intro p hp; cases hp
      | ok q =>
        obtain ⟨st1, i1, brk⟩ := q
        rw [hit] at hstep
        obtain ⟨h1, h2⟩ := hprog _ hit
        simp only at h1 h2 hstep
        cases brk with
        | true =>
          refine ⟨.ok (st1, i1), rfl, hstep, ?_⟩
          intro p hp
          cases hp
          exact ⟨by show i ≤ i1; omega, h2⟩
        | false =>
          obtain ⟨r, hr, hspec, hbound⟩ := ih st1 i1 h2 (by omega)
          refine ⟨r, hr, by rw [hstep]; exact hspec, ?_⟩
          intro p hp
          obtain ⟨b1, b2⟩ := hbound p hp
          exact ⟨by omega, b2⟩
    · rw [if_neg hi]
      refine ⟨.ok (st, i), rfl, ?_, ?_⟩
      · have : l.drop i = [] := List.drop_eq_nil_of_le (by omega)
        simp only [this, compile_loops_nil]
      · intro p hp
        cases hp
        exact ⟨le_refl _, hle⟩

/-- One pass of the body of `while (true)` with enough iterations allowed ends, with a
failure or with an index that has moved forward unless it was the length of the spec;
and it is a stretch of `compile_loops`. -/
theorem outer_pass_spec (tl cb : Nat) (l : List Nat) (fuel : Nat) (hfuel : l.length < fuel)
    (st : compile_state) (i : Nat) (hle : i ≤ l.length) :
    ∃ r, outer_pass tl cb l fuel st i = some r ∧
      (compile_loops tl cb false st (l.drop i) =
        match r with
        | .error e => .error e
        | .ok p => compile_loops tl cb false p.1 (l.drop p.2)) ∧
      (∀ p, r = .ok p → i ≤ p.2 ∧ p.2 ≤ l.length ∧ (i < l.length → i < p.2)) := by
  obtain ⟨r1, hr1, hs1, hb1⟩ := chain_for_spec tl cb l fuel st i hle (by omega)
  unfold outer_pass
  rw [hr1]
  cases r1 with
  | error e =>
    refine ⟨.error e, rfl, hs1, ?_⟩
    intro p hp; cases hp
  | ok q =>
    obtain ⟨st1, i1⟩ := q
    obtain ⟨c1, c2, c3⟩ := hb1 _ rfl
    simp only at c1 c2 c3 hs1
    obtain ⟨r2, hr2, hs2, hb2⟩ := merge_for_spec tl cb l fuel st1 i1 c2 (by omega)
    refine ⟨r2, hr2, by rw [hs1]; exact hs2, ?_⟩
    intro p hp
    obtain ⟨d1, d2⟩ := hb2 p hp
    exact ⟨by omega, d2, fun h => by have := c3 h; omega⟩

/-- The loop `while (true)` with enough passes and iterations allowed is left, and
with what `compile_loops` gives on the bytes from `i` on. -/
theorem compile_while_spec (tl cb : Nat) (l : List Nat) (fuel : Nat) (hfuel : l.length < fuel)
    (passes : Nat) :
    ∀ (st : compile_state) (i : Nat), i ≤ l.length → l.length - i < passes →
      compile_while tl cb l fuel passes st i = some (compile_loops tl cb false st (l.drop i)) := by
  induction passes with
  | zero => intro st i _ h; omega
  | succ passes ih =>
    intro st i hle hp
    obtain ⟨r, hr, hs, hb⟩ := outer_pass_spec tl cb l fuel hfuel st i hle
    unfold compile_while
    rw [hr, hs]
    cases r with
    | error e => rfl
    | ok q =>
      obtain ⟨st1, i1⟩ := q
      obtain ⟨c1, c2, c3⟩ := hb _ rfl
      simp only at c1 c2 c3 ⊢
      by_cases hend : i1 = l.length
      · rw [if_pos hend]
        have : l.drop i1 = [] := List.drop_eq_nil_of_le (by omega)
        rw [this, compile_loops_nil]
      · rw [if_neg hend]
        have hlt : i < l.length := by omega
        have := c3 hlt
        exact ih st1 i1 c2 (by omega)

/-- C27. The loops of `compile_to_table` end on every spec.  With the spec index `i`
explicit and more passes and iterations allowed than the spec has bytes: each pass of
`while (true)` that starts with `i` at most the length ends, with a failure or with `i`
still at most the length and either moved forward or equal to the length; the loop is
left, with the failure or state that `compile_loops` gives for the spec; an iteration
that meets a backslash as the last byte stops the build instead of moving `i` past the
end; and every iteration that does not fail moves `i` forward and not past the
length. -/
theorem compile_to_table_terminates (table_length callbacks : Nat)
    (meta_matcher_spec : List Nat) (passes fuel : Nat)
    (hpasses : meta_matcher_spec.length < passes) (hfuel : meta_matcher_spec.length < fuel) :
    (∀ (st : compile_state) (i : Nat), i ≤ meta_matcher_spec.length →
      ∃ r, outer_pass table_length callbacks meta_matcher_spec fuel st i = some r ∧
        ∀ p, r = .ok p → p.2 ≤ meta_matcher_spec.length ∧
          (i < p.2 ∨ p.2 = meta_matcher_spec.length)) ∧
    compile_while table_length callbacks meta_matcher_spec fuel passes compile_init 0 =
      some (compile_loops table_length callbacks false compile_init meta_matcher_spec) ∧
    (∀ (st : compile_state) (i : Nat), meta_matcher_spec[i]? = some 92 →
      i + 1 = meta_matcher_spec.length →
      chain_iteration table_length callbacks meta_matcher_spec st i =
        .error .trailing_backslash ∧
      merge_iteration table_length callbacks meta_matcher_spec st i =
        .error .trailing_backslash) ∧
    (∀ (st : compile_state) (i : Nat) (p : compile_state × Nat × Bool),
      i < meta_matcher_spec.length →
      (chain_iteration table_length callbacks meta_matcher_spec st i = .ok p ∨
        merge_iteration table_length callbacks meta_matcher_spec st i = .ok p) →
      i < p.2.1 ∧ p.2.1 ≤ meta_matcher_spec.length) := by
  refine ⟨?_, ?_, ?_, ?_⟩
  · intro st i hle
    obtain ⟨r, hr, _, hb⟩ := outer_pass_spec table_length callbacks meta_matcher_spec fuel
      hfuel st i hle
    refine ⟨r, hr, ?_⟩
    intro p hp
    obtain ⟨c1, c2, c3⟩ := hb p hp
    refine ⟨c2, ?_⟩
    by_cases h : i < meta_matcher_spec.length
    · exact Or.inl (c3 h)
    · exact Or.inr (by omega)
  · have := compile_while_spec table_length callbacks meta_matcher_spec fuel hfuel passes
      compile_init 0 (Nat.zero_le _) (by omega)
    rw [this, List.drop_zero]
  · intro st i h92 hend
    constructor
    · unfold chain_iteration
      rw [h92]
      simp [hend]
    · unfold merge_iteration
      rw [h92]
      simp [hend]
  · intro st i p hi hp
    rcases hp with hp | hp
    · exact (chain_iteration_step table_length callbacks meta_matcher_spec st i hi).2 p hp
    · exact (merge_iteration_step table_length callbacks meta_matcher_spec st i hi).2 p hp

theorem compile_to_table_terminates_witness :
    (harness_spec.length < 38 ∧ harness_spec.length < 38) ∧
    ((∀ (st : compile_state) (i : Nat), i ≤ harness_spec.length →
      ∃ r, outer_pass 20 15 harness_spec 38 st i = some r ∧
        ∀ p, r = .ok p → p.2 ≤ harness_spec.length ∧
          (i < p.2 ∨ p.2 = harness_spec.length)) ∧
    compile_while 20 15 harness_spec 38 38 compile_init 0 =
      some (compile_loops 20 15 false compile_init harness_spec) ∧
    (∀ (st : compile_state) (i : Nat), harness_spec[i]? = some 92 →
      i + 1 = harness_spec.length →
      chain_iteration 20 15 harness_spec st i = .error .trailing_backslash ∧
      merge_iteration 20 15 harness_spec st i = .error .trailing_backslash) ∧
    (∀ (st : compile_state) (i : Nat) (p : compile_state × Nat × Bool),
      i < harness_spec.length →
      (chain_iteration 20 15 harness_spec st i = .ok p ∨
        merge_iteration 20 15 harness_spec st i = .ok p) →
      i < p.2.1 ∧ p.2.1 ≤ harness_spec.length)) :=
  ⟨⟨by decide, by decide⟩,
    compile_to_table_terminates 20 15 harness_spec 38 38 (by decide) (by decide)⟩

end meta
